import Mathlib

/-!
# Note persistence and serialization layer (cpp-backend)

A shallow embedding of `src/models/note.cpp` and `src/db/database.cpp`.

* A `std::string` is a list of characters (`Str`); a `char` is a `Char`.
* A thrown C++ exception is the `none` / `Except.error` result.
* The `std::regex` searches are run by a small backtracking matcher
  (`Rx.run`) over patterns written as syntax trees, one per pattern literal
  of the source.
* The conversions between `double` and text (`operator<<`, `std::stod`) are
  library code; they are taken as a parameter (`DoubleIO`).
-/

namespace Wazo

/-- A `std::string`. -/
abbrev Str := List Char

/-! ## `Note::escape_json` -/

/-- The text written by `ss << std::hex << std::setw(4) << std::setfill('0') << n`
for a non-negative `int n`: lower-case hexadecimal digits, padded on the left
with `'0'` to width four. -/
def hex4 (n : Nat) : Str :=
  let ds := Nat.toDigits 16 n
  List.replicate (4 - ds.length) '0' ++ ds

/-- One iteration of the loop body of `Note::escape_json`: the text appended to
`out` for the character `c` (the `switch` of the source, case by case). -/
def escape_step (c : Char) : Str :=
  if c = '"' then ['\\', '"']
  else if c = '\\' then ['\\', '\\']
  else if c = '\x08' then ['\\', 'b']
  else if c = '\x0c' then ['\\', 'f']
  else if c = '\n' then ['\\', 'n']
  else if c = '\r' then ['\\', 'r']
  else if c = '\t' then ['\\', 't']
  else if c = '#' then ['#']
  else if 0 ≤ c.toNat ∧ c.toNat ≤ 0x1f then ['\\', 'u'] ++ hex4 c.toNat
  else [c]

/-- `Note::escape_json`: the loop `for (char c : str)` appending to `out`. -/
def escape_json (str : Str) : Str :=
  str.foldl (fun out c => out ++ escape_step c) []

/-! ## `Note::unescape_json` -/

/-- The predicate `isspace` of the "C" locale. -/
def isSpace (c : Char) : Bool :=
  c = ' ' || c = '\t' || c = '\n' || c = '\x0b' || c = '\x0c' || c = '\r'

/-- Value of a hexadecimal digit, if `c` is one. -/
def hexVal (c : Char) : Option Nat :=
  if '0' ≤ c ∧ c ≤ '9' then some (c.toNat - 48)
  else if 'a' ≤ c ∧ c ≤ 'f' then some (c.toNat - 87)
  else if 'A' ≤ c ∧ c ≤ 'F' then some (c.toNat - 55)
  else none

/-- The longest run of hexadecimal digits at the head of `s`, read as a number
with the accumulated value `acc`; the flag says whether a digit was read. -/
def hexRun : Str → Nat → Bool → Nat × Bool
  | [], acc, seen => (acc, seen)
  | c :: cs, acc, seen =>
    match hexVal c with
    | some d => hexRun cs (16 * acc + d) true
    | none => (acc, seen)

/-- The digits part of `strtol(_, _, 16)` after white space and sign: an
optional `0x` / `0X` prefix and hexadecimal digits.  `none` when no conversion
can be performed.  A `0x` that no digit follows converts the `0` alone. -/
def strtol16_body : Str → Option Nat
  | '0' :: x :: cs =>
    if x = 'x' ∨ x = 'X' then some (hexRun cs 0 false).1
    else some (hexRun (x :: cs) 0 true).1
  | s => let r := hexRun s 0 false; if r.2 then some r.1 else none

/-- `std::stoi(hex, nullptr, 16)` on a short string: leading white space is
skipped, a sign is accepted, then `strtol16_body`.  `none` stands for the
`std::invalid_argument` thrown when no conversion can be performed (the value
of at most four digits always fits an `int`). -/
def stoi16 (s : Str) : Option Int :=
  match s.dropWhile isSpace with
  | '-' :: cs => (strtol16_body cs).map (fun n => - (n : Int))
  | '+' :: cs => (strtol16_body cs).map (fun n => (n : Int))
  | cs => (strtol16_body cs).map (fun n => (n : Int))

/-- `static_cast<char>(code)`: the low eight bits. -/
def charOfInt (code : Int) : Char := Char.ofNat (code % 256).toNat

/-- The `switch` of `Note::unescape_json` on the character `d` after a
backslash, for the cases other than `u`: the character appended to `out`. -/
def unescaped_char (d : Char) : Char :=
  if d = '"' then '"'
  else if d = '\\' then '\\'
  else if d = '/' then '/'
  else if d = 'b' then '\x08'
  else if d = 'f' then '\x0c'
  else if d = 'n' then '\n'
  else if d = 'r' then '\r'
  else if d = 't' then '\t'
  else d

/-- `Note::unescape_json`.  The index loop of the source is unfolded into a
recursion on the remaining text: a backslash that is not the last character
consumes the next character `d` and appends `unescaped_char d`, except that
`\u` consumes four more characters when four more are there
(`i + 4 < str.length()`) and appends the character of their value, and
otherwise appends nothing.  `none` stands for the exception of `std::stoi`. -/
def unescape_json : Str → Option Str
  | [] => some []
  | c :: t =>
    let plain := (unescape_json t).map (c :: ·)
    match t with
    | [] => plain
    | d :: rest =>
      if c = '\\' then
        if d = 'u' then
          let skipped := unescape_json rest
          match rest with
          | h1 :: h2 :: h3 :: h4 :: rest4 =>
            match stoi16 [h1, h2, h3, h4] with
            | some code => (unescape_json rest4).map (charOfInt code :: ·)
            | none => none
          | _ => skipped
        else (unescape_json rest).map (unescaped_char d :: ·)
      else plain

/-! ## The regular expressions of the codec

`std::regex` with the default (ECMAScript) grammar is a backtracking matcher:
alternatives are tried left to right, a greedy quantifier tries the longest
repetition first, a lazy one the shortest, and the first way to complete the
whole pattern is the match.  Every quantifier in the patterns of this program
is applied to a single character class, which is what `Rx.star` offers. -/

/-- Syntax of the regular expressions used by the program. -/
inductive Rx where
  /-- A literal character. -/
  | chr (c : Char)
  /-- A character class, `[^"]`, `\s`, `\d`, `.`. -/
  | set (p : Char → Bool)
  /-- The quantifier `*` (greedy) or `*?` (lazy) on a character class. -/
  | star (p : Char → Bool) (greedy : Bool)
  /-- Concatenation. -/
  | seq (a b : Rx)
  /-- Alternation `a|b`. -/
  | alt (a b : Rx)
  /-- The empty pattern. -/
  | eps
  /-- The capture group number `i`. -/
  | grp (i : Nat) (a : Rx)

/-- The sub-matches of a match: `none` is a group that did not take part. -/
abbrev Caps := Nat → Option Str

/-- No group matched. -/
def Caps.none : Caps := fun _ => Option.none

/-- Record the text of group `i`. -/
def Caps.set (c : Caps) (i : Nat) (v : Str) : Caps :=
  fun j => if j = i then some v else c j

/-- `match[i]` converted to `std::string`: empty for a group that did not
match. -/
def Caps.str (c : Caps) (i : Nat) : Str := (c i).getD []

/-- The first of two attempts that succeeds. -/
def orTry {α : Type} (a b : Option α) : Option α :=
  match a with
  | some x => some x
  | Option.none => b

/-- Repetition of a character class followed by the continuation `k`. -/
def Rx.starRun {α : Type} (p : Char → Bool) (greedy : Bool) :
    Str → (Str → Option α) → Option α
  | [], k => k []
  | c :: cs, k =>
    if p c then
      if greedy then orTry (Rx.starRun p greedy cs k) (k (c :: cs))
      else orTry (k (c :: cs)) (Rx.starRun p greedy cs k)
    else k (c :: cs)

/-- Backtracking matcher: match `r` at the head of `s`, then continue with
`k` on the remaining text; the first success in priority order wins. -/
def Rx.run {α : Type} : Rx → Str → Caps → (Str → Caps → Option α) → Option α
  | .chr c, s, caps, k =>
    match s with
    | d :: t => if d = c then k t caps else Option.none
    | [] => Option.none
  | .set p, s, caps, k =>
    match s with
    | d :: t => if p d then k t caps else Option.none
    | [] => Option.none
  | .star p g, s, caps, k => Rx.starRun p g s (fun t => k t caps)
  | .seq a b, s, caps, k => Rx.run a s caps (fun t c => Rx.run b t c k)
  | .alt a b, s, caps, k => orTry (Rx.run a s caps k) (Rx.run b s caps k)
  | .eps, s, caps, k => k s caps
  | .grp i a, s, caps, k =>
    Rx.run a s caps (fun t c => k t (c.set i (s.take (s.length - t.length))))

/-- A match of the whole pattern at the head of `s`: the sub-matches and the
text after the match. -/
def Rx.matchAt (r : Rx) (s : Str) : Option (Caps × Str) :=
  Rx.run r s Caps.none (fun t c => some (c, t))

/-- All matches, as `std::sregex_iterator` enumerates them: the leftmost match
first, each further search starting where the previous match ended.  `skip`
counts the characters of the previous match still to be passed over.  (No
pattern of this program matches the empty string.) -/
def Rx.scan (r : Rx) : Str → Nat → List Caps
  | [], _ => []
  | _ :: cs, skip + 1 => Rx.scan r cs skip
  | c :: cs, 0 =>
    match Rx.matchAt r (c :: cs) with
    | some (caps, rest) => caps :: Rx.scan r cs (cs.length - rest.length)
    | Option.none => Rx.scan r cs 0

/-- The sequence of matches `std::sregex_iterator(s.begin(), s.end(), r)`. -/
def Rx.allMatches (r : Rx) (s : Str) : List Caps := Rx.scan r s 0

/-- Concatenation of several patterns. -/
def Rx.cat : List Rx → Rx
  | [] => .eps
  | [a] => a
  | a :: as => .seq a (Rx.cat as)

/-- A literal word. -/
def Rx.word (w : Str) : Rx := Rx.cat (w.map Rx.chr)

/-- The quantifier `+` (greedy) on a character class. -/
def Rx.plus (p : Char → Bool) : Rx := .seq (.set p) (.star p true)

/-- The quantifier `?` (greedy). -/
def Rx.opt (a : Rx) : Rx := .alt a .eps

/-- The class `[^"]`. -/
def notQuote (c : Char) : Bool := c != '"'

/-- The class `[^}]`. -/
def notBrace (c : Char) : Bool := c != '}'

/-- The class `.`: any character but a line terminator. -/
def anyChar (c : Char) : Bool := c != '\n' && c != '\r'

/-- The class `\d`. -/
def isDigit (c : Char) : Bool := decide ('0' ≤ c ∧ c ≤ '9')

/-- The part `"([^"]+)"\s*:\s*` shared by three patterns. -/
def keyPrefix : Rx :=
  Rx.cat [.chr '"', .grp 1 (Rx.plus notQuote), .chr '"',
    .star isSpace true, .chr ':', .star isSpace true]

/-- The part `"([^"]*)"` with the string in group `i`. -/
def quoted (i : Nat) : Rx :=
  Rx.cat [.chr '"', .grp i (.star notQuote true), .chr '"']

/-- The `pattern` of `Note::from_json`:
`"([^"]+)"\s*:\s*(?:"([^"]*)"|(\[.*?\]|\{.*?\}|true|false))`. -/
def note_pattern : Rx :=
  .seq keyPrefix
    (.alt (quoted 2)
      (.grp 3
        (.alt (Rx.cat [.chr '[', .star anyChar false, .chr ']'])
          (.alt (Rx.cat [.chr '{', .star anyChar false, .chr '}'])
            (.alt (Rx.word "true".toList) (Rx.word "false".toList))))))

/-- The `pattern` of `BacklinkReference::from_json`:
`"([^"]+)"\s*:\s*(?:"([^"]*)"|(true|false|\d+\.?\d*))`. -/
def backlink_pattern : Rx :=
  .seq keyPrefix
    (.alt (quoted 2)
      (.grp 3
        (.alt (Rx.word "true".toList)
          (.alt (Rx.word "false".toList)
            (Rx.cat [Rx.plus isDigit, Rx.opt (.chr '.'), .star isDigit true])))))

/-- The `tag_pattern` and the second `ref_pattern` of `Note::from_json`:
`"([^"]*)"`. -/
def tag_pattern : Rx := quoted 1

/-- The `output_pattern` of `Note::from_json`: `"([^"]+)"\s*:\s*"([^"]*)"`. -/
def output_pattern : Rx := .seq keyPrefix (quoted 2)

/-- The first `ref_pattern` of `Note::from_json`: `\{([^}]+)\}`. -/
def ref_pattern : Rx :=
  Rx.cat [.chr '{', .grp 1 (Rx.plus notBrace), .chr '}']

/-! ## The entities -/

/-- The two library conversions between `double` and text that the codec
calls.  The program computes nothing with a `double`; it only prints and
parses it. -/
structure DoubleIO where
  /-- The type `double`. -/
  Dbl : Type
  /-- The text written by `ss << relevance`. -/
  fmt : Dbl → Str
  /-- The function `std::stod`; `none` stands for the exception it throws
  (`std::invalid_argument`, `std::out_of_range`). -/
  stod : Str → Option Dbl

/-- The struct `BacklinkReference` of `note.hpp`. -/
structure BacklinkReference (io : DoubleIO) where
  noteId : Str
  context : Str
  timestamp : Str
  relevance : io.Dbl
  accepted : Bool
  rejected : Bool

/-- Comparison of two texts as `std::string::operator<` and the collation BINARY (`memcmp`) do: `a < b`. -/
def strLt : Str → Str → Bool
  | _, [] => false
  | [], _ :: _ => true
  | a :: as, b :: bs => decide (a < b) || (a == b && strLt as bs)

/-- A `std::map<std::string, std::string>` in iteration order (ascending
keys). -/
abbrev StrMap := List (Str × Str)

/-- The assignment `map[key] = value`. -/
def StrMap.assign (key value : Str) : StrMap → StrMap
  | [] => [(key, value)]
  | (k, v) :: m =>
    if strLt key k then (key, value) :: (k, v) :: m
    else if key = k then (k, value) :: m
    else (k, v) :: StrMap.assign key value m

/-- The class `Note` of `note.hpp`. -/
structure Note (io : DoubleIO) where
  id : Str
  content : Str
  created_at : Str
  last_modified : Str
  tags : List Str
  code_outputs : StrMap
  backlinks : List (BacklinkReference io)
  references : List Str
  suggested_links : List (BacklinkReference io)

/-- The default-constructed `Note note;`. -/
def Note.empty (io : DoubleIO) : Note io :=
  { id := [], content := [], created_at := [], last_modified := [], tags := [],
    code_outputs := [], backlinks := [], references := [], suggested_links := [] }

/-! ## Encoding -/

variable {io : DoubleIO}

/-- `Note::vector_to_json`: the loop over the indices `i` of `vec`. -/
def vector_to_json (vec : List Str) : Str :=
  (vec.enum.foldl
    (fun ss iv =>
      (if iv.1 > 0 then ss ++ [','] else ss) ++ ['"'] ++ escape_json iv.2 ++ ['"'])
    ['[']) ++ [']']

/-- `Note::map_to_json`: the loop over the entries with the flag `first`. -/
def map_to_json (map : StrMap) : Str :=
  (map.foldl
    (fun st kv =>
      ((if !st.2 then st.1 ++ [','] else st.1)
        ++ ['"'] ++ escape_json kv.1 ++ "\":\"".toList ++ escape_json kv.2 ++ ['"'],
       false))
    (['{'], true)).1 ++ ['}']

/-- `BacklinkReference::to_json`. -/
def BacklinkReference.to_json (r : BacklinkReference io) : Str :=
  ['{']
    ++ "\"noteId\":\"".toList ++ escape_json r.noteId ++ "\",".toList
    ++ "\"context\":\"".toList ++ escape_json r.context ++ "\",".toList
    ++ "\"timestamp\":\"".toList ++ escape_json r.timestamp ++ "\",".toList
    ++ "\"relevance\":".toList ++ io.fmt r.relevance ++ ",".toList
    ++ "\"accepted\":".toList ++ (if r.accepted then "true" else "false").toList ++ ",".toList
    ++ "\"rejected\":".toList ++ (if r.rejected then "true" else "false").toList
    ++ ['}']

/-- `Note::backlinks_to_json`: the loop over the indices `i` of `backlinks`. -/
def backlinks_to_json (backlinks : List (BacklinkReference io)) : Str :=
  (backlinks.enum.foldl
    (fun ss ib => (if ib.1 > 0 then ss ++ [','] else ss) ++ ib.2.to_json)
    ['[']) ++ [']']

/-- `Note::to_json`. -/
def Note.to_json (n : Note io) : Str :=
  ['{']
    ++ "\"id\":\"".toList ++ escape_json n.id ++ "\",".toList
    ++ "\"content\":\"".toList ++ escape_json n.content ++ "\",".toList
    ++ "\"created_at\":\"".toList ++ escape_json n.created_at ++ "\",".toList
    ++ "\"last_modified\":\"".toList ++ escape_json n.last_modified ++ "\",".toList
    ++ "\"tags\":".toList ++ vector_to_json n.tags ++ ",".toList
    ++ "\"code_outputs\":".toList ++ map_to_json n.code_outputs ++ ",".toList
    ++ "\"backlinks\":".toList ++ backlinks_to_json n.backlinks ++ ",".toList
    ++ "\"references\":".toList ++ vector_to_json n.references ++ ",".toList
    ++ "\"suggested_links\":".toList ++ backlinks_to_json n.suggested_links
    ++ ['}']

/-! ## Decoding -/

/-- The values that the members `relevance`, `accepted` and `rejected` of a
default-initialised `BacklinkReference ref;` happen to hold: the declaration
does not initialise them. -/
structure Indeterminate (io : DoubleIO) where
  relevance : io.Dbl
  accepted : Bool
  rejected : Bool

/-- The object `BacklinkReference ref;`: empty strings, the other members
indeterminate. -/
def BacklinkReference.declared (u : Indeterminate io) : BacklinkReference io :=
  { noteId := [], context := [], timestamp := [],
    relevance := u.relevance, accepted := u.accepted, rejected := u.rejected }

/-- The value `match[2].matched ? match[2] : match[3]`. -/
def Caps.value (m : Caps) : Str :=
  if (m 2).isSome then m.str 2 else m.str 3

/-- The body of the loop of `BacklinkReference::from_json` for one match;
`none` stands for the exception of `std::stod`. -/
def BacklinkReference.from_json_step (ref : BacklinkReference io) (m : Caps) :
    Option (BacklinkReference io) :=
  let key := m.str 1
  let value := m.value
  if key = "noteId".toList then some { ref with noteId := value }
  else if key = "context".toList then some { ref with context := value }
  else if key = "timestamp".toList then some { ref with timestamp := value }
  else if key = "relevance".toList then
    (io.stod value).map (fun d => { ref with relevance := d })
  else if key = "accepted".toList then
    some { ref with accepted := decide (value = "true".toList) }
  else if key = "rejected".toList then
    some { ref with rejected := decide (value = "true".toList) }
  else some ref

/-- `BacklinkReference::from_json`. -/
def BacklinkReference.from_json (u : Indeterminate io) (json_str : Str) :
    Option (BacklinkReference io) :=
  (Rx.allMatches backlink_pattern json_str).foldlM
    BacklinkReference.from_json_step (BacklinkReference.declared u)

/-- The loops `for (auto it = ...) push_back(unescape_json((*it)[1]))` over
the matches of `"([^"]*)"`, for `tags` and `references`. -/
def parse_strings (acc : List Str) (value : Str) : Option (List Str) :=
  (Rx.allMatches tag_pattern value).foldlM
    (fun v m => (unescape_json (m.str 1)).map (fun t => v ++ [t])) acc

/-- The loop over the matches of `output_pattern`:
`note.code_outputs[output_match[1]] = unescape_json(output_match[2])`. -/
def parse_outputs (acc : StrMap) (value : Str) : Option StrMap :=
  (Rx.allMatches output_pattern value).foldlM
    (fun mp m => (unescape_json (m.str 2)).map (fun v => mp.assign (m.str 1) v)) acc

/-- The loop over the matches of `\{([^}]+)\}` for `backlinks` and
`suggested_links`.  The indeterminate members of the reference declared in the
`k`-th call of `BacklinkReference::from_json` are `u k`, where `k` counts the
references decoded before it. -/
def parse_refs (u : Nat → Indeterminate io) (key : Str) (note : Note io) (value : Str) :
    Option (Note io) :=
  (Rx.allMatches ref_pattern value).foldlM
    (fun (n : Note io) m =>
      (BacklinkReference.from_json (u (n.backlinks.length + n.suggested_links.length))
          (['{'] ++ m.str 1 ++ ['}'])).map
        (fun ref =>
          if key = "backlinks".toList then { n with backlinks := n.backlinks ++ [ref] }
          else { n with suggested_links := n.suggested_links ++ [ref] }))
    note

/-- The character `value[0]` (the terminating NUL for an empty string). -/
def firstChar (value : Str) : Char := value.headD '\x00'

/-- The body of the loop of `Note::from_json` for one match. -/
def Note.from_json_step (u : Nat → Indeterminate io) (note : Note io) (m : Caps) :
    Option (Note io) :=
  let key := m.str 1
  match (if (m 2).isSome then unescape_json (m.str 2) else some (m.str 3)) with
  | Option.none => Option.none
  | some value =>
    if key = "id".toList then some { note with id := value }
    else if key = "content".toList then some { note with content := value }
    else if key = "created_at".toList then some { note with created_at := value }
    else if key = "last_modified".toList then some { note with last_modified := value }
    else if key = "tags".toList ∧ firstChar value = '[' then
      (parse_strings note.tags value).map (fun t => { note with tags := t })
    else if key = "code_outputs".toList ∧ firstChar value = '{' then
      (parse_outputs note.code_outputs value).map (fun t => { note with code_outputs := t })
    else if (key = "backlinks".toList ∨ key = "suggested_links".toList)
        ∧ firstChar value = '[' then
      parse_refs u key note value
    else if key = "references".toList ∧ firstChar value = '[' then
      (parse_strings note.references value).map (fun t => { note with references := t })
    else some note

/-- `Note::from_json`; `none` stands for an exception leaving the function. -/
def Note.from_json (u : Nat → Indeterminate io) (json_str : Str) : Option (Note io) :=
  (Rx.allMatches note_pattern json_str).foldlM (Note.from_json_step u) (Note.empty io)

/-! ## The storage engine

A database either holds no table `notes` or holds one, the list of its rows in
the order of their insertion.  Every text reaches SQLite through
`sqlite3_bind_text(stmt, i, s.c_str(), -1, SQLITE_STATIC)`, which binds the
characters of `s` up to its first NUL character (`cstr`).  What SQLite answers
to the SQL texts of `database.cpp` is library behaviour; it is written down as
SQLite 3 has it. -/

/-- The C string `s.c_str()` as read with length `-1`: the characters before
the first NUL. -/
def cstr (s : Str) : Str := s.takeWhile (fun c => c != '\x00')

/-- A row of the table `notes`.  The first six columns are the ones the
program binds and reads; the last four hold NULL (`none`) or a text. -/
structure Row where
  id : Str
  user_id : Str
  content : Str
  created_at : Str
  last_modified : Str
  tags : Str
  code_outputs : Option Str
  backlinks : Option Str
  references : Option Str
  suggested_links : Option Str
deriving DecidableEq

/-- The rows of the table `notes`. -/
abbrev Store := List Row

/-- The state of the database behind `db_`: `none` when it holds no table
`notes`, the rows of the table otherwise. -/
abbrev Db := Option Store

/-- The exceptions of the storage engine: `std::runtime_error` with a message
starting `"Failed to prepare statement"`, `"Failed to create tables"`,
`"Failed to create note"`, with the message `"Note not found"`, or an exception
thrown by `Note::from_json` while a row is decoded. -/
inductive DbError where
  | failed_to_prepare
  | failed_to_create_tables
  | note_not_found
  | failed_to_create
  | decode_failed
deriving DecidableEq

/-- The SQL texts of `database.cpp`: the script of `init_db` and the statement
of each of the six operations. -/
inductive Statement where
  | create_tables
  | select_all
  | select_search
  | select_one
  | insert_note
  | update_set
  | delete_from
deriving DecidableEq

/-- Whether SQLite parses the text.  `REFERENCES` is a reserved word of SQLite,
and the texts of `init_db`, `create_note` and `update_note` write the column
name `references` without quotes: SQLite answers
`near "references": syntax error` to each of them.  The three `SELECT` texts
and the `DELETE` text name no such column. -/
def Statement.well_formed : Statement → Bool
  | .create_tables => false
  | .insert_note => false
  | .update_set => false
  | .select_all => true
  | .select_search => true
  | .select_one => true
  | .delete_from => true

/-- The call `sqlite3_prepare_v2(db_, sql, -1, &stmt, nullptr)`: the rows the
statement will run on when the answer is `SQLITE_OK`, `none` when it is not,
which is when the text is not well formed or the table `notes` does not exist
(`no such table: notes`). -/
def sqlite3_prepare_v2 (db : Db) (sql : Statement) : Option Store :=
  if sql.well_formed then db else Option.none

/-- Insertion of a row into rows already in descending order of
`last_modified`, before the first row that is not greater. -/
def insertDesc (r : Row) : List Row → List Row
  | [] => [r]
  | x :: xs =>
    if strLt r.last_modified x.last_modified then x :: insertDesc r xs
    else r :: x :: xs

/-- The clause `ORDER BY last_modified DESC`; rows with equal keys keep the
order of the table. -/
def orderByLastModifiedDesc (rows : List Row) : List Row :=
  rows.foldr insertDesc []

/-- `Database::note_from_statement`: the members read from columns 0, 2, 3
and 4 are overwritten by the note decoded from column 5. -/
def note_from_statement (u : Nat → Indeterminate io) (row : Row) :
    Except DbError (Note io) :=
  let note : Note io :=
    { Note.empty io with
      id := row.id, content := row.content, created_at := row.created_at,
      last_modified := row.last_modified }
  let tags_json := row.tags
  match Note.from_json u tags_json with
  | some decoded => let note := decoded; .ok note
  | Option.none => let _ := note; .error .decode_failed

/-- `Database::bind_note_params` followed by the INSERT: the row made of the
six bound parameters; parameters 7 to 10 stay unbound.  The sixth parameter is
bound to `json.c_str()` with `SQLITE_STATIC`, and the local `json` is destroyed
when `bind_note_params` returns, before `sqlite3_step` reads the parameter:
`freed` stands for the bytes found at that address then. -/
def bind_note_params (freed : Str) (note : Note io) (user_id : Str) : Row :=
  { id := cstr note.id, user_id := cstr user_id, content := cstr note.content,
    created_at := cstr note.created_at, last_modified := cstr note.last_modified,
    tags := cstr freed,
    code_outputs := Option.none, backlinks := Option.none,
    references := Option.none, suggested_links := Option.none }

/-- `Database::get_all_notes`:
`SELECT * FROM notes WHERE user_id = ? ORDER BY last_modified DESC`. -/
def get_all_notes (u : Nat → Indeterminate io) (db : Db) (user_id : Str) :
    Except DbError (List (Note io)) :=
  match sqlite3_prepare_v2 db .select_all with
  | Option.none => .error .failed_to_prepare
  | some rows =>
    (orderByLastModifiedDesc (rows.filter (fun r => r.user_id = cstr user_id))).mapM
      (note_from_statement u)

/-- `Database::get_note`: `SELECT * FROM notes WHERE id = ? AND user_id = ?`;
the first `sqlite3_step` yields a row or not. -/
def get_note (u : Nat → Indeterminate io) (db : Db) (id user_id : Str) :
    Except DbError (Note io) :=
  match sqlite3_prepare_v2 db .select_one with
  | Option.none => .error .failed_to_prepare
  | some rows =>
    match rows.find? (fun r => r.id = cstr id ∧ r.user_id = cstr user_id) with
    | Option.none => .error .note_not_found
    | some row => note_from_statement u row

/-- `Database::create_note`, with `generated` the value of `generate_id()` and
`freed` as in `bind_note_params`.  The statement is prepared first; after a
prepared INSERT, `sqlite3_step` fails on the PRIMARY KEY `id` when a row holds
that id already and answers `SQLITE_DONE` otherwise.  The result is the
database after the call and the returned note or the exception. -/
def create_note (generated freed : Str) (db : Db) (note : Note io) (user_id : Str) :
    Db × Except DbError (Note io) :=
  match sqlite3_prepare_v2 db .insert_note with
  | Option.none => (db, .error .failed_to_prepare)
  | some rows =>
    let new_note := { note with id := generated }
    let row := bind_note_params freed new_note user_id
    if rows.any (fun r => r.id = row.id) then (db, .error .failed_to_create)
    else (some (rows ++ [row]), .ok new_note)

/-- `Database::update_note`:
`UPDATE notes SET content = ?, last_modified = ?, tags = ?, code_outputs = ?,
backlinks = ?, references = ?, suggested_links = ? WHERE id = ? AND user_id = ?`
with parameters 1, 2, 3, 8 and 9 bound.  The statement is prepared first; after
a prepared UPDATE, `sqlite3_step` answers `SQLITE_DONE` whatever the number of
rows changed, and the function returns `note`. -/
def update_note (db : Db) (note : Note io) (user_id : Str) :
    Db × Except DbError (Note io) :=
  match sqlite3_prepare_v2 db .update_set with
  | Option.none => (db, .error .failed_to_prepare)
  | some rows =>
    let json := note.to_json
    (some (rows.map (fun r =>
        if r.id = cstr note.id ∧ r.user_id = cstr user_id then
          { r with content := cstr note.content, last_modified := cstr note.last_modified,
                   tags := cstr json, code_outputs := Option.none,
                   backlinks := Option.none, references := Option.none,
                   suggested_links := Option.none }
        else r)),
     .ok note)

/-- `Database::delete_note`: `DELETE FROM notes WHERE id = ? AND user_id = ?`.
The statement is prepared first; after a prepared DELETE, `sqlite3_step`
answers `SQLITE_DONE` whatever the number of rows deleted. -/
def delete_note (db : Db) (id user_id : Str) : Db × Except DbError Unit :=
  match sqlite3_prepare_v2 db .delete_from with
  | Option.none => (db, .error .failed_to_prepare)
  | some rows =>
    (some (rows.filter (fun r => !(decide (r.id = cstr id ∧ r.user_id = cstr user_id)))),
     .ok ())

/-- Value of a run of decimal digits at the head of a text, if there is one. -/
def leadingNat : Str → Option Nat → Option Nat
  | [], acc => acc
  | c :: cs, acc =>
    if isDigit c then leadingNat cs (some (10 * acc.getD 0 + (c.toNat - 48))) else acc

/-- An instance of the two conversions on whole numbers, for evaluating
examples: a number is printed as its decimal digits, as `operator<<` prints a
whole `double` below 1000000, and a text is read as the value of its leading
digits and rejected when it has none, as `std::stod` does for a text without
leading white space, sign, fraction or exponent. -/
def wholeIO : DoubleIO :=
  { Dbl := Nat, fmt := fun n => Nat.toDigits 10 n, stod := fun s => leadingNat s Option.none }

/-- Indeterminate members that hold zero and false. -/
def zeros (_ : Nat) : Indeterminate wholeIO := ⟨(0 : Nat), false, false⟩

/-! ## The encoding as the specification words it -/

/-- The `d`-th hexadecimal digit. -/
def hexDigit (d : Nat) : Char := "0123456789abcdef".toList.getD d '0'

/-- The image of one character under the escaping of the specification:
quote, backslash, backspace, form-feed, newline, carriage-return and tab have
their two-character escapes, every other character below 0x20 becomes
`\u00XX`, and every remaining character is kept. -/
def escape_image (c : Char) : Str :=
  if c = '"' then "\\\"".toList
  else if c = '\\' then "\\\\".toList
  else if c = '\x08' then "\\b".toList
  else if c = '\x0c' then "\\f".toList
  else if c = '\n' then "\\n".toList
  else if c = '\r' then "\\r".toList
  else if c = '\t' then "\\t".toList
  else if c.toNat < 0x20 then
    "\\u00".toList ++ [hexDigit (c.toNat / 16), hexDigit (c.toNat % 16)]
  else [c]

/-- A string value of the encoding: the escaped text between quotes. -/
def quoted_text (s : Str) : Str := ['"'] ++ escape_json s ++ ['"']

/-- An array of the encoding: the items joined by `,` between brackets. -/
def json_array (items : List Str) : Str := ['['] ++ [','].intercalate items ++ [']']

/-- An object of the encoding: the members `key:value` joined by `,` between
braces, the keys being quoted as they stand. -/
def json_object (members : List (Str × Str)) : Str :=
  ['{'] ++ [','].intercalate (members.map (fun kv => ['"'] ++ kv.1 ++ ['"', ':'] ++ kv.2))
    ++ ['}']

/-- The encoding of a note as the specification words it: one object with the
nine keys in their order. -/
def Note.encoding (n : Note io) : Str :=
  json_object
    [("id".toList, quoted_text n.id),
     ("content".toList, quoted_text n.content),
     ("created_at".toList, quoted_text n.created_at),
     ("last_modified".toList, quoted_text n.last_modified),
     ("tags".toList, json_array (n.tags.map quoted_text)),
     ("code_outputs".toList,
        json_object (n.code_outputs.map (fun kv => (escape_json kv.1, quoted_text kv.2)))),
     ("backlinks".toList, json_array (n.backlinks.map BacklinkReference.to_json)),
     ("references".toList, json_array (n.references.map quoted_text)),
     ("suggested_links".toList, json_array (n.suggested_links.map BacklinkReference.to_json))]

/-! ## Sample values -/

instance : DecidableEq wholeIO.Dbl := inferInstanceAs (DecidableEq Nat)

instance : DecidableEq (BacklinkReference wholeIO) := fun a b =>
  decidable_of_iff
    (a.noteId = b.noteId ∧ a.context = b.context ∧ a.timestamp = b.timestamp
      ∧ a.relevance = b.relevance ∧ a.accepted = b.accepted ∧ a.rejected = b.rejected)
    (by cases a; cases b; simp)

instance : DecidableEq (Note wholeIO) := fun a b =>
  decidable_of_iff
    (a.id = b.id ∧ a.content = b.content ∧ a.created_at = b.created_at
      ∧ a.last_modified = b.last_modified ∧ a.tags = b.tags
      ∧ a.code_outputs = b.code_outputs ∧ a.backlinks = b.backlinks
      ∧ a.references = b.references ∧ a.suggested_links = b.suggested_links)
    (by cases a; cases b; simp)

instance {ε α : Type} [DecidableEq ε] [DecidableEq α] : DecidableEq (Except ε α) := fun a b =>
  match a, b with
  | .ok x, .ok y =>
    if h : x = y then isTrue (congrArg Except.ok h)
    else isFalse (fun e => h (Except.ok.inj e))
  | .error x, .error y =>
    if h : x = y then isTrue (congrArg Except.error h)
    else isFalse (fun e => h (Except.error.inj e))
  | .ok _, .error _ => isFalse (fun e => Except.noConfusion e)
  | .error _, .ok _ => isFalse (fun e => Except.noConfusion e)

/-- A note with the id `n1`, the content `hello #world` and the tags `a`, `b`. -/
def sample_note : Note wholeIO :=
  { Note.empty wholeIO with
    id := "n1".toList, content := "hello #world".toList, tags := ["a".toList, "b".toList] }

/-- A note whose content holds a double quote: `say "hi"`. -/
def quote_note : Note wholeIO :=
  { Note.empty wholeIO with content := "say \"hi\"".toList }

/-- A row of a table `notes` filled by another program: the note `sample_note`
with the id `g1`, owned by `U1`, its encoding in the column `tags`. -/
def sample_row : Row :=
  { id := "g1".toList, user_id := "U1".toList, content := "hello #world".toList,
    created_at := [], last_modified := "2024-01-02".toList,
    tags := (Note.to_json { sample_note with id := "g1".toList }),
    code_outputs := Option.none, backlinks := Option.none,
    references := Option.none, suggested_links := Option.none }

/-- A second row of such a table: a note of the owner `U2`. -/
def other_row : Row :=
  { id := "g2".toList, user_id := "U2".toList, content := "Hello again".toList,
    created_at := [], last_modified := "2024-03-01".toList,
    tags := (Note.to_json { sample_note with id := "g2".toList,
                                             content := "Hello again".toList }),
    code_outputs := Option.none, backlinks := Option.none,
    references := Option.none, suggested_links := Option.none }

/-- A database whose table `notes` holds the two sample rows. -/
def sample_store : Db := some [sample_row, other_row]

/-! ## What a match looks like

`Rx.Sem r m c0 c1`: the pattern `r` can consume exactly the text `m`, turning
the sub-matches `c0` into `c1`.  Every match the matcher finds is of this
form (`run_sound`). -/

/-- The texts a pattern can consume, with the sub-matches it records. -/
def Rx.Sem : Rx → Str → Caps → Caps → Prop
  | .chr c, m, c0, c1 => m = [c] ∧ c1 = c0
  | .set p, m, c0, c1 => ∃ d, p d = true ∧ m = [d] ∧ c1 = c0
  | .star p _, m, c0, c1 => (∀ x ∈ m, p x = true) ∧ c1 = c0
  | .seq a b, m, c0, c2 =>
    ∃ m1 m2 c1, m = m1 ++ m2 ∧ Rx.Sem a m1 c0 c1 ∧ Rx.Sem b m2 c1 c2
  | .alt a b, m, c0, c1 => Rx.Sem a m c0 c1 ∨ Rx.Sem b m c0 c1
  | .eps, m, c0, c1 => m = [] ∧ c1 = c0
  | .grp i a, m, c0, c1 => ∃ c, Rx.Sem a m c0 c ∧ c1 = c.set i m

/-- The text `"name"` followed by white space and a colon occurs in `text`:
`name` occurs as a quoted key. -/
def occurs_as_key (name text : Str) : Prop :=
  ∃ pre ws post, (∀ c ∈ ws, isSpace c = true)
    ∧ text = pre ++ ['"'] ++ name ++ ['"'] ++ ws ++ [':'] ++ post

/-- The pattern has no capture group number `j`. -/
def Rx.noGroup (j : Nat) : Rx → Bool
  | .chr _ => true
  | .set _ => true
  | .star _ _ => true
  | .seq a b => Rx.noGroup j a && Rx.noGroup j b
  | .alt a b => Rx.noGroup j a && Rx.noGroup j b
  | .eps => true
  | .grp i a => decide (i ≠ j) && Rx.noGroup j a

/-- A text between double quotes. -/
def quotes (v : Str) : Str := ['"'] ++ v ++ ['"']

/-- A member `"key":value` of an object, followed by `rest`. -/
def field (key value rest : Str) : Str := ['"'] ++ key ++ ['"', ':'] ++ value ++ rest

/-- A text of the form `\d+` or `\d+\.\d*`: digits, optionally followed by
a point and digits. -/
def numeral (t : Str) : Prop :=
  ∃ ds fs, ds ≠ [] ∧ (∀ c ∈ ds, isDigit c = true) ∧ (∀ c ∈ fs, isDigit c = true)
    ∧ (t = ds ∨ t = ds ++ '.' :: fs)

/-- A text that `escape_json` writes as it stands: no double quote, no
backslash, no character below 0x20. -/
def plain_text (s : Str) : Prop := ∀ c ∈ s, c ≠ '"' ∧ c ≠ '\\' ∧ 0x20 ≤ c.toNat

/-- A reference that `BacklinkReference::from_json` reads back: its three
texts are written as they stand, and its relevance is printed as a numeral
that `std::stod` reads back. -/
def BacklinkReference.plain (r : BacklinkReference io) : Prop :=
  plain_text r.noteId ∧ plain_text r.context ∧ plain_text r.timestamp
    ∧ numeral (io.fmt r.relevance) ∧ io.stod (io.fmt r.relevance) = some r.relevance

/-- The encoding of a reference without its braces. -/
def BacklinkReference.body (r : BacklinkReference io) : Str :=
  field "noteId".toList (quoted_text r.noteId)
    (',' :: field "context".toList (quoted_text r.context)
    (',' :: field "timestamp".toList (quoted_text r.timestamp)
    (',' :: field "relevance".toList (io.fmt r.relevance)
    (',' :: field "accepted".toList (if r.accepted then "true" else "false").toList
    (',' :: field "rejected".toList (if r.rejected then "true" else "false").toList [])))))

/-- The characters of the keys, words and punctuation of the encoding of a
reference. -/
def backlink_literals : Str := "\",:Iacdefijlmnoprstuvx".toList

/-- The notes that `Note::from_json` reads back from their encoding:
no text holds a double quote; no tag, reference or text of a link holds a `]`;
no key or value of `code_outputs` and no text of a link holds a `}`; the keys
of `code_outputs` are non-empty, written as they stand and in the ascending
order of a `std::map`; every link is read back from its own encoding. -/
def Note.plain (n : Note io) : Prop :=
  (∀ c ∈ n.id, c ≠ '"') ∧ (∀ c ∈ n.content, c ≠ '"') ∧ (∀ c ∈ n.created_at, c ≠ '"')
  ∧ (∀ c ∈ n.last_modified, c ≠ '"')
  ∧ (∀ s ∈ n.tags, ∀ c ∈ s, c ≠ '"' ∧ c ≠ ']')
  ∧ (∀ s ∈ n.references, ∀ c ∈ s, c ≠ '"' ∧ c ≠ ']')
  ∧ n.code_outputs.Pairwise (fun a b => strLt a.1 b.1 = true)
  ∧ (∀ kv ∈ n.code_outputs, kv.1 ≠ [] ∧ plain_text kv.1 ∧ (∀ c ∈ kv.1, c ≠ '}')
      ∧ ∀ c ∈ kv.2, c ≠ '"' ∧ c ≠ '}')
  ∧ (∀ r ∈ n.backlinks ++ n.suggested_links, r.plain
      ∧ ∀ s ∈ [r.noteId, r.context, r.timestamp], ∀ c ∈ s, c ≠ ']' ∧ c ≠ '}')

/-- A note with a tag list, a code output holding a newline, and one link. -/
def linked_note : Note wholeIO :=
  { sample_note with
    code_outputs := [("k".toList, "v\n".toList)],
    backlinks := [⟨"n2".toList, "see #x".toList, "t".toList, (5 : Nat), true, false⟩] }

/-! ## The notebook codec (`notebook.cpp`) -/

/-- The struct `Notebook` of `notebook.hpp`. -/
structure Notebook where
  id : Str
  name : Str
  created_at : Str
  updated_at : Str
deriving DecidableEq

/-- The calendar fields of the local time `std::localtime(&now_t)`. -/
structure LocalTime where
  year : Nat
  month : Nat
  day : Nat
  hour : Nat
  minute : Nat
  second : Nat

/-- A number written with at least two decimal digits (`%m`, `%d`, `%H`, `%M`,
`%S`). -/
def pad2 (n : Nat) : Str := if n < 10 then '0' :: Nat.toDigits 10 n else Nat.toDigits 10 n

/-- The text written by `std::put_time(_, "%Y-%m-%d %H:%M:%S")`. -/
def put_time (t : LocalTime) : Str :=
  Nat.toDigits 10 t.year ++ ['-'] ++ pad2 t.month ++ ['-'] ++ pad2 t.day ++ [' ']
    ++ pad2 t.hour ++ [':'] ++ pad2 t.minute ++ [':'] ++ pad2 t.second

/-- The body of the loop of `Notebook::from_json` for one match of
`"([^"]+)"\s*:\s*"([^"]*)"`. -/
def Notebook.from_json_step (notebook : Notebook) (m : Caps) : Notebook :=
  let key := m.str 1
  let value := m.str 2
  if key = "id".toList then { notebook with id := value }
  else if key = "name".toList then { notebook with name := value }
  else if key = "created_at".toList then { notebook with created_at := value }
  else if key = "updated_at".toList then { notebook with updated_at := value }
  else notebook

/-- The loop of `Notebook::from_json`: the notebook after parsing, before the
time is set. -/
def Notebook.parsed (json_str : Str) : Notebook :=
  (Rx.allMatches output_pattern json_str).foldl Notebook.from_json_step
    { id := [], name := [], created_at := [], updated_at := [] }

/-- `Notebook::from_json`, with `now` the current local time. -/
def Notebook.from_json (now : LocalTime) (json_str : Str) : Notebook :=
  let notebook := Notebook.parsed json_str
  let ss := put_time now
  let notebook :=
    if notebook.created_at.isEmpty then { notebook with created_at := ss } else notebook
  let notebook :=
    if notebook.updated_at.isEmpty then { notebook with updated_at := ss } else notebook
  notebook

/-! ## The HTTP layer (`server.cpp`) -/

/-- The handler that `Server::handle_client` calls, with the note id it
passes. -/
inductive Route where
  | send_cors_headers
  | handle_get_me
  | handle_login
  | handle_get_notes
  | handle_create_note
  | handle_get_note (note_id : Str)
  | handle_update_note (note_id : Str)
  | handle_delete_note (note_id : Str)
  | handle_search_notes
  | send_404
deriving DecidableEq

/-- The test `path.find("/api/notes/") == 0`. -/
def starts_with_notes (path : Str) : Bool := "/api/notes/".toList.isPrefixOf path

/-- The routing of `Server::handle_client` for a request with the given
method and path (the path without its query string). -/
def handle_client (method path : Str) : Route :=
  if method = "OPTIONS".toList then .send_cors_headers
  else if path = "/api/auth/me".toList then .handle_get_me
  else if path = "/api/auth/login".toList then .handle_login
  else if path = "/api/notes".toList ∧ method = "GET".toList then .handle_get_notes
  else if path = "/api/notes".toList ∧ method = "POST".toList then .handle_create_note
  else if starts_with_notes path ∧ method = "GET".toList then .handle_get_note (path.drop 11)
  else if starts_with_notes path ∧ method = "PUT".toList then
    .handle_update_note (path.drop 11)
  else if starts_with_notes path ∧ method = "DELETE".toList then
    .handle_delete_note (path.drop 11)
  else if path = "/api/notes/search".toList ∧ method = "GET".toList then .handle_search_notes
  else .send_404

/-- The value of an `int` expression: two's complement on 32 bits. -/
def to_int (x : Int) : Int := (x + 2 ^ 31) % 2 ^ 32 - 2 ^ 31

/-- The value of a `size_t` expression: modulo 2^64. -/
def to_size (x : Int) : Nat := (x % 2 ^ 64).toNat

/-- The access `notes[i]` with an `int` index: `none` stands for a read
outside the vector. -/
def read_at {α : Type} (notes : List α) (i : Int) : Option α :=
  if 0 ≤ i then notes[i.toNat]? else Option.none

/-- The loop `for (int i = start_index; i < end_index; i++)` of
`Server::handle_get_notes`, with `count` iterations left: the notes pushed to
the response. -/
def page_loop {α : Type} (notes : List α) : Nat → Int → Option (List α)
  | 0, _ => some []
  | count + 1, i =>
    match read_at notes i with
    | Option.none => Option.none
    | some note => (page_loop notes count (to_int (i + 1))).map (note :: ·)

/-- The response of `Server::handle_get_notes`. -/
structure PageResponse (α : Type) where
  notes : List α
  total : Nat
  currentPage : Int
  totalPages : Nat

/-- The pagination of `Server::handle_get_notes` applied to the notes read
from the store.  `none` stands for a division by zero or a read outside the
vector. -/
def paginate {α : Type} (notes : List α) (page page_size : Int) : Option (PageResponse α) :=
  let start_index := to_int (to_int (page - 1) * page_size)
  let end_index := min (to_int (start_index + page_size)) (to_int notes.length)
  if to_size page_size = 0 then Option.none
  else
    let total_pages := to_size (to_size (to_size (notes.length) + to_size page_size) - 1)
      / to_size page_size
    (page_loop notes (end_index - start_index).toNat start_index).map
      (fun emitted =>
        { notes := emitted, total := notes.length, currentPage := page,
          totalPages := total_pages })

/-- A relevance that is a whole number of at most six digits: it is printed as
the decimal digits of `k`, and `std::stod` reads those digits back as the same
value. -/
def whole_relevance (r : BacklinkReference io) : Prop :=
  ∃ k : Nat, k ≤ 999999 ∧ io.fmt r.relevance = Nat.toDigits 10 k
    ∧ io.stod (Nat.toDigits 10 k) = some r.relevance

/-- A reference whose `noteId` holds a double quote. -/
def quote_ref : BacklinkReference wholeIO :=
  ⟨"a\"b".toList, "c".toList, "t".toList, (5 : Nat), true, true⟩

/-- A reference whose `context` holds a newline. -/
def newline_ref : BacklinkReference wholeIO :=
  ⟨"n2".toList, "line\nbreak".toList, "t".toList, (5 : Nat), false, false⟩

/-- A reference with `#` and spaces in its texts and both flags set. -/
def sample_ref : BacklinkReference wholeIO :=
  ⟨"n2".toList, "see #x [y]".toList, "2024-01-01 10:00".toList, (42 : Nat), true, true⟩

/-- The three texts of a reference. -/
def BacklinkReference.texts (r : BacklinkReference io) : List Str :=
  [r.noteId, r.context, r.timestamp]

/-- Every text of a note: the scalar fields, the tags, the references, the
keys and values of `code_outputs`, and the texts of the backlinks and suggested
links. -/
def Note.texts (n : Note io) : List Str :=
  [n.id, n.content, n.created_at, n.last_modified] ++ n.tags ++ n.references
    ++ n.code_outputs.map Prod.fst ++ n.code_outputs.map Prod.snd
    ++ (n.backlinks ++ n.suggested_links).flatMap BacklinkReference.texts

/-- The notes of the restricted round trip: no text holds a double quote, a
`]` or a `}`; every key of `code_outputs` is non-empty and free of backslashes
and of characters below 0x20; every text of a backlink or suggested link is
free of backslashes and of characters below 0x20; every relevance is a whole
number between 0 and 999999.  The keys of `code_outputs` are in strictly
ascending order, as the keys of a `std::map` are. -/
def Note.restricted (n : Note io) : Prop :=
  (∀ s ∈ n.texts, ∀ c ∈ s, c ≠ '"' ∧ c ≠ ']' ∧ c ≠ '}')
  ∧ (∀ kv ∈ n.code_outputs, kv.1 ≠ [] ∧ ∀ c ∈ kv.1, c ≠ '\\' ∧ 0x20 ≤ c.toNat)
  ∧ (∀ r ∈ n.backlinks ++ n.suggested_links, ∀ s ∈ r.texts, ∀ c ∈ s,
      c ≠ '\\' ∧ 0x20 ≤ c.toNat)
  ∧ (∀ r ∈ n.backlinks ++ n.suggested_links, whole_relevance r)
  ∧ n.code_outputs.Pairwise (fun a b => strLt a.1 b.1 = true)

/-- A note with backslashes, control characters and `#` in its scalar fields,
tags, references and code output values, two code outputs, a backlink and a
suggested link. -/
def rich_note : Note wholeIO :=
  { id := "n\\1".toList, content := "hello #world\n\ttab \\ end".toList,
    created_at := "2024-01-01".toList, last_modified := "2024-01-02\r".toList,
    tags := ["a".toList, "b\\c".toList, []],
    code_outputs := [("cell 1".toList, "out\n".toList), ("cell 2".toList, "x\\y".toList)],
    backlinks := [⟨"n2".toList, "see #x".toList, "t1".toList, (5 : Nat), true, true⟩],
    references := ["r\n1".toList],
    suggested_links := [⟨"n3".toList, "".toList, "t2".toList, (999999 : Nat), false, true⟩] }

/-- A note that is read back from its encoding and whose `last_modified`
holds no NUL character, so that the column `last_modified` holds the text
that the decoded note holds. -/
def Note.dated (n : Note io) : Prop :=
  n.plain ∧ ∀ c ∈ n.last_modified, c ≠ '\x00'

/-- Descending order of the texts `key x`: no element is less than the element
after it, as `std::string` and `memcmp` compare. -/
def descendingBy {α : Type} (key : α → Str) : List α → Prop
  | a :: b :: rest => strLt (key a) (key b) = false ∧ descendingBy key (b :: rest)
  | _ => True

/-- Descending order of `last_modified` of the notes a caller receives. -/
def descending (notes : List (Note io)) : Prop :=
  descendingBy Note.last_modified notes

set_option maxRecDepth 100000

/-! ## Escaping -/

theorem foldl_append_step {α β : Type} (f : α → List β) (l : List α) (acc : List β) :
    l.foldl (fun out c => out ++ f c) acc = acc ++ l.flatMap f := by
  induction l generalizing acc with
  | nil => simp
  | cons a l ih => simp [ih, List.flatMap_cons]

theorem escape_json_eq_flatMap (s : Str) : escape_json s = s.flatMap escape_step := by
  simp [escape_json, foldl_append_step]

theorem escape_json_nil : escape_json [] = [] := rfl

theorem escape_json_cons (c : Char) (s : Str) :
    escape_json (c :: s) = escape_step c ++ escape_json s := by
  simp [escape_json_eq_flatMap, List.flatMap_cons]

theorem hex4_small (n : Nat) (h : n < 32) :
    hex4 n = ['0', '0', hexDigit (n / 16), hexDigit (n % 16)] := by
  interval_cases n <;> rfl

theorem escape_step_eq_image (c : Char) : escape_step c = escape_image c := by
  unfold escape_step escape_image
  by_cases h1 : c = '"'
  · simp [h1]
  by_cases h2 : c = '\\'
  · simp [h2]
  by_cases h3 : c = '\x08'
  · simp [h3]
  by_cases h4 : c = '\x0c'
  · simp [h4]
  by_cases h5 : c = '\n'
  · simp [h5]
  by_cases h6 : c = '\r'
  · simp [h6]
  by_cases h7 : c = '\t'
  · simp [h7]
  by_cases h8 : c = '#'
  · subst h8; decide
  simp only [h1, h2, h3, h4, h5, h6, h7, h8, if_false]
  by_cases h9 : c.toNat < 0x20
  · have h10 : 0 ≤ c.toNat ∧ c.toNat ≤ 0x1f := ⟨Nat.zero_le _, by omega⟩
    rw [if_pos h10, if_pos h9, hex4_small _ h9]
    rfl
  · have h10 : ¬ (0 ≤ c.toNat ∧ c.toNat ≤ 0x1f) := fun h => h9 (by omega)
    rw [if_neg h10, if_neg h9]

/-- C2: `Note::escape_json` maps a string to the concatenation, in order, of
the images of its characters, where the image of a character is the one the
specification gives (`escape_image`); in particular `#` is kept unchanged. -/
theorem escape_json_spec (s : Str) :
    escape_json s = (s.map escape_image).flatten ∧ escape_image '#' = ['#'] := by
  refine ⟨?_, by decide⟩
  rw [escape_json_eq_flatMap, List.flatMap_def]
  congr 1
  exact List.map_congr_left (fun c _ => escape_step_eq_image c)

/-! ## Shape of the encoding -/

theorem intercalate_cons_eq (a : Str) (l : List Str) :
    [','].intercalate (a :: l) = a ++ l.flatMap (fun x => ',' :: x) := by
  induction l generalizing a with
  | nil => simp [List.intercalate]
  | cons b l ih =>
    have h := ih b
    simp only [List.intercalate, List.intersperse, List.flatten_cons, List.flatMap_cons] at h ⊢
    rw [h]; simp

theorem foldl_enumFrom_pos {α : Type} (f : α → Str) (l : List α) (k : Nat) (hk : 0 < k)
    (acc : Str) :
    (List.enumFrom k l).foldl
      (fun ss (iv : Nat × α) => (if iv.1 > 0 then ss ++ [','] else ss) ++ f iv.2) acc
      = acc ++ l.flatMap (fun x => ',' :: f x) := by
  induction l generalizing k acc with
  | nil => simp
  | cons a l ih =>
    simp only [List.enumFrom_cons, List.foldl_cons, List.flatMap_cons]
    rw [ih (k + 1) (Nat.succ_pos k)]
    simp [hk]

theorem foldl_enum_eq_array {α : Type} (f : α → Str) (l : List α) :
    (l.enum.foldl
      (fun ss (iv : Nat × α) => (if iv.1 > 0 then ss ++ [','] else ss) ++ f iv.2) ['['])
      ++ [']'] = json_array (l.map f) := by
  cases l with
  | nil => rfl
  | cons a l =>
    simp only [List.enum_cons, List.foldl_cons, json_array, List.map_cons, intercalate_cons_eq]
    rw [foldl_enumFrom_pos f l 1 Nat.one_pos]
    simp [List.flatMap_map]

theorem vector_to_json_eq (vec : List Str) :
    vector_to_json vec = json_array (vec.map quoted_text) := by
  unfold vector_to_json
  have h := foldl_enum_eq_array quoted_text vec
  simpa [quoted_text, List.append_assoc] using h

theorem backlinks_to_json_eq (bs : List (BacklinkReference io)) :
    backlinks_to_json bs = json_array (bs.map BacklinkReference.to_json) := by
  unfold backlinks_to_json
  exact foldl_enum_eq_array BacklinkReference.to_json bs

theorem foldl_map_members (m : StrMap) (acc : Str) :
    (m.foldl
      (fun (st : Str × Bool) (kv : Str × Str) =>
        ((if !st.2 then st.1 ++ [','] else st.1)
          ++ ['"'] ++ escape_json kv.1 ++ "\":\"".toList ++ escape_json kv.2 ++ ['"'],
         false))
      (acc, false)).1
      = acc ++ m.flatMap (fun kv =>
          ',' :: (['"'] ++ escape_json kv.1 ++ ['"', ':'] ++ quoted_text kv.2)) := by
  induction m generalizing acc with
  | nil => simp
  | cons a m ih =>
    simp only [List.foldl_cons, List.flatMap_cons]
    rw [show (!false) = true from rfl, if_pos rfl, ih]
    simp [quoted_text]

theorem map_to_json_eq (m : StrMap) :
    map_to_json m
      = json_object (m.map (fun kv => (escape_json kv.1, quoted_text kv.2))) := by
  unfold map_to_json json_object
  cases m with
  | nil => rfl
  | cons a m =>
    simp only [List.foldl_cons, List.map_cons, intercalate_cons_eq]
    rw [show (!true) = false from rfl, if_neg (by simp), foldl_map_members]
    simp [quoted_text, List.flatMap_map]

/-- C3: `Note::to_json` writes exactly one object with the keys `id`,
`content`, `created_at`, `last_modified`, `tags`, `code_outputs`, `backlinks`,
`references`, `suggested_links`, in that order and once each: the scalars as
quoted escaped strings, `tags` and `references` as arrays of quoted escaped
strings joined by `,`, `code_outputs` as an object of `"key":"value"` pairs
joined by `,`, `backlinks` and `suggested_links` as arrays of the references'
own encodings joined by `,`; no white space is written outside these values
(the encoding of the empty note has none). -/
theorem to_json_shape (n : Note io) :
    n.to_json = n.encoding ∧ ∀ c ∈ (Note.empty io).to_json, isSpace c = false := by
  constructor
  · unfold Note.to_json Note.encoding
    rw [vector_to_json_eq, vector_to_json_eq, map_to_json_eq, backlinks_to_json_eq,
      backlinks_to_json_eq]
    simp [json_object, quoted_text, List.intercalate, List.intersperse, List.append_assoc]
  · have h : (Note.empty io).to_json = (Note.empty wholeIO).to_json := rfl
    rw [h]
    decide

/-! ## The storage engine -/

theorem mem_insertDesc (r x : Row) (l : List Row) :
    x ∈ insertDesc r l ↔ x = r ∨ x ∈ l := by
  induction l with
  | nil => simp [insertDesc]
  | cons y l ih =>
    unfold insertDesc
    split
    · simp only [List.mem_cons, ih]; tauto
    · simp only [List.mem_cons]

theorem mem_orderByLastModifiedDesc (x : Row) (l : List Row) :
    x ∈ orderByLastModifiedDesc l ↔ x ∈ l := by
  induction l with
  | nil => simp [orderByLastModifiedDesc]
  | cons y l ih =>
    have h : orderByLastModifiedDesc (y :: l) = insertDesc y (orderByLastModifiedDesc l) := rfl
    rw [h, mem_insertDesc, ih, List.mem_cons]

theorem note_from_statement_eq (u : Nat → Indeterminate io) (row : Row) :
    note_from_statement u row
      = match Note.from_json u row.tags with
        | some decoded => Except.ok decoded
        | Option.none => Except.error DbError.decode_failed := rfl

theorem note_from_statement_ne_not_found (u : Nat → Indeterminate io) (row : Row) :
    note_from_statement u row ≠ Except.error DbError.note_not_found := by
  rw [note_from_statement_eq]
  cases Note.from_json u row.tags <;> simp

/-! ## The matcher -/

theorem orTry_some {α : Type} (x : α) (b : Option α) : orTry (some x) b = some x := rfl

theorem orTry_none {α : Type} (b : Option α) : orTry Option.none b = b := rfl

theorem starRun_cons_stop {α : Type} (p : Char → Bool) (g : Bool) (d : Char) (t : Str)
    (k : Str → Option α) (hd : p d = false) : Rx.starRun p g (d :: t) k = k (d :: t) := by
  simp [Rx.starRun, hd]

theorem starRun_cons_greedy {α : Type} (p : Char → Bool) (c : Char) (t : Str)
    (k : Str → Option α) (hc : p c = true) :
    Rx.starRun p true (c :: t) k = orTry (Rx.starRun p true t k) (k (c :: t)) := by
  simp [Rx.starRun, hc]

theorem starRun_cons_lazy {α : Type} (p : Char → Bool) (c : Char) (t : Str)
    (k : Str → Option α) (hc : p c = true) :
    Rx.starRun p false (c :: t) k = orTry (k (c :: t)) (Rx.starRun p false t k) := by
  simp [Rx.starRun, hc]

/-- A greedy repetition takes the whole run `m` of characters of the class,
when the run ends at `t` and the continuation accepts `t`. -/
theorem starRun_greedy {α : Type} (p : Char → Bool) (m t : Str) (k : Str → Option α) (x : α)
    (hm : ∀ c ∈ m, p c = true) (ht : ∀ d ∈ t.head?, p d = false) (hk : k t = some x) :
    Rx.starRun p true (m ++ t) k = some x := by
  induction m with
  | nil =>
    cases t with
    | nil => simpa [Rx.starRun] using hk
    | cons d t' =>
      rw [List.nil_append, starRun_cons_stop p true d t' k (ht d (by simp))]
      exact hk
  | cons c m ih =>
    have hc : p c = true := hm c (List.mem_cons_self _ _)
    rw [List.cons_append, starRun_cons_greedy p c _ k hc,
      ih (fun d hd => hm d (List.mem_cons_of_mem _ hd)), orTry_some]

/-- A lazy repetition stops at the first place where the continuation
accepts the rest: here after a run `m` on which it rejects every suffix. -/
theorem starRun_lazy {α : Type} (p : Char → Bool) (m t : Str) (k : Str → Option α) (x : α)
    (hm : ∀ c ∈ m, p c = true)
    (hrej : ∀ a b, m = a ++ b → b ≠ [] → k (b ++ t) = Option.none) (hk : k t = some x) :
    Rx.starRun p false (m ++ t) k = some x := by
  induction m with
  | nil =>
    cases t with
    | nil => simpa [Rx.starRun] using hk
    | cons d t' =>
      rw [List.nil_append]
      by_cases hd : p d = true
      · rw [starRun_cons_lazy p d t' k hd, hk, orTry_some]
      · rw [starRun_cons_stop p false d t' k (by simpa using hd)]; exact hk
  | cons c m ih =>
    have hc : p c = true := hm c (List.mem_cons_self _ _)
    rw [List.cons_append, starRun_cons_lazy p c _ k hc]
    have h0 : k (c :: (m ++ t)) = Option.none := by
      have := hrej [] (c :: m) rfl (by simp)
      simpa using this
    rw [h0, orTry_none]
    exact ih (fun d hd => hm d (List.mem_cons_of_mem _ hd))
      (fun a b hab hb => hrej (c :: a) b (by rw [hab]; rfl) hb)

section RunEquations
variable {α : Type}

theorem run_chr_cons (c : Char) (t : Str) (caps : Caps) (k : Str → Caps → Option α) :
    Rx.run (.chr c) (c :: t) caps k = k t caps := by
  simp [Rx.run]

theorem run_chr_ne (c d : Char) (t : Str) (caps : Caps) (k : Str → Caps → Option α)
    (h : d ≠ c) : Rx.run (.chr c) (d :: t) caps k = Option.none := by
  simp [Rx.run, h]

theorem run_chr_nil (c : Char) (caps : Caps) (k : Str → Caps → Option α) :
    Rx.run (.chr c) [] caps k = Option.none := rfl

theorem run_set_cons (p : Char → Bool) (d : Char) (t : Str) (caps : Caps)
    (k : Str → Caps → Option α) (h : p d = true) :
    Rx.run (.set p) (d :: t) caps k = k t caps := by
  simp [Rx.run, h]

theorem run_seq (a b : Rx) (s : Str) (caps : Caps) (k : Str → Caps → Option α) :
    Rx.run (.seq a b) s caps k = Rx.run a s caps (fun t c => Rx.run b t c k) := rfl

theorem run_alt (a b : Rx) (s : Str) (caps : Caps) (k : Str → Caps → Option α) :
    Rx.run (.alt a b) s caps k = orTry (Rx.run a s caps k) (Rx.run b s caps k) := rfl

theorem run_eps (s : Str) (caps : Caps) (k : Str → Caps → Option α) :
    Rx.run .eps s caps k = k s caps := rfl

theorem run_star (p : Char → Bool) (g : Bool) (s : Str) (caps : Caps)
    (k : Str → Caps → Option α) :
    Rx.run (.star p g) s caps k = Rx.starRun p g s (fun t => k t caps) := rfl

theorem run_grp (i : Nat) (a : Rx) (s : Str) (caps : Caps) (k : Str → Caps → Option α) :
    Rx.run (.grp i a) s caps k
      = Rx.run a s caps (fun t c => k t (c.set i (s.take (s.length - t.length)))) := rfl

theorem take_consumed (m t : Str) : (m ++ t).take ((m ++ t).length - t.length) = m := by
  simp

/-- The part `"([^"]*)"` on a quoted text without a quote inside. -/
theorem run_quoted (i : Nat) (m t : Str) (caps : Caps) (k : Str → Caps → Option α) (x : α)
    (hm : ∀ c ∈ m, notQuote c = true) (hk : k t (caps.set i m) = some x) :
    Rx.run (quoted i) ('"' :: (m ++ '"' :: t)) caps k = some x := by
  simp only [quoted, Rx.cat, run_seq, run_chr_cons, run_grp, run_star]
  apply starRun_greedy notQuote m ('"' :: t) _ x hm (by simp [notQuote])
  rw [run_chr_cons, take_consumed]
  exact hk

/-- The part `"([^"]+)"\s*:\s*` on a quoted key directly followed by a colon
and by a text that does not start with white space. -/
theorem run_keyPrefix (key t : Str) (caps : Caps) (k : Str → Caps → Option α) (x : α)
    (hne : key ≠ []) (hkey : ∀ c ∈ key, notQuote c = true)
    (ht : ∀ d ∈ t.head?, isSpace d = false) (hk : k t (caps.set 1 key) = some x) :
    Rx.run keyPrefix ('"' :: (key ++ '"' :: ':' :: t)) caps k = some x := by
  cases key with
  | nil => exact absurd rfl hne
  | cons c key1 =>
    have hc : notQuote c = true := hkey c (List.mem_cons_self _ _)
    simp only [keyPrefix, Rx.cat, Rx.plus, run_seq, run_chr_cons, run_grp, run_star,
      List.cons_append, run_set_cons _ _ _ _ _ hc]
    apply starRun_greedy notQuote key1 ('"' :: ':' :: t) _ x
      (fun d hd => hkey d (List.mem_cons_of_mem _ hd)) (by simp [notQuote])
    rw [run_chr_cons, starRun_cons_stop isSpace true ':' t _ (by decide), run_chr_cons]
    have h := take_consumed (c :: key1) ('"' :: ':' :: t)
    simp only [List.cons_append] at h
    rw [h]
    exact starRun_greedy isSpace [] t _ x (by simp) ht hk

end RunEquations

theorem starRun_sound {α : Type} (p : Char → Bool) (g : Bool) (s : Str)
    (k : Str → Option α) (x : α) (h : Rx.starRun p g s k = some x) :
    ∃ m t, s = m ++ t ∧ (∀ c ∈ m, p c = true) ∧ k t = some x := by
  induction s with
  | nil => exact ⟨[], [], rfl, by simp, by simpa [Rx.starRun] using h⟩
  | cons c s ih =>
    by_cases hc : p c = true
    · have hrec : Rx.starRun p g s k = some x ∨ k (c :: s) = some x := by
        cases g with
        | true =>
          rw [starRun_cons_greedy p c s k hc] at h
          cases h1 : Rx.starRun p true s k with
          | none => rw [h1, orTry_none] at h; exact Or.inr h
          | some y => rw [h1, orTry_some] at h; exact Or.inl h
        | false =>
          rw [starRun_cons_lazy p c s k hc] at h
          cases h1 : k (c :: s) with
          | none => rw [h1, orTry_none] at h; exact Or.inl h
          | some y => rw [h1, orTry_some] at h; exact Or.inr h
      rcases hrec with h1 | h1
      · obtain ⟨m, t, hs, hm, hk⟩ := ih h1
        refine ⟨c :: m, t, by rw [hs]; rfl, ?_, hk⟩
        intro d hd
        rcases List.mem_cons.mp hd with rfl | hd
        · exact hc
        · exact hm d hd
      · exact ⟨[], c :: s, rfl, by simp, h1⟩
    · rw [starRun_cons_stop p g c s k (by simpa using hc)] at h
      exact ⟨[], c :: s, rfl, by simp, h⟩

/-- Every success of the matcher consumes a text that the pattern describes. -/
theorem run_sound {α : Type} (r : Rx) : ∀ (s : Str) (caps : Caps)
    (k : Str → Caps → Option α) (x : α), Rx.run r s caps k = some x →
    ∃ m t caps1, s = m ++ t ∧ Rx.Sem r m caps caps1 ∧ k t caps1 = some x := by
  induction r with
  | chr c =>
    intro s caps k x h
    cases s with
    | nil => rw [run_chr_nil] at h; cases h
    | cons d t =>
      by_cases hd : d = c
      · subst hd
        rw [run_chr_cons] at h
        exact ⟨[d], t, caps, rfl, ⟨rfl, rfl⟩, h⟩
      · rw [run_chr_ne c d t caps k hd] at h; cases h
  | set p =>
    intro s caps k x h
    cases s with
    | nil => simp [Rx.run] at h
    | cons d t =>
      by_cases hd : p d = true
      · rw [run_set_cons p d t caps k hd] at h
        exact ⟨[d], t, caps, rfl, ⟨d, hd, rfl, rfl⟩, h⟩
      · simp [Rx.run, hd] at h
  | star p g =>
    intro s caps k x h
    rw [run_star] at h
    obtain ⟨m, t, hs, hm, hk⟩ := starRun_sound p g s _ x h
    exact ⟨m, t, caps, hs, ⟨hm, rfl⟩, hk⟩
  | seq a b iha ihb =>
    intro s caps k x h
    rw [run_seq] at h
    obtain ⟨m1, t1, c1, hs1, hsem1, hk1⟩ := iha s caps _ x h
    obtain ⟨m2, t2, c2, hs2, hsem2, hk2⟩ := ihb t1 c1 k x hk1
    refine ⟨m1 ++ m2, t2, c2, by rw [hs1, hs2, List.append_assoc], ?_, hk2⟩
    exact ⟨m1, m2, c1, rfl, hsem1, hsem2⟩
  | alt a b iha ihb =>
    intro s caps k x h
    rw [run_alt] at h
    cases h1 : Rx.run a s caps k with
    | none =>
      rw [h1, orTry_none] at h
      obtain ⟨m, t, c1, hs, hsem, hk⟩ := ihb s caps k x h
      exact ⟨m, t, c1, hs, Or.inr hsem, hk⟩
    | some y =>
      rw [h1, orTry_some] at h
      rw [h] at h1
      obtain ⟨m, t, c1, hs, hsem, hk⟩ := iha s caps k x h1
      exact ⟨m, t, c1, hs, Or.inl hsem, hk⟩
  | eps =>
    intro s caps k x h
    exact ⟨[], s, caps, rfl, ⟨rfl, rfl⟩, h⟩
  | grp i a iha =>
    intro s caps k x h
    rw [run_grp] at h
    obtain ⟨m, t, c1, hs, hsem, hk⟩ := iha s caps _ x h
    refine ⟨m, t, c1.set i m, hs, ⟨c1, hsem, rfl⟩, ?_⟩
    rw [hs, take_consumed] at hk
    exact hk

theorem matchAt_sound (r : Rx) (s : Str) (caps : Caps) (rest : Str)
    (h : Rx.matchAt r s = some (caps, rest)) :
    ∃ m, s = m ++ rest ∧ Rx.Sem r m Caps.none caps := by
  obtain ⟨m, t, c1, hs, hsem, hk⟩ := run_sound r s Caps.none _ _ h
  simp only [Option.some.injEq, Prod.mk.injEq] at hk
  rw [← hk.1, ← hk.2]
  exact ⟨m, hs, hsem⟩

/-- Every match enumerated in a text is the match of a part of the text. -/
theorem scan_sound (r : Rx) (s : Str) : ∀ (skip : Nat) (caps : Caps),
    caps ∈ Rx.scan r s skip → ∃ pre m post, s = pre ++ m ++ post ∧ Rx.Sem r m Caps.none caps := by
  induction s with
  | nil => intro skip caps h; simp [Rx.scan] at h
  | cons c cs ih =>
    intro skip caps h
    have lift : (∃ pre m post, cs = pre ++ m ++ post ∧ Rx.Sem r m Caps.none caps) →
        ∃ pre m post, c :: cs = pre ++ m ++ post ∧ Rx.Sem r m Caps.none caps := by
      rintro ⟨pre, m, post, hs, hsem⟩
      exact ⟨c :: pre, m, post, by rw [hs]; rfl, hsem⟩
    cases skip with
    | succ n => exact lift (ih n caps (by simpa [Rx.scan] using h))
    | zero =>
      unfold Rx.scan at h
      cases hm : Rx.matchAt r (c :: cs) with
      | none => rw [hm] at h; exact lift (ih 0 caps h)
      | some res =>
        obtain ⟨caps1, rest⟩ := res
        rw [hm] at h
        rcases List.mem_cons.mp h with rfl | h
        · obtain ⟨m, hs, hsem⟩ := matchAt_sound r _ _ _ hm
          exact ⟨[], m, rest, by simpa using hs, hsem⟩
        · exact lift (ih _ caps h)

/-! ## Decoding: which match sets which field -/

theorem foldlM_option_inv {α β : Type} (f : β → α → Option β) (P : β → Prop)
    (l : List α) (b b1 : β) (hstep : ∀ x a y, a ∈ l → P x → f x a = some y → P y)
    (hb : P b) (h : l.foldlM f b = some b1) : P b1 := by
  induction l generalizing b with
  | nil =>
    simp only [List.foldlM_nil, pure, Option.some.injEq] at h
    rw [← h]; exact hb
  | cons a l ih =>
    rw [List.foldlM_cons] at h
    cases hfa : f b a with
    | none => rw [hfa] at h; cases h
    | some y =>
      rw [hfa] at h
      exact ih y (fun x a1 y1 ha1 => hstep x a1 y1 (List.mem_cons_of_mem _ ha1))
        (hstep b a y (List.mem_cons_self _ _) hb hfa) h

/-- The loop over the references changes `backlinks` (for the key `backlinks`)
or `suggested_links` (otherwise) and nothing else. -/
theorem parse_refs_frame (u : Nat → Indeterminate io) (key : Str) (note n1 : Note io)
    (value : Str) (h : parse_refs u key note value = some n1) :
    n1.id = note.id ∧ n1.content = note.content ∧ n1.created_at = note.created_at
    ∧ n1.last_modified = note.last_modified ∧ n1.tags = note.tags
    ∧ n1.code_outputs = note.code_outputs ∧ n1.references = note.references
    ∧ (n1.backlinks = note.backlinks ∨ key = "backlinks".toList)
    ∧ (n1.suggested_links = note.suggested_links ∨ key ≠ "backlinks".toList) := by
  unfold parse_refs at h
  refine foldlM_option_inv _
    (fun n1 => n1.id = note.id ∧ n1.content = note.content ∧ n1.created_at = note.created_at
      ∧ n1.last_modified = note.last_modified ∧ n1.tags = note.tags
      ∧ n1.code_outputs = note.code_outputs ∧ n1.references = note.references
      ∧ (n1.backlinks = note.backlinks ∨ key = "backlinks".toList)
      ∧ (n1.suggested_links = note.suggested_links ∨ key ≠ "backlinks".toList))
    _ note n1 ?_ ?_ h
  · intro x a y _ hx hy
    simp only [Option.map_eq_some'] at hy
    obtain ⟨ref, _, hy⟩ := hy
    · by_cases hk : key = "backlinks".toList
      · rw [if_pos hk] at hy
        subst hy
        simp only [hk, ne_eq, not_true_eq_false, or_false, or_true, true_and]
        exact ⟨hx.1, hx.2.1, hx.2.2.1, hx.2.2.2.1, hx.2.2.2.2.1, hx.2.2.2.2.2.1,
          hx.2.2.2.2.2.2.1, hx.2.2.2.2.2.2.2.2.resolve_right (not_not.mpr hk)⟩
      · rw [if_neg hk] at hy
        subst hy
        simp only [hk, ne_eq, not_false_eq_true, or_true, or_false, true_and]
        exact ⟨hx.1, hx.2.1, hx.2.2.1, hx.2.2.2.1, hx.2.2.2.2.1, hx.2.2.2.2.2.1,
          hx.2.2.2.2.2.2.1, hx.2.2.2.2.2.2.2.1.resolve_right hk, trivial⟩
  · simp

/-- One match of `Note::from_json` changes at most the field named by its
key. -/
theorem from_json_step_frame (u : Nat → Indeterminate io) (note n1 : Note io) (m : Caps)
    (h : Note.from_json_step u note m = some n1) :
    (n1.id = note.id ∨ m.str 1 = "id".toList)
    ∧ (n1.content = note.content ∨ m.str 1 = "content".toList)
    ∧ (n1.created_at = note.created_at ∨ m.str 1 = "created_at".toList)
    ∧ (n1.last_modified = note.last_modified ∨ m.str 1 = "last_modified".toList)
    ∧ (n1.tags = note.tags ∨ m.str 1 = "tags".toList)
    ∧ (n1.code_outputs = note.code_outputs ∨ m.str 1 = "code_outputs".toList)
    ∧ (n1.backlinks = note.backlinks ∨ m.str 1 = "backlinks".toList)
    ∧ (n1.references = note.references ∨ m.str 1 = "references".toList)
    ∧ (n1.suggested_links = note.suggested_links ∨ m.str 1 = "suggested_links".toList) := by
  unfold Note.from_json_step at h
  simp only at h
  split at h
  · cases h
  · rename_i value _
    split_ifs at h with h1 h2 h3 h4 h5 h6 h7 h8
    · cases h; simp [h1]
    · cases h; simp [h2]
    · cases h; simp [h3]
    · cases h; simp [h4]
    · simp only [Option.map_eq_some'] at h
      obtain ⟨t, _, rfl⟩ := h
      simp [h5.1]
    · simp only [Option.map_eq_some'] at h
      obtain ⟨t, _, rfl⟩ := h
      simp [h6.1]
    · have hf := parse_refs_frame u _ note n1 value h
      obtain ⟨f1, f2, f3, f4, f5, f6, f7, f8, f9⟩ := hf
      refine ⟨Or.inl f1, Or.inl f2, Or.inl f3, Or.inl f4, Or.inl f5, Or.inl f6, f8,
        Or.inl f7, ?_⟩
      rcases f9 with f9 | f9
      · exact Or.inl f9
      · exact Or.inr (h7.1.resolve_left f9)
    · simp only [Option.map_eq_some'] at h
      obtain ⟨t, _, rfl⟩ := h
      simp [h8.1]
    · cases h; simp

/-! ## The shape of the matches of each pattern -/

theorem sem_keyPrefix (m : Str) (c0 c1 : Caps) (h : Rx.Sem keyPrefix m c0 c1) :
    ∃ key ws1 ws2, m = ['"'] ++ key ++ ['"'] ++ ws1 ++ [':'] ++ ws2
      ∧ key ≠ [] ∧ (∀ c ∈ key, notQuote c = true) ∧ (∀ c ∈ ws1, isSpace c = true)
      ∧ (∀ c ∈ ws2, isSpace c = true) ∧ c1 = c0.set 1 key := by
  simp only [keyPrefix, Rx.cat, Rx.plus, Rx.Sem] at h
  obtain ⟨_, _, _, rfl, ⟨rfl, rfl⟩, _, _, _, rfl, ⟨_, ⟨_, _, _, rfl, ⟨d, hd, rfl, rfl⟩,
    ⟨hk, rfl⟩⟩, rfl⟩, _, _, _, rfl, ⟨rfl, rfl⟩, ws1, _, _, rfl, ⟨hws1, rfl⟩, _, ws2, _, rfl,
    ⟨rfl, rfl⟩, ⟨hws2, rfl⟩⟩ := h
  rename_i key1
  refine ⟨d :: key1, ws1, ws2, by simp, by simp, ?_, hws1, hws2, rfl⟩
  intro c hc
  rcases List.mem_cons.mp hc with rfl | hc
  · exact hd
  · exact hk c hc

theorem sem_quoted (i : Nat) (m : Str) (c0 c1 : Caps) (h : Rx.Sem (quoted i) m c0 c1) :
    ∃ v, m = ['"'] ++ v ++ ['"'] ∧ (∀ c ∈ v, notQuote c = true) ∧ c1 = c0.set i v := by
  simp only [quoted, Rx.cat, Rx.Sem] at h
  obtain ⟨_, _, _, rfl, ⟨rfl, rfl⟩, v, _, _, rfl, ⟨_, ⟨hv, rfl⟩, rfl⟩, rfl, rfl⟩ := h
  exact ⟨v, by simp, hv, rfl⟩

/-- A match of the pattern of `Note::from_json`: a quoted key, a colon, then
either a quoted text (group 2) or a bracketed, braced or boolean value
(group 3). -/
theorem sem_note_pattern (m : Str) (caps : Caps) (h : Rx.Sem note_pattern m Caps.none caps) :
    ∃ key ws1 ws2 val, m = ['"'] ++ key ++ ['"'] ++ ws1 ++ [':'] ++ ws2 ++ val
      ∧ (∀ c ∈ ws1, isSpace c = true) ∧ caps 1 = some key
      ∧ ((caps 2 = Option.none ∧ caps 3 = some val)
          ∨ (∃ v, caps 2 = some v ∧ val = ['"'] ++ v ++ ['"'] ∧ ∀ c ∈ v, notQuote c = true)) := by
  unfold note_pattern at h
  obtain ⟨m1, val, c1, rfl, hkey, hval⟩ := h
  obtain ⟨key, ws1, ws2, rfl, _, _, hws1, _, rfl⟩ := sem_keyPrefix m1 _ _ hkey
  refine ⟨key, ws1, ws2, val, rfl, hws1, ?_⟩
  rcases hval with hq | hg
  · obtain ⟨v, rfl, hv, rfl⟩ := sem_quoted 2 val _ _ hq
    exact ⟨by simp [Caps.set, Caps.none], Or.inr ⟨v, by simp [Caps.set], rfl, hv⟩⟩
  · obtain ⟨c, hc, rfl⟩ := hg
    have hcc : c = Caps.none.set 1 key := by
      simp only [Rx.cat, Rx.word, Rx.Sem, String.toList, List.map] at hc
      rcases hc with hc | hc | hc | hc
      · obtain ⟨_, _, _, _, ⟨_, rfl⟩, _, _, _, _, ⟨_, rfl⟩, _, rfl⟩ := hc; rfl
      · obtain ⟨_, _, _, _, ⟨_, rfl⟩, _, _, _, _, ⟨_, rfl⟩, _, rfl⟩ := hc; rfl
      · obtain ⟨_, _, _, _, ⟨_, rfl⟩, _, _, _, _, ⟨_, rfl⟩, _, _, _, _, ⟨_, rfl⟩,
          _, rfl⟩ := hc
        rfl
      · obtain ⟨_, _, _, _, ⟨_, rfl⟩, _, _, _, _, ⟨_, rfl⟩, _, _, _, _, ⟨_, rfl⟩,
          _, _, _, _, ⟨_, rfl⟩, _, rfl⟩ := hc
        rfl
    subst hcc
    exact ⟨by simp [Caps.set, Caps.none], Or.inl ⟨by simp [Caps.set, Caps.none], by simp [Caps.set]⟩⟩

theorem key_match_occurs (text : Str) (caps : Caps)
    (h : caps ∈ Rx.allMatches note_pattern text) : occurs_as_key (caps.str 1) text := by
  obtain ⟨pre, m, post, rfl, hsem⟩ := scan_sound note_pattern text 0 caps h
  obtain ⟨key, ws1, ws2, val, rfl, hws1, hk, _⟩ := sem_note_pattern m caps hsem
  refine ⟨pre, ws1, ws2 ++ val ++ post, hws1, ?_⟩
  simp [Caps.str, hk]

/-- A field that differs from its value in the empty note was set by a match
whose key is the name of the field. -/
theorem from_json_set_by_key (u : Nat → Indeterminate io) (text : Str) (n : Note io)
    (h : Note.from_json u text = some n) :
    (n.id = [] ∨ occurs_as_key "id".toList text)
    ∧ (n.content = [] ∨ occurs_as_key "content".toList text)
    ∧ (n.created_at = [] ∨ occurs_as_key "created_at".toList text)
    ∧ (n.last_modified = [] ∨ occurs_as_key "last_modified".toList text)
    ∧ (n.tags = [] ∨ occurs_as_key "tags".toList text)
    ∧ (n.code_outputs = [] ∨ occurs_as_key "code_outputs".toList text)
    ∧ (n.backlinks = [] ∨ occurs_as_key "backlinks".toList text)
    ∧ (n.references = [] ∨ occurs_as_key "references".toList text)
    ∧ (n.suggested_links = [] ∨ occurs_as_key "suggested_links".toList text) := by
  unfold Note.from_json at h
  refine foldlM_option_inv (Note.from_json_step u)
    (fun n => (n.id = [] ∨ occurs_as_key "id".toList text)
      ∧ (n.content = [] ∨ occurs_as_key "content".toList text)
      ∧ (n.created_at = [] ∨ occurs_as_key "created_at".toList text)
      ∧ (n.last_modified = [] ∨ occurs_as_key "last_modified".toList text)
      ∧ (n.tags = [] ∨ occurs_as_key "tags".toList text)
      ∧ (n.code_outputs = [] ∨ occurs_as_key "code_outputs".toList text)
      ∧ (n.backlinks = [] ∨ occurs_as_key "backlinks".toList text)
      ∧ (n.references = [] ∨ occurs_as_key "references".toList text)
      ∧ (n.suggested_links = [] ∨ occurs_as_key "suggested_links".toList text))
    _ (Note.empty io) n ?_ ?_ h
  · intro x a y ha hx hy
    have hocc := key_match_occurs text a ha
    obtain ⟨f1, f2, f3, f4, f5, f6, f7, f8, f9⟩ := from_json_step_frame u x y a hy
    obtain ⟨x1, x2, x3, x4, x5, x6, x7, x8, x9⟩ := hx
    refine ⟨?_, ?_, ?_, ?_, ?_, ?_, ?_, ?_, ?_⟩
    · rcases f1 with e | e
      · rw [e]; exact x1
      · rw [← e]; exact Or.inr hocc
    · rcases f2 with e | e
      · rw [e]; exact x2
      · rw [← e]; exact Or.inr hocc
    · rcases f3 with e | e
      · rw [e]; exact x3
      · rw [← e]; exact Or.inr hocc
    · rcases f4 with e | e
      · rw [e]; exact x4
      · rw [← e]; exact Or.inr hocc
    · rcases f5 with e | e
      · rw [e]; exact x5
      · rw [← e]; exact Or.inr hocc
    · rcases f6 with e | e
      · rw [e]; exact x6
      · rw [← e]; exact Or.inr hocc
    · rcases f7 with e | e
      · rw [e]; exact x7
      · rw [← e]; exact Or.inr hocc
    · rcases f8 with e | e
      · rw [e]; exact x8
      · rw [← e]; exact Or.inr hocc
    · rcases f9 with e | e
      · rw [e]; exact x9
      · rw [← e]; exact Or.inr hocc
  · simp [Note.empty]

/-- C4: `Note::from_json` ignores unknown keys and zero-fills missing ones.
In the note decoded from any text, each of the nine fields whose name does not
occur in the text as a quoted key (the quoted name, white space, a colon) has
its zero value; a match whose key is none of the nine names sets no field;
decoding `{"unknown":"x","content":"c"}` gives the content `c` and every
other field empty, and decoding `{}` gives the empty note. -/
theorem from_json_lenient (u : Nat → Indeterminate io) (text : Str) (n : Note io)
    (h : Note.from_json u text = some n) :
    (¬ occurs_as_key "id".toList text → n.id = [])
    ∧ (¬ occurs_as_key "content".toList text → n.content = [])
    ∧ (¬ occurs_as_key "created_at".toList text → n.created_at = [])
    ∧ (¬ occurs_as_key "last_modified".toList text → n.last_modified = [])
    ∧ (¬ occurs_as_key "tags".toList text → n.tags = [])
    ∧ (¬ occurs_as_key "code_outputs".toList text → n.code_outputs = [])
    ∧ (¬ occurs_as_key "backlinks".toList text → n.backlinks = [])
    ∧ (¬ occurs_as_key "references".toList text → n.references = [])
    ∧ (¬ occurs_as_key "suggested_links".toList text → n.suggested_links = [])
    ∧ (∀ (note note1 : Note io) (m : Caps),
        m.str 1 ∉ ["id".toList, "content".toList, "created_at".toList,
          "last_modified".toList, "tags".toList, "code_outputs".toList,
          "backlinks".toList, "references".toList, "suggested_links".toList] →
        Note.from_json_step u note m = some note1 → note1 = note)
    ∧ Note.from_json u "\x7b\"unknown\":\"x\",\"content\":\"c\"\x7d".toList
        = some { Note.empty io with content := "c".toList }
    ∧ Note.from_json u "\x7b\x7d".toList = some (Note.empty io) := by
  obtain ⟨f1, f2, f3, f4, f5, f6, f7, f8, f9⟩ := from_json_set_by_key u text n h
  refine ⟨fun hn => f1.resolve_right hn, fun hn => f2.resolve_right hn,
    fun hn => f3.resolve_right hn, fun hn => f4.resolve_right hn,
    fun hn => f5.resolve_right hn, fun hn => f6.resolve_right hn,
    fun hn => f7.resolve_right hn, fun hn => f8.resolve_right hn,
    fun hn => f9.resolve_right hn, ?_, rfl, rfl⟩
  intro note note1 m hm hstep
  obtain ⟨g1, g2, g3, g4, g5, g6, g7, g8, g9⟩ := from_json_step_frame u note note1 m hstep
  simp only [List.mem_cons, List.mem_nil_iff, not_or, or_false] at hm
  obtain ⟨k1, k2, k3, k4, k5, k6, k7, k8, k9⟩ := hm
  have e1 := g1.resolve_right k1
  have e2 := g2.resolve_right k2
  have e3 := g3.resolve_right k3
  have e4 := g4.resolve_right k4
  have e5 := g5.resolve_right k5
  have e6 := g6.resolve_right k6
  have e7 := g7.resolve_right k7
  have e8 := g8.resolve_right k8
  have e9 := g9.resolve_right k9
  cases note; cases note1
  simp only at e1 e2 e3 e4 e5 e6 e7 e8 e9
  simp [e1, e2, e3, e4, e5, e6, e7, e8, e9]

theorem from_json_lenient_witness :
    Note.from_json zeros "\x7b\"unknown\":\"x\",\"content\":\"c\"\x7d".toList
        = some { Note.empty wholeIO with content := "c".toList }
    ∧ (¬ occurs_as_key "id".toList "\x7b\"unknown\":\"x\",\"content\":\"c\"\x7d".toList →
        ({ Note.empty wholeIO with content := "c".toList } : Note wholeIO).id = []) :=
  ⟨rfl, (from_json_lenient zeros "\x7b\"unknown\":\"x\",\"content\":\"c\"\x7d".toList
    { Note.empty wholeIO with content := "c".toList } rfl).1⟩

/-! ## Decoding does not fail on texts without `\u` and without a `relevance` key -/

theorem infix_of_cons {a : Str} {c : Char} {t : Str} (h : a <:+: t) : a <:+: c :: t := by
  obtain ⟨pre, post, rfl⟩ := h
  exact ⟨c :: pre, post, rfl⟩

theorem unescape_json_nil : unescape_json [] = some [] := rfl

theorem unescape_json_single (c : Char) : unescape_json [c] = some [c] := rfl

theorem unescape_json_plain (c : Char) (t : Str) (hc : c ≠ '\\') :
    unescape_json (c :: t) = (unescape_json t).map (c :: ·) := by
  cases t with
  | nil => rfl
  | cons d rest =>
    conv_lhs => rw [unescape_json]
    simp [hc]

theorem unescape_json_esc (d : Char) (rest : Str) (hd : d ≠ 'u') :
    unescape_json ('\\' :: d :: rest) = (unescape_json rest).map (unescaped_char d :: ·) := by
  conv_lhs => rw [unescape_json]
  simp [hd]

theorem unescape_json_u4 (h1 h2 h3 h4 : Char) (rest : Str) :
    unescape_json ('\\' :: 'u' :: h1 :: h2 :: h3 :: h4 :: rest)
      = match stoi16 [h1, h2, h3, h4] with
        | some code => (unescape_json rest).map (charOfInt code :: ·)
        | none => none := by
  conv_lhs => rw [unescape_json]
  simp

theorem unescaped_char_quote (d : Char) (h : unescaped_char d = '"') : d = '"' := by
  unfold unescaped_char at h
  split_ifs at h with h1 <;> first | exact h1 | exact h | (exact absurd h (by decide))

/-- On a text without the sequence `\u`, `unescape_json` returns, and the
result holds a double quote only if the text does. -/
theorem unescape_total_aux (n : Nat) : ∀ t : Str, t.length ≤ n → ¬ (['\\', 'u'] <:+: t) →
    ∃ r, unescape_json t = some r ∧ ((∀ c ∈ t, c ≠ '"') → ∀ c ∈ r, c ≠ '"') := by
  induction n with
  | zero =>
    intro t ht _
    have : t = [] := List.length_eq_zero.mp (Nat.le_zero.mp ht)
    subst this
    exact ⟨[], rfl, fun _ c hc => by simp at hc⟩
  | succ n ih =>
    intro t ht hu
    cases t with
    | nil => exact ⟨[], rfl, fun _ c hc => by simp at hc⟩
    | cons c t =>
      have hut : ¬ (['\\', 'u'] <:+: t) := fun h => hu (infix_of_cons h)
      have hlt : t.length ≤ n := by simpa using ht
      by_cases hc : c = '\\'
      · cases t with
        | nil => exact ⟨[c], rfl, fun h => by simpa using h⟩
        | cons d rest =>
          have hur : ¬ (['\\', 'u'] <:+: rest) := fun h => hut (infix_of_cons h)
          have hlr : rest.length ≤ n := by
            simp only [List.length_cons] at hlt; omega
          obtain ⟨r, hr, hq⟩ := ih rest hlr hur
          have hd : d ≠ 'u' := by
            intro hd
            apply hu
            exact ⟨[], rest, by simp [hc, hd]⟩
          subst hc
          refine ⟨unescaped_char d :: r, by rw [unescape_json_esc d rest hd, hr]; rfl,
            fun h x hx => ?_⟩
          rcases List.mem_cons.mp hx with rfl | hx
          · intro hx1
            exact h d (by simp) (unescaped_char_quote d hx1)
          · exact hq (fun y hy => h y (by simp [hy])) x hx
      · obtain ⟨r, hr, hq⟩ := ih t hlt hut
        refine ⟨c :: r, by rw [unescape_json_plain c t hc, hr]; rfl, fun h x hx => ?_⟩
        rcases List.mem_cons.mp hx with rfl | hx
        · exact h x (List.mem_cons_self _ _)
        · exact hq (fun y hy => h y (List.mem_cons_of_mem _ hy)) x hx

theorem unescape_total (t : Str) (h : ¬ (['\\', 'u'] <:+: t)) :
    ∃ r, unescape_json t = some r ∧ ((∀ c ∈ t, c ≠ '"') → ∀ c ∈ r, c ≠ '"') :=
  unescape_total_aux t.length t (Nat.le_refl _) h

theorem sem_noGroup (j : Nat) (r : Rx) : ∀ (m : Str) (c0 c1 : Caps),
    Rx.noGroup j r = true → Rx.Sem r m c0 c1 → c1 j = c0 j := by
  induction r with
  | chr c => intro m c0 c1 _ h; rw [h.2]
  | set p => intro m c0 c1 _ h; obtain ⟨_, _, _, rfl⟩ := h; rfl
  | star p g => intro m c0 c1 _ h; rw [h.2]
  | seq a b iha ihb =>
    intro m c0 c2 hn h
    simp only [Rx.noGroup, Bool.and_eq_true] at hn
    obtain ⟨m1, m2, c1, _, h1, h2⟩ := h
    rw [ihb m2 c1 c2 hn.2 h2, iha m1 c0 c1 hn.1 h1]
  | alt a b iha ihb =>
    intro m c0 c1 hn h
    simp only [Rx.noGroup, Bool.and_eq_true] at hn
    rcases h with h | h
    · exact iha m c0 c1 hn.1 h
    · exact ihb m c0 c1 hn.2 h
  | eps => intro m c0 c1 _ h; rw [h.2]
  | grp i a iha =>
    intro m c0 c1 hn h
    simp only [Rx.noGroup, Bool.and_eq_true, decide_eq_true_eq] at hn
    obtain ⟨c, hc, rfl⟩ := h
    have hji : j ≠ i := fun e => hn.1 e.symm
    simp only [Caps.set, hji, if_false]
    exact iha m c0 c hn.2 hc

/-- A match of one of the three patterns that start with a quoted key holds
the key between quotes. -/
theorem sem_keyed (rest : Rx) (hrest : Rx.noGroup 1 rest = true) (m : Str) (caps : Caps)
    (h : Rx.Sem (.seq keyPrefix rest) m Caps.none caps) :
    ∃ post, m = ['"'] ++ caps.str 1 ++ ['"'] ++ post := by
  obtain ⟨m1, m2, c1, rfl, hkey, hval⟩ := h
  obtain ⟨key, ws1, ws2, rfl, _, _, _, _, rfl⟩ := sem_keyPrefix m1 _ _ hkey
  have h1 : caps 1 = some key := by
    rw [sem_noGroup 1 rest m2 _ caps hrest hval]
    simp [Caps.set]
  exact ⟨ws1 ++ [':'] ++ ws2 ++ m2, by simp [Caps.str, h1]⟩

theorem backlink_key_infix (t : Str) (caps : Caps)
    (h : caps ∈ Rx.allMatches backlink_pattern t) :
    (['"'] ++ caps.str 1 ++ ['"']) <:+: t := by
  obtain ⟨pre, m, post, rfl, hsem⟩ := scan_sound backlink_pattern t 0 caps h
  obtain ⟨post1, rfl⟩ := sem_keyed _ (by decide) m caps hsem
  exact ⟨pre, post1 ++ post, by simp⟩

theorem tag_match_infix (t : Str) (caps : Caps) (h : caps ∈ Rx.allMatches tag_pattern t) :
    caps.str 1 <:+: t ∧ '"' ∈ t := by
  obtain ⟨pre, m, post, rfl, hsem⟩ := scan_sound tag_pattern t 0 caps h
  obtain ⟨v, rfl, _, rfl⟩ := sem_quoted 1 m _ _ hsem
  exact ⟨⟨pre ++ ['"'], ['"'] ++ post, by simp [Caps.str, Caps.set]⟩, by simp⟩

theorem output_match_infix (t : Str) (caps : Caps)
    (h : caps ∈ Rx.allMatches output_pattern t) : caps.str 2 <:+: t ∧ '"' ∈ t := by
  obtain ⟨pre, m, post, rfl, hsem⟩ := scan_sound output_pattern t 0 caps h
  obtain ⟨m1, m2, c1, rfl, _, hval⟩ := hsem
  obtain ⟨v, rfl, _, rfl⟩ := sem_quoted 2 m2 _ _ hval
  exact ⟨⟨pre ++ m1 ++ ['"'], ['"'] ++ post, by simp [Caps.str, Caps.set]⟩, by simp⟩

theorem ref_match_infix (t : Str) (caps : Caps) (h : caps ∈ Rx.allMatches ref_pattern t) :
    caps.str 1 <:+: t := by
  obtain ⟨pre, m, post, rfl, hsem⟩ := scan_sound ref_pattern t 0 caps h
  simp only [ref_pattern, Rx.cat, Rx.plus, Rx.Sem] at hsem
  obtain ⟨_, _, _, rfl, ⟨rfl, rfl⟩, g, _, _, rfl, ⟨_, _, rfl⟩, rfl, rfl⟩ := hsem
  exact ⟨pre ++ ['{'], ['}'] ++ post, by simp [Caps.str, Caps.set]⟩

theorem foldlM_option_some {α β : Type} (f : β → α → Option β) (l : List α) (b : β)
    (h : ∀ x, ∀ a ∈ l, ∃ y, f x a = some y) : ∃ r, l.foldlM f b = some r := by
  induction l generalizing b with
  | nil => exact ⟨b, rfl⟩
  | cons a l ih =>
    obtain ⟨y, hy⟩ := h b a (List.mem_cons_self _ _)
    rw [List.foldlM_cons, hy]
    exact ih y (fun x a1 ha1 => h x a1 (List.mem_cons_of_mem _ ha1))

/-- A quoted word that occurs between two braces occurs in the text between
them. -/
theorem infix_of_braced (w g : Str) (h : ('"' :: w ++ ['"']) <:+: ('{' :: g ++ ['}'])) :
    ('"' :: w ++ ['"']) <:+: g := by
  rcases List.infix_cons_iff.mp h with h1 | h1
  · obtain ⟨t, ht⟩ := h1
    simp at ht
  · rcases List.infix_concat_iff.mp h1 with h3 | h3
    · obtain ⟨t, ht⟩ := h3
      have h4 := congrArg List.reverse ht
      simp at h4
    · exact h3

/-- `BacklinkReference::from_json` returns on a text in which the key
`relevance` does not occur. -/
theorem backlink_from_json_some (uu : Indeterminate io) (t : Str)
    (h : ¬ ("\"relevance\"".toList <:+: t)) :
    ∃ r, BacklinkReference.from_json uu t = some r := by
  unfold BacklinkReference.from_json
  apply foldlM_option_some
  intro x a ha
  have hkey : a.str 1 ≠ "relevance".toList := by
    intro e
    apply h
    have := backlink_key_infix t a ha
    rw [e] at this
    exact this
  unfold BacklinkReference.from_json_step
  simp only [hkey, if_false]
  split_ifs <;> exact ⟨_, rfl⟩

theorem parse_strings_some (text value : Str) (acc : List Str)
    (h1 : ¬ (['\\', 'u'] <:+: text))
    (hv : (∀ c ∈ value, c ≠ '"') ∨ value <:+: text) :
    ∃ r, parse_strings acc value = some r := by
  unfold parse_strings
  apply foldlM_option_some
  intro x a ha
  obtain ⟨hin, hq⟩ := tag_match_infix value a ha
  rcases hv with hv | hv
  · exact absurd rfl (hv '"' hq)
  · obtain ⟨r, hr, _⟩ := unescape_total (a.str 1) (fun h => h1 (h.trans (hin.trans hv)))
    exact ⟨_, by rw [hr]; rfl⟩

theorem parse_outputs_some (text value : Str) (acc : StrMap)
    (h1 : ¬ (['\\', 'u'] <:+: text))
    (hv : (∀ c ∈ value, c ≠ '"') ∨ value <:+: text) :
    ∃ r, parse_outputs acc value = some r := by
  unfold parse_outputs
  apply foldlM_option_some
  intro x a ha
  obtain ⟨hin, hq⟩ := output_match_infix value a ha
  rcases hv with hv | hv
  · exact absurd rfl (hv '"' hq)
  · obtain ⟨r, hr, _⟩ := unescape_total (a.str 2) (fun h => h1 (h.trans (hin.trans hv)))
    exact ⟨_, by rw [hr]; rfl⟩

theorem parse_refs_some (u : Nat → Indeterminate io) (text value key : Str) (note : Note io)
    (h2 : ¬ ("\"relevance\"".toList <:+: text))
    (hv : (∀ c ∈ value, c ≠ '"') ∨ value <:+: text) :
    ∃ r, parse_refs u key note value = some r := by
  unfold parse_refs
  apply foldlM_option_some
  intro x a ha
  have hin := ref_match_infix value a ha
  have hno : ¬ ("\"relevance\"".toList <:+: (['{'] ++ a.str 1 ++ ['}'])) := by
    intro hr
    have hg : ('"' :: "relevance".toList ++ ['"']) <:+: a.str 1 :=
      infix_of_braced "relevance".toList (a.str 1) (by simpa using hr)
    rcases hv with hv | hv
    · obtain ⟨p, q, hpq⟩ := hg.trans hin
      exact hv '"' (by rw [← hpq]; simp) rfl
    · exact h2 (by simpa using hg.trans (hin.trans hv))
  obtain ⟨r, hr⟩ := backlink_from_json_some
    (u (x.backlinks.length + x.suggested_links.length)) _ hno
  exact ⟨_, by rw [hr]; rfl⟩

/-- The body of the loop of `Note::from_json` does not throw on a match found
in a text without `\u` and without the key `relevance`. -/
theorem from_json_step_some (u : Nat → Indeterminate io) (text : Str) (note : Note io)
    (m : Caps) (h1 : ¬ (['\\', 'u'] <:+: text))
    (h2 : ¬ ("\"relevance\"".toList <:+: text))
    (hm : m ∈ Rx.allMatches note_pattern text) :
    ∃ y, Note.from_json_step u note m = some y := by
  obtain ⟨pre, mm, post, rfl, hsem⟩ := scan_sound note_pattern text 0 m hm
  obtain ⟨key, ws1, ws2, val, rfl, _, _, hcase⟩ := sem_note_pattern mm m hsem
  have hvalue : ∃ value, (if (m 2).isSome then unescape_json (m.str 2) else some (m.str 3))
        = some value
      ∧ ((∀ c ∈ value, c ≠ '"')
          ∨ value <:+: (pre ++ (['"'] ++ key ++ ['"'] ++ ws1 ++ [':'] ++ ws2 ++ val) ++ post)) := by
    rcases hcase with ⟨c2, c3⟩ | ⟨v, c2, rfl, hq⟩
    · refine ⟨val, by simp [c2, Caps.str, c3], Or.inr ?_⟩
      exact ⟨pre ++ (['"'] ++ key ++ ['"'] ++ ws1 ++ [':'] ++ ws2), post, by simp⟩
    · have hin : v <:+: (pre ++ (['"'] ++ key ++ ['"'] ++ ws1 ++ [':'] ++ ws2
          ++ (['"'] ++ v ++ ['"'])) ++ post) :=
        ⟨pre ++ (['"'] ++ key ++ ['"'] ++ ws1 ++ [':'] ++ ws2) ++ ['"'], ['"'] ++ post,
          by simp⟩
      obtain ⟨r, hr, hrq⟩ := unescape_total v (fun h => h1 (h.trans hin))
      refine ⟨r, by simp [c2, Caps.str, hr], Or.inl ?_⟩
      exact hrq (fun c hc => by simpa [notQuote] using hq c hc)
  obtain ⟨value, hval, hfine⟩ := hvalue
  unfold Note.from_json_step
  simp only [hval]
  split_ifs
  · exact ⟨_, rfl⟩
  · exact ⟨_, rfl⟩
  · exact ⟨_, rfl⟩
  · exact ⟨_, rfl⟩
  · obtain ⟨r, hr⟩ := parse_strings_some _ value note.tags h1 hfine
    exact ⟨_, by rw [hr]; rfl⟩
  · obtain ⟨r, hr⟩ := parse_outputs_some _ value note.code_outputs h1 hfine
    exact ⟨_, by rw [hr]; rfl⟩
  · exact parse_refs_some u _ value _ note h2 hfine
  · obtain ⟨r, hr⟩ := parse_strings_some _ value note.references h1 hfine
    exact ⟨_, by rw [hr]; rfl⟩
  · exact ⟨_, rfl⟩

/-- In the embedding, `Note::from_json` returns a note for every text
that holds no backslash followed by `u` and no quoted word `relevance`
(whatever else the text is: partial, malformed, with any other backslash
sequences and any other values under `backlinks` and `suggested_links`). -/
theorem from_json_returns (u : Nat → Indeterminate io) (text : Str)
    (h1 : ¬ ("\\u".toList <:+: text)) (h2 : ¬ ("\"relevance\"".toList <:+: text)) :
    ∃ n, Note.from_json u text = some n := by
  unfold Note.from_json
  apply foldlM_option_some
  intro x a ha
  exact from_json_step_some u text x a h1 h2 ha

theorem from_json_returns_witness :
    ∃ n, Note.from_json zeros "\x7b\"tags\":[\"a\\n\"],\"backlinks\":[\x7b\"noteId\":7\x7d],\"x\":".toList
      = some n :=
  from_json_returns zeros _ (by decide) (by decide)

/-- C5: `Note::from_json` is not total.  It throws on `{"id":"\uzzzz"}` (the exception of
`std::stoi` in `unescape_json`) and on `{"backlinks":[{"relevance":"x"}]}`
(the exception of `std::stod` in `BacklinkReference::from_json`). -/
theorem from_json_throws :
    Note.from_json zeros "\x7b\"id\":\"\\uzzzz\"\x7d".toList = Option.none
    ∧ Note.from_json zeros "\x7b\"backlinks\":[\x7b\"relevance\":\"x\"\x7d]\x7d".toList = Option.none := by
  decide

/-! ## Round trip of the escaping -/

theorem stoi16_hex4 (n : Nat) (h : n < 32) :
    stoi16 (hex4 n) = some (n : Int) ∧ charOfInt (n : Int) = Char.ofNat n := by
  interval_cases n <;> exact ⟨by decide, by decide⟩

theorem escape_step_control (c : Char)
    (h : escape_step c = ['\\', 'u'] ++ hex4 c.toNat) (hlt : c.toNat < 32) :
    ∀ rest, unescape_json (escape_step c ++ rest) = (unescape_json rest).map (c :: ·) := by
  intro rest
  rw [h, hex4_small _ hlt]
  have h4 := stoi16_hex4 c.toNat hlt
  rw [hex4_small _ hlt] at h4
  simp only [List.cons_append, List.nil_append]
  rw [unescape_json_u4, h4.1]
  simp only [h4.2, Char.ofNat_toNat]

/-- Unescaping undoes the escaping of one character. -/
theorem unescape_escape_step (c : Char) (rest : Str) :
    unescape_json (escape_step c ++ rest) = (unescape_json rest).map (c :: ·) := by
  by_cases h1 : c = '"'
  · subst h1; exact unescape_json_esc '"' rest (by decide)
  by_cases h2 : c = '\\'
  · subst h2; exact unescape_json_esc '\\' rest (by decide)
  by_cases h3 : c = '\x08'
  · subst h3; exact unescape_json_esc 'b' rest (by decide)
  by_cases h4 : c = '\x0c'
  · subst h4; exact unescape_json_esc 'f' rest (by decide)
  by_cases h5 : c = '\n'
  · subst h5; exact unescape_json_esc 'n' rest (by decide)
  by_cases h6 : c = '\r'
  · subst h6; exact unescape_json_esc 'r' rest (by decide)
  by_cases h7 : c = '\t'
  · subst h7; exact unescape_json_esc 't' rest (by decide)
  by_cases h8 : c = '#'
  · subst h8; exact unescape_json_plain '#' rest (by decide)
  by_cases h9 : c.toNat ≤ 0x1f
  · have h10 : 0 ≤ c.toNat ∧ c.toNat ≤ 0x1f := ⟨Nat.zero_le _, h9⟩
    have he : escape_step c = ['\\', 'u'] ++ hex4 c.toNat := by
      unfold escape_step
      simp only [h1, h2, h3, h4, h5, h6, h7, h8, if_false]
      rw [if_pos h10]
    exact escape_step_control c he (by omega) rest
  · have h10 : ¬ (0 ≤ c.toNat ∧ c.toNat ≤ 0x1f) := fun h => h9 h.2
    have he : escape_step c = [c] := by
      unfold escape_step
      simp only [h1, h2, h3, h4, h5, h6, h7, h8, if_false]
      rw [if_neg h10]
    rw [he]
    exact unescape_json_plain c rest h2

/-- `unescape_json` undoes `escape_json`, on every string. -/
theorem unescape_escape (s : Str) : unescape_json (escape_json s) = some s := by
  induction s with
  | nil => rfl
  | cons c s ih => rw [escape_json_cons, unescape_escape_step, ih]; rfl

/-! ## What the escaping writes -/

theorem hex4_chars (n : Nat) (h : n < 32) :
    ∀ x ∈ hex4 n, x ∈ "0123456789abcdef".toList := by
  interval_cases n <;> decide

/-- The characters written for `c`: `c` itself when it is not a control
character, or characters of the escapes. -/
theorem escape_step_chars (c x : Char) (hx : x ∈ escape_step c) :
    (x = c ∧ c ≠ '\n' ∧ c ≠ '\r') ∨ x ∈ "\\bfnrtu0123456789abcdef".toList
      ∨ (x = '"' ∧ c = '"') := by
  unfold escape_step at hx
  split_ifs at hx with h1 h2 h3 h4 h5 h6 h7 h8 h9
  · simp only [List.mem_cons, List.mem_nil_iff, or_false] at hx
    rcases hx with rfl | rfl
    · exact Or.inr (Or.inl (by decide))
    · exact Or.inr (Or.inr ⟨rfl, h1⟩)
  · simp only [List.mem_cons, List.mem_nil_iff, or_false] at hx
    rcases hx with rfl | rfl <;> exact Or.inr (Or.inl (by decide))
  · simp only [List.mem_cons, List.mem_nil_iff, or_false] at hx
    rcases hx with rfl | rfl <;> exact Or.inr (Or.inl (by decide))
  · simp only [List.mem_cons, List.mem_nil_iff, or_false] at hx
    rcases hx with rfl | rfl <;> exact Or.inr (Or.inl (by decide))
  · simp only [List.mem_cons, List.mem_nil_iff, or_false] at hx
    rcases hx with rfl | rfl <;> exact Or.inr (Or.inl (by decide))
  · simp only [List.mem_cons, List.mem_nil_iff, or_false] at hx
    rcases hx with rfl | rfl <;> exact Or.inr (Or.inl (by decide))
  · simp only [List.mem_cons, List.mem_nil_iff, or_false] at hx
    rcases hx with rfl | rfl <;> exact Or.inr (Or.inl (by decide))
  · simp only [List.mem_cons, List.mem_nil_iff, or_false] at hx
    subst hx
    exact Or.inl ⟨h8.symm ▸ rfl, by rw [h8]; decide, by rw [h8]; decide⟩
  · rw [List.mem_append] at hx
    rcases hx with hx | hx
    · simp only [List.mem_cons, List.mem_nil_iff, or_false] at hx
      rcases hx with rfl | rfl <;> exact Or.inr (Or.inl (by decide))
    · have := hex4_chars c.toNat (by omega) x hx
      have e : "\\bfnrtu0123456789abcdef".toList
          = "\\bfnrtu".toList ++ "0123456789abcdef".toList := by decide
      rw [e]
      exact Or.inr (Or.inl (List.mem_append_right _ this))
  · simp only [List.mem_cons, List.mem_nil_iff, or_false] at hx
    exact Or.inl ⟨hx, h5, h6⟩

theorem escape_json_mem (s : Str) (x : Char) (hx : x ∈ escape_json s) :
    ∃ c ∈ s, x ∈ escape_step c := by
  rw [escape_json_eq_flatMap, List.mem_flatMap] at hx
  exact hx

/-- The escaped text holds a character `q` that no escape writes only if the
string holds it. -/
theorem escape_json_avoids (q : Char) (hq : q ∉ "\\bfnrtu0123456789abcdef".toList)
    (s : Str) (hs : ∀ c ∈ s, c ≠ q) : ∀ x ∈ escape_json s, x ≠ q := by
  intro x hx hxq
  obtain ⟨c, hc, hxc⟩ := escape_json_mem s x hx
  rcases escape_step_chars c x hxc with ⟨h, _⟩ | h | ⟨h1, h2⟩
  · exact hs c hc (h ▸ hxq)
  · exact hq (hxq ▸ h)
  · exact hs c hc (by rw [h2, ← h1, hxq])

/-- The escaped text holds no line terminator: the class `.` accepts it. -/
theorem escape_json_anyChar (s : Str) : ∀ x ∈ escape_json s, anyChar x = true := by
  intro x hx
  obtain ⟨c, _, hxc⟩ := escape_json_mem s x hx
  rcases escape_step_chars c x hxc with ⟨h, h1, h2⟩ | h | ⟨h1, _⟩
  · simp [anyChar, h, h1, h2]
  · revert h; generalize x = y; intro h
    simp only [String.toList, List.mem_cons, List.mem_nil_iff, or_false] at h
    rcases h with rfl | rfl | rfl | rfl | rfl | rfl | rfl | rfl | rfl | rfl | rfl | rfl | rfl
      | rfl | rfl | rfl | rfl | rfl | rfl | rfl | rfl | rfl | rfl <;> decide
  · rw [h1]; decide

/-- A string of characters that need no escape is written as it stands. -/
theorem escape_json_id (s : Str)
    (hs : ∀ c ∈ s, c ≠ '"' ∧ c ≠ '\\' ∧ 0x20 ≤ c.toNat) : escape_json s = s := by
  induction s with
  | nil => rfl
  | cons c s ih =>
    obtain ⟨h1, h2, h3⟩ := hs c (List.mem_cons_self _ _)
    rw [escape_json_cons, ih (fun d hd => hs d (List.mem_cons_of_mem _ hd))]
    have hstep : escape_step c = [c] := by
      unfold escape_step
      have e3 : c ≠ '\x08' := fun h => by rw [h] at h3; revert h3; decide
      have e4 : c ≠ '\x0c' := fun h => by rw [h] at h3; revert h3; decide
      have e5 : c ≠ '\n' := fun h => by rw [h] at h3; revert h3; decide
      have e6 : c ≠ '\r' := fun h => by rw [h] at h3; revert h3; decide
      have e7 : c ≠ '\t' := fun h => by rw [h] at h3; revert h3; decide
      have e9 : ¬ (0 ≤ c.toNat ∧ c.toNat ≤ 0x1f) := fun h => by omega
      simp only [h1, h2, e3, e4, e5, e6, e7, e9, if_false]
      split_ifs with h8
      · rw [h8]
      · rfl
    rw [hstep]; rfl

/-! ## Enumerating the matches of a text -/

theorem allMatches_nil (r : Rx) : Rx.allMatches r [] = [] := rfl

theorem scan_skip (r : Rx) (pre rest : Str) :
    Rx.scan r (pre ++ rest) pre.length = Rx.scan r rest 0 := by
  induction pre with
  | nil => rfl
  | cons c pre ih => simpa [Rx.scan] using ih

/-- A position where the pattern does not match is passed over. -/
theorem allMatches_fail (r : Rx) (c : Char) (t : Str)
    (h : Rx.matchAt r (c :: t) = Option.none) :
    Rx.allMatches r (c :: t) = Rx.allMatches r t := by
  unfold Rx.allMatches
  rw [Rx.scan, h]

/-- After a match of the non-empty text `m` the search goes on behind it. -/
theorem allMatches_match (r : Rx) (m rest : Str) (caps : Caps) (hm : m ≠ [])
    (h : Rx.matchAt r (m ++ rest) = some (caps, rest)) :
    Rx.allMatches r (m ++ rest) = caps :: Rx.allMatches r rest := by
  cases m with
  | nil => exact absurd rfl hm
  | cons c m1 =>
    unfold Rx.allMatches
    rw [List.cons_append] at h ⊢
    rw [Rx.scan, h]
    simp only [List.length_append, Nat.add_sub_cancel]
    rw [scan_skip]

theorem matchAt_chr_ne (q d : Char) (r : Rx) (t : Str) (h : d ≠ q) :
    Rx.matchAt (.seq (.chr q) r) (d :: t) = Option.none := by
  unfold Rx.matchAt
  rw [run_seq, run_chr_ne q d t _ _ h]

theorem run_keyPrefix_ne {α : Type} (d : Char) (t : Str) (caps : Caps)
    (k : Str → Caps → Option α) (h : d ≠ '"') :
    Rx.run keyPrefix (d :: t) caps k = Option.none := by
  simp only [keyPrefix, Rx.cat, run_seq]
  rw [run_chr_ne '"' d t _ _ h]

theorem matchAt_keyed_ne (rest : Rx) (d : Char) (t : Str) (h : d ≠ '"') :
    Rx.matchAt (.seq keyPrefix rest) (d :: t) = Option.none := by
  unfold Rx.matchAt
  rw [run_seq, run_keyPrefix_ne d t _ _ h]

theorem matchAt_quoted_ne (i : Nat) (d : Char) (t : Str) (h : d ≠ '"') :
    Rx.matchAt (quoted i) (d :: t) = Option.none := by
  unfold Rx.matchAt
  simp only [quoted, Rx.cat, run_seq]
  rw [run_chr_ne '"' d t _ _ h]

theorem matchAt_ref_ne (d : Char) (t : Str) (h : d ≠ '{') :
    Rx.matchAt ref_pattern (d :: t) = Option.none := by
  unfold Rx.matchAt
  simp only [ref_pattern, Rx.cat, run_seq]
  rw [run_chr_ne '{' d t _ _ h]

/-! ## The matches in an encoded text -/

theorem field_eq (key value rest : Str) :
    field key value rest = '"' :: (key ++ '"' :: ':' :: (value ++ rest)) := by
  simp [field]

theorem allMatches_field (r : Rx) (key value rest : Str) (caps : Caps)
    (h : Rx.matchAt r (field key value rest) = some (caps, rest)) :
    Rx.allMatches r (field key value rest) = caps :: Rx.allMatches r rest := by
  have e : field key value rest = field key value [] ++ rest := by simp [field]
  rw [e] at h ⊢
  exact allMatches_match r _ rest caps (by simp [field]) h

/-- `"key":"v"` is matched by the pattern of `Note::from_json` with the key in
group 1 and the text in group 2. -/
theorem note_match_string (key v rest : Str) (hne : key ≠ [])
    (hkey : ∀ c ∈ key, notQuote c = true) (hv : ∀ c ∈ v, notQuote c = true) :
    Rx.matchAt note_pattern (field key (quotes v) rest)
      = some ((Caps.none.set 1 key).set 2 v, rest) := by
  have e : field key (quotes v) rest = '"' :: (key ++ '"' :: ':' :: ('"' :: (v ++ '"' :: rest))) := by
    simp [field, quotes]
  rw [e]
  unfold Rx.matchAt note_pattern
  rw [run_seq]
  apply run_keyPrefix key _ _ _ _ hne hkey (by simp [isSpace])
  rw [run_alt, run_quoted 2 v rest _ _ _ hv rfl, orTry_some]

/-- The part `o.*?c` on a text that starts with `o` and whose first `c` comes
after a body without line terminator. -/
theorem run_bracketed {α : Type} (o c : Char) (body rest : Str) (caps : Caps)
    (k : Str → Caps → Option α) (x : α)
    (hb : ∀ ch ∈ body, anyChar ch = true ∧ ch ≠ c) (hk : k rest caps = some x) :
    Rx.run (Rx.cat [.chr o, .star anyChar false, .chr c]) (o :: (body ++ c :: rest)) caps k
      = some x := by
  simp only [Rx.cat, run_seq, run_chr_cons, run_star]
  apply starRun_lazy anyChar body (c :: rest) _ x (fun ch hch => (hb ch hch).1)
  · intro a b hab hbne
    cases b with
    | nil => exact absurd rfl hbne
    | cons d b1 =>
      have hd : d ≠ c := (hb d (by rw [hab]; simp)).2
      rw [List.cons_append, run_chr_ne c d _ _ _ hd]
  · beta_reduce
    rw [run_chr_cons]
    exact hk

theorem run_bracketed_ne {α : Type} (o c d : Char) (t : Str) (caps : Caps)
    (k : Str → Caps → Option α) (h : d ≠ o) :
    Rx.run (Rx.cat [.chr o, .star anyChar false, .chr c]) (d :: t) caps k = Option.none := by
  simp only [Rx.cat, run_seq]
  rw [run_chr_ne o d t _ _ h]

theorem run_quoted_ne {α : Type} (i : Nat) (d : Char) (t : Str) (caps : Caps)
    (k : Str → Caps → Option α) (h : d ≠ '"') :
    Rx.run (quoted i) (d :: t) caps k = Option.none := by
  simp only [quoted, Rx.cat, run_seq]
  rw [run_chr_ne '"' d t _ _ h]

theorem take_bracketed (o c : Char) (body rest : Str) :
    (o :: (body ++ c :: rest)).take ((o :: (body ++ c :: rest)).length - rest.length)
      = o :: body ++ [c] := by
  have ht := take_consumed (o :: body ++ [c]) rest
  simpa using ht

/-- `"key":[body]` is matched with the bracketed text in group 3, when the
body holds no `]` and no line terminator. -/
theorem note_match_array (key body rest : Str) (hne : key ≠ [])
    (hkey : ∀ c ∈ key, notQuote c = true)
    (hb : ∀ c ∈ body, anyChar c = true ∧ c ≠ ']') :
    Rx.matchAt note_pattern (field key ('[' :: body ++ [']']) rest)
      = some ((Caps.none.set 1 key).set 3 ('[' :: body ++ [']']), rest) := by
  have e : field key ('[' :: body ++ [']']) rest
      = '"' :: (key ++ '"' :: ':' :: ('[' :: (body ++ ']' :: rest))) := by
    simp [field]
  rw [e]
  unfold Rx.matchAt note_pattern
  rw [run_seq]
  apply run_keyPrefix key _ _ _ _ hne hkey (by simp [isSpace])
  rw [run_alt, run_quoted_ne 2 '[' _ _ _ (by decide), orTry_none, run_grp, run_alt,
    run_bracketed '[' ']' body rest _ _ _ hb (by rw [take_bracketed]), orTry_some]

/-- `"key":{body}` is matched with the braced text in group 3, when the body
holds no `}` and no line terminator. -/
theorem note_match_object (key body rest : Str) (hne : key ≠ [])
    (hkey : ∀ c ∈ key, notQuote c = true)
    (hb : ∀ c ∈ body, anyChar c = true ∧ c ≠ '}') :
    Rx.matchAt note_pattern (field key ('{' :: body ++ ['}']) rest)
      = some ((Caps.none.set 1 key).set 3 ('{' :: body ++ ['}']), rest) := by
  have e : field key ('{' :: body ++ ['}']) rest
      = '"' :: (key ++ '"' :: ':' :: ('{' :: (body ++ '}' :: rest))) := by
    simp [field]
  rw [e]
  unfold Rx.matchAt note_pattern
  rw [run_seq]
  apply run_keyPrefix key _ _ _ _ hne hkey (by simp [isSpace])
  rw [run_alt, run_quoted_ne 2 '{' _ _ _ (by decide), orTry_none, run_grp, run_alt,
    run_bracketed_ne '[' ']' '{' _ _ _ (by decide), orTry_none, run_alt,
    run_bracketed '{' '}' body rest _ _ _ hb (by rw [take_bracketed]), orTry_some]

/-- `"key":"v"` is matched by `output_pattern`. -/
theorem output_match (key v rest : Str) (hne : key ≠ [])
    (hkey : ∀ c ∈ key, notQuote c = true) (hv : ∀ c ∈ v, notQuote c = true) :
    Rx.matchAt output_pattern (field key (quotes v) rest)
      = some ((Caps.none.set 1 key).set 2 v, rest) := by
  have e : field key (quotes v) rest = '"' :: (key ++ '"' :: ':' :: ('"' :: (v ++ '"' :: rest))) := by
    simp [field, quotes]
  rw [e]
  unfold Rx.matchAt output_pattern
  rw [run_seq]
  apply run_keyPrefix key _ _ _ _ hne hkey (by simp [isSpace])
  exact run_quoted 2 v rest _ _ _ hv rfl

/-- A quoted text is matched by `tag_pattern`. -/
theorem tag_match (v rest : Str) (hv : ∀ c ∈ v, notQuote c = true) :
    Rx.matchAt tag_pattern (quotes v ++ rest) = some (Caps.none.set 1 v, rest) := by
  have e : quotes v ++ rest = '"' :: (v ++ '"' :: rest) := by simp [quotes]
  rw [e]
  unfold Rx.matchAt tag_pattern
  exact run_quoted 1 v rest _ _ _ hv rfl

/-- A braced non-empty text without `}` is matched by `ref_pattern`. -/
theorem ref_match (g rest : Str) (hne : g ≠ []) (hg : ∀ c ∈ g, notBrace c = true) :
    Rx.matchAt ref_pattern ('{' :: (g ++ '}' :: rest)) = some (Caps.none.set 1 g, rest) := by
  cases g with
  | nil => exact absurd rfl hne
  | cons c g1 =>
    have hc : notBrace c = true := hg c (List.mem_cons_self _ _)
    unfold Rx.matchAt ref_pattern
    simp only [Rx.cat, Rx.plus, run_seq, run_chr_cons, run_grp, run_star, List.cons_append,
      run_set_cons _ _ _ _ _ hc]
    apply starRun_greedy notBrace g1 ('}' :: rest) _ _
      (fun d hd => hg d (List.mem_cons_of_mem _ hd)) (by simp [notBrace])
    rw [run_chr_cons]
    have h := take_consumed (c :: g1) ('}' :: rest)
    simp only [List.cons_append] at h
    rw [h]

/-- `"key":"v"` is matched by the pattern of `BacklinkReference::from_json`. -/
theorem backlink_match_string (key v rest : Str) (hne : key ≠ [])
    (hkey : ∀ c ∈ key, notQuote c = true) (hv : ∀ c ∈ v, notQuote c = true) :
    Rx.matchAt backlink_pattern (field key (quotes v) rest)
      = some ((Caps.none.set 1 key).set 2 v, rest) := by
  have e : field key (quotes v) rest = '"' :: (key ++ '"' :: ':' :: ('"' :: (v ++ '"' :: rest))) := by
    simp [field, quotes]
  rw [e]
  unfold Rx.matchAt backlink_pattern
  rw [run_seq]
  apply run_keyPrefix key _ _ _ _ hne hkey (by simp [isSpace])
  rw [run_alt, run_quoted 2 v rest _ _ _ hv rfl, orTry_some]

theorem word_true : Rx.word "true".toList
    = .seq (.chr 't') (.seq (.chr 'r') (.seq (.chr 'u') (.chr 'e'))) := rfl

theorem word_false : Rx.word "false".toList
    = .seq (.chr 'f') (.seq (.chr 'a') (.seq (.chr 'l') (.seq (.chr 's') (.chr 'e')))) := rfl

/-- `"key":true` and `"key":false` are matched with the word in group 3. -/
theorem backlink_match_bool (key rest : Str) (b : Bool) (hne : key ≠ [])
    (hkey : ∀ c ∈ key, notQuote c = true) :
    Rx.matchAt backlink_pattern (field key (if b then "true" else "false").toList rest)
      = some ((Caps.none.set 1 key).set 3 (if b then "true" else "false").toList, rest) := by
  cases b with
  | true =>
    have e : field key (if true then "true" else "false").toList rest
        = '"' :: (key ++ '"' :: ':' :: ('t' :: 'r' :: 'u' :: 'e' :: rest)) := by
      simp [field]
    rw [e]
    unfold Rx.matchAt backlink_pattern
    rw [run_seq]
    apply run_keyPrefix key _ _ _ _ hne hkey (by simp [isSpace])
    rw [run_alt, run_quoted_ne 2 't' _ _ _ (by decide), orTry_none, run_grp, run_alt,
      word_true]
    simp only [run_seq, run_chr_cons, orTry_some]
    have h := take_consumed "true".toList rest
    simp only [String.toList, List.cons_append, List.nil_append] at h
    simp only [if_true, String.toList]
    rw [h]
  | false =>
    have e : field key (if false then "true" else "false").toList rest
        = '"' :: (key ++ '"' :: ':' :: ('f' :: 'a' :: 'l' :: 's' :: 'e' :: rest)) := by
      simp [field]
    rw [e]
    unfold Rx.matchAt backlink_pattern
    rw [run_seq]
    apply run_keyPrefix key _ _ _ _ hne hkey (by simp [isSpace])
    rw [run_alt, run_quoted_ne 2 'f' _ _ _ (by decide), orTry_none, run_grp, run_alt,
      word_true, run_seq, run_chr_ne 't' 'f' _ _ _ (by decide), orTry_none, run_alt,
      word_false]
    simp only [run_seq, run_chr_cons, orTry_some]
    have h := take_consumed "false".toList rest
    simp only [String.toList, List.cons_append, List.nil_append] at h
    simp only [Bool.false_eq_true, if_false, String.toList]
    rw [h]

theorem isDigit_ne (c q : Char) (hc : isDigit c = true) (hq : isDigit q = false) : c ≠ q := by
  intro h
  rw [h, hq] at hc
  exact absurd hc (by decide)

theorem isDigit_not_space (c : Char) (hc : isDigit c = true) : isSpace c = false := by
  cases h : isSpace c with
  | false => rfl
  | true =>
    simp only [isSpace, Bool.or_eq_true, decide_eq_true_eq] at h
    rcases h with ((((h | h) | h) | h) | h) | h <;>
      exact absurd h (isDigit_ne c _ hc (by decide))

/-- The part `\d+\.?\d*` on a numeral that is followed neither by a digit nor
by a point. -/
theorem run_number {α : Type} (num rest : Str) (caps : Caps) (k : Str → Caps → Option α)
    (x : α) (hnum : numeral num)
    (hrest : ∀ d ∈ rest.head?, isDigit d = false ∧ d ≠ '.') (hk : k rest caps = some x) :
    Rx.run (Rx.cat [Rx.plus isDigit, Rx.opt (.chr '.'), .star isDigit true]) (num ++ rest)
      caps k = some x := by
  obtain ⟨ds, fs, hne, hds, hfs, hshape⟩ := hnum
  cases ds with
  | nil => exact absurd rfl hne
  | cons d0 ds1 =>
    have hd0 : isDigit d0 = true := hds d0 (List.mem_cons_self _ _)
    have hds1 : ∀ c ∈ ds1, isDigit c = true := fun c hc => hds c (List.mem_cons_of_mem _ hc)
    have hend : Rx.starRun isDigit true rest (fun t => k t caps) = some x :=
      starRun_greedy isDigit [] rest _ x (by simp) (fun d hd => (hrest d hd).1) hk
    simp only [Rx.cat, Rx.plus, Rx.opt, run_seq]
    rcases hshape with rfl | rfl
    · rw [List.cons_append, run_set_cons _ _ _ _ _ hd0, run_star]
      apply starRun_greedy isDigit ds1 rest _ x hds1 (fun d hd => (hrest d hd).1)
      rw [run_alt]
      have hp : Rx.run (.chr '.') rest caps (fun t c => Rx.run (.star isDigit true) t c k)
          = Option.none := by
        cases rest with
        | nil => rfl
        | cons d t => exact run_chr_ne '.' d t _ _ (hrest d (by simp)).2
      rw [hp, orTry_none, run_eps, run_star]
      exact hend
    · simp only [List.cons_append, List.append_assoc]
      rw [run_set_cons _ _ _ _ _ hd0, run_star]
      apply starRun_greedy isDigit ds1 ('.' :: (fs ++ rest)) _ x hds1 (by simp [isDigit])
      rw [run_alt, run_chr_cons, run_star,
        starRun_greedy isDigit fs rest _ x hfs (fun d hd => (hrest d hd).1) hk, orTry_some]

/-- `"key":num` is matched with the numeral in group 3. -/
theorem backlink_match_number (key num rest : Str) (hne : key ≠ [])
    (hkey : ∀ c ∈ key, notQuote c = true) (hnum : numeral num)
    (hrest : ∀ d ∈ rest.head?, isDigit d = false ∧ d ≠ '.') :
    Rx.matchAt backlink_pattern (field key num rest)
      = some ((Caps.none.set 1 key).set 3 num, rest) := by
  have e : field key num rest = '"' :: (key ++ '"' :: ':' :: (num ++ rest)) := by
    simp [field]
  rw [e]
  obtain ⟨d0, n1, hd0, hnum0⟩ : ∃ d0 n1, isDigit d0 = true ∧ num = d0 :: n1 := by
    obtain ⟨ds, fs, hne1, hds, _, hshape⟩ := hnum
    cases ds with
    | nil => exact absurd rfl hne1
    | cons d0 ds1 =>
      rcases hshape with h | h
      · exact ⟨d0, ds1, hds d0 (List.mem_cons_self _ _), h⟩
      · exact ⟨d0, ds1 ++ '.' :: fs, hds d0 (List.mem_cons_self _ _), h⟩
  unfold Rx.matchAt backlink_pattern
  rw [run_seq]
  apply run_keyPrefix key _ _ _ _ hne hkey
    (by rw [hnum0]; simpa using isDigit_not_space d0 hd0)
  have hq : d0 ≠ '"' := isDigit_ne d0 _ hd0 (by decide)
  have ht : d0 ≠ 't' := isDigit_ne d0 _ hd0 (by decide)
  have hf : d0 ≠ 'f' := isDigit_ne d0 _ hd0 (by decide)
  rw [run_alt]
  have h1 : Rx.run (quoted 2) (num ++ rest) (Caps.none.set 1 key)
      (fun t c => some (c, t)) = Option.none := by
    rw [hnum0]; exact run_quoted_ne 2 d0 _ _ _ hq
  rw [h1, orTry_none, run_grp, run_alt, word_true]
  have h2 : ∀ (k : Str → Caps → Option (Caps × Str)),
      Rx.run (.seq (.chr 't') (.seq (.chr 'r') (.seq (.chr 'u') (.chr 'e')))) (num ++ rest)
        (Caps.none.set 1 key) k = Option.none := by
    intro k; rw [hnum0, run_seq]; exact run_chr_ne 't' d0 _ _ _ ht
  have h3 : ∀ (k : Str → Caps → Option (Caps × Str)),
      Rx.run (Rx.word "false".toList) (num ++ rest) (Caps.none.set 1 key) k = Option.none := by
    intro k; rw [hnum0, word_false, run_seq]; exact run_chr_ne 'f' d0 _ _ _ hf
  rw [h2, orTry_none, run_alt, h3, orTry_none]
  exact run_number num rest _ _ _ hnum hrest (by rw [take_consumed])

/-! ## The matches in a bracketed, comma-separated text -/

theorem allMatches_items {α : Type} (r : Rx) (c : Char) (f : α → Str) (g : α → Caps)
    (l : List α)
    (hf : ∀ x ∈ l, f x ≠ [] ∧ ∀ rest, Rx.matchAt r (f x ++ rest) = some (g x, rest))
    (hsep : ∀ t, Rx.matchAt r (',' :: t) = Option.none)
    (hc : ∀ t, Rx.matchAt r (c :: t) = Option.none) :
    Rx.allMatches r (l.flatMap (fun x => ',' :: f x) ++ [c]) = l.map g := by
  induction l with
  | nil =>
    simp only [List.flatMap_nil, List.nil_append, List.map_nil]
    rw [allMatches_fail r c [] (hc []), allMatches_nil]
  | cons a l ih =>
    obtain ⟨hne, hm⟩ := hf a (List.mem_cons_self _ _)
    simp only [List.flatMap_cons, List.cons_append, List.append_assoc, List.map_cons]
    rw [allMatches_fail r ',' _ (hsep _), allMatches_match r (f a) _ (g a) hne (hm _),
      ih (fun x hx => hf x (List.mem_cons_of_mem _ hx))]

/-- The matches in `o item,item,...,item c` are those of the items, in order,
when each item is matched whole and no match starts at `o`, `,` or `c`. -/
theorem allMatches_joined {α : Type} (r : Rx) (o c : Char) (f : α → Str) (g : α → Caps)
    (l : List α)
    (hf : ∀ x ∈ l, f x ≠ [] ∧ ∀ rest, Rx.matchAt r (f x ++ rest) = some (g x, rest))
    (ho : ∀ t, Rx.matchAt r (o :: t) = Option.none)
    (hsep : ∀ t, Rx.matchAt r (',' :: t) = Option.none)
    (hc : ∀ t, Rx.matchAt r (c :: t) = Option.none) :
    Rx.allMatches r ([o] ++ [','].intercalate (l.map f) ++ [c]) = l.map g := by
  cases l with
  | nil =>
    have e : [o] ++ [','].intercalate (([] : List α).map f) ++ [c] = [o, c] := by
      simp [List.intercalate]
    rw [e, allMatches_fail r o _ (ho _), allMatches_fail r c _ (hc _), allMatches_nil]
    rfl
  | cons a l =>
    obtain ⟨hne, hm⟩ := hf a (List.mem_cons_self _ _)
    rw [List.map_cons, intercalate_cons_eq, List.flatMap_map]
    simp only [List.singleton_append, List.cons_append, List.append_assoc, List.map_cons,
      List.nil_append]
    rw [allMatches_fail r o _ (ho _), allMatches_match r (f a) _ (g a) hne (hm _),
      allMatches_items r c f g l (fun x hx => hf x (List.mem_cons_of_mem _ hx)) hsep hc]

theorem foldlM_map_option {α β γ : Type} (f : β → γ → Option β) (g : α → γ) (l : List α)
    (b : β) : (l.map g).foldlM f b = l.foldlM (fun x a => f x (g a)) b := by
  induction l generalizing b with
  | nil => rfl
  | cons a l ih =>
    simp only [List.map_cons, List.foldlM_cons]
    cases f b (g a) with
    | none => rfl
    | some y => exact ih y

theorem foldlM_push {α β : Type} (f : α → Option β) (h : α → β) (l : List α)
    (hf : ∀ x ∈ l, f x = some (h x)) (acc : List β) :
    l.foldlM (fun v a => (f a).map (fun t => v ++ [t])) acc = some (acc ++ l.map h) := by
  induction l generalizing acc with
  | nil => simp
  | cons a l ih =>
    rw [List.foldlM_cons, hf a (List.mem_cons_self _ _)]
    simp only [Option.map_some', List.map_cons]
    have e := ih (fun x hx => hf x (List.mem_cons_of_mem _ hx)) (acc ++ [h a])
    simp only [List.append_assoc, List.singleton_append] at e
    exact e

/-- Decoding an encoded array of strings appends the strings, when none of
them holds a double quote. -/
theorem parse_strings_vector (acc vec : List Str)
    (hvec : ∀ s ∈ vec, ∀ c ∈ s, c ≠ '"') :
    parse_strings acc (vector_to_json vec) = some (acc ++ vec) := by
  unfold parse_strings
  rw [vector_to_json_eq]
  have hm : Rx.allMatches tag_pattern (json_array (vec.map quoted_text))
      = vec.map (fun s => Caps.none.set 1 (escape_json s)) := by
    unfold json_array
    apply allMatches_joined tag_pattern '[' ']' quoted_text
    · intro s hs
      refine ⟨by simp [quoted_text], fun rest => ?_⟩
      have hq : ∀ c ∈ escape_json s, notQuote c = true := by
        intro c hc
        have := escape_json_avoids '"' (by decide) s (hvec s hs) c hc
        simpa [notQuote] using this
      exact tag_match (escape_json s) rest hq
    · intro t; exact matchAt_quoted_ne 1 '[' t (by decide)
    · intro t; exact matchAt_quoted_ne 1 ',' t (by decide)
    · intro t; exact matchAt_quoted_ne 1 ']' t (by decide)
  rw [hm, foldlM_map_option]
  have := foldlM_push (fun s => unescape_json ((Caps.none.set 1 (escape_json s)).str 1))
    id vec (fun s _ => by simp [Caps.str, Caps.set, unescape_escape]) acc
  simpa using this

/-! ## The map of code outputs -/

theorem strLt_irrefl (a : Str) : strLt a a = false := by
  induction a with
  | nil => rfl
  | cons c a ih => simp [strLt, ih]

theorem strLt_asymm (a : Str) : ∀ b : Str, strLt a b = true → strLt b a = false := by
  induction a with
  | nil => intro b _; cases b <;> rfl
  | cons c a ih =>
    intro b h
    cases b with
    | nil => simp [strLt] at h
    | cons d b =>
      simp only [strLt, Bool.or_eq_true, decide_eq_true_eq, Bool.and_eq_true, beq_iff_eq] at h
      simp only [strLt, Bool.or_eq_false_iff, decide_eq_false_iff_not, Bool.and_eq_false_imp,
        beq_iff_eq]
      rcases h with h | ⟨h1, h2⟩
      · exact ⟨lt_asymm h, fun e => absurd h (by rw [e]; exact lt_irrefl _)⟩
      · exact ⟨by rw [h1]; exact lt_irrefl _, fun _ => ih b h2⟩

/-- Assigning a key greater than all the keys of the map appends the entry. -/
theorem assign_last (key value : Str) (m : StrMap)
    (h : ∀ kv ∈ m, strLt kv.1 key = true) : m.assign key value = m ++ [(key, value)] := by
  induction m with
  | nil => rfl
  | cons kv m ih =>
    obtain ⟨k, v⟩ := kv
    have hk : strLt k key = true := h (k, v) (List.mem_cons_self _ _)
    have h1 : strLt key k = false := strLt_asymm k key hk
    have h2 : key ≠ k := fun e => by rw [e, strLt_irrefl] at hk; cases hk
    simp only [StrMap.assign, h1, Bool.false_eq_true, if_false, h2, List.cons_append]
    rw [ih (fun x hx => h x (List.mem_cons_of_mem _ hx))]

theorem foldlM_assign (f : Str × Str → Str) (g : Str × Str → Option Str) (rest : StrMap) :
    ∀ acc : StrMap, (∀ kv ∈ rest, f kv = kv.1 ∧ g kv = some kv.2) →
    (acc ++ rest).Pairwise (fun a b => strLt a.1 b.1 = true) →
    rest.foldlM (fun mp kv => (g kv).map (fun v => mp.assign (f kv) v)) acc
      = some (acc ++ rest) := by
  induction rest with
  | nil => intro acc _ _; simp
  | cons kv rest ih =>
    intro acc hfg hp
    obtain ⟨hf, hg⟩ := hfg kv (List.mem_cons_self _ _)
    rw [List.foldlM_cons, hf, hg]
    simp only [Option.map_some']
    have hlast : acc.assign kv.1 kv.2 = acc ++ [kv] := by
      rw [assign_last]
      intro x hx
      exact (List.pairwise_append.mp hp).2.2 x hx kv (List.mem_cons_self _ _)
    rw [hlast]
    have e := ih (acc ++ [kv]) (fun x hx => hfg x (List.mem_cons_of_mem _ hx))
      (by simpa using hp)
    simpa using e

/-- Decoding an encoded map gives the map back, when its keys are in
ascending order, non-empty and written as they stand, and no key or value
holds a double quote. -/
theorem parse_outputs_map (m : StrMap)
    (hsorted : m.Pairwise (fun a b => strLt a.1 b.1 = true))
    (hkeys : ∀ kv ∈ m, kv.1 ≠ [] ∧ ∀ c ∈ kv.1, c ≠ '"' ∧ c ≠ '\\' ∧ 0x20 ≤ c.toNat)
    (hvals : ∀ kv ∈ m, ∀ c ∈ kv.2, c ≠ '"') :
    parse_outputs [] (map_to_json m) = some m := by
  unfold parse_outputs
  rw [map_to_json_eq]
  have hm : Rx.allMatches output_pattern
        (json_object (m.map (fun kv => (escape_json kv.1, quoted_text kv.2))))
      = m.map (fun kv => (Caps.none.set 1 kv.1).set 2 (escape_json kv.2)) := by
    unfold json_object
    rw [List.map_map]
    apply allMatches_joined output_pattern '{' '}'
    · intro kv hkv
      obtain ⟨hne, hk⟩ := hkeys kv hkv
      have hid : escape_json kv.1 = kv.1 := escape_json_id kv.1 hk
      refine ⟨by simp, fun rest => ?_⟩
      have hq : ∀ c ∈ escape_json kv.2, notQuote c = true := by
        intro c hc
        have := escape_json_avoids '"' (by decide) kv.2 (hvals kv hkv) c hc
        simpa [notQuote] using this
      have hkq : ∀ c ∈ kv.1, notQuote c = true := fun c hc => by
        simpa [notQuote] using (hk c hc).1
      have e : ((fun kv : Str × Str => ['"'] ++ kv.1 ++ ['"', ':'] ++ kv.2)
            ∘ fun kv : Str × Str => (escape_json kv.1, quoted_text kv.2)) kv ++ rest
          = field kv.1 (quotes (escape_json kv.2)) rest := by
        simp [field, quotes, quoted_text, hid]
      rw [e]
      exact output_match kv.1 (escape_json kv.2) rest hne hkq hq
    · intro t; exact matchAt_keyed_ne _ '{' t (by decide)
    · intro t; exact matchAt_keyed_ne _ ',' t (by decide)
    · intro t; exact matchAt_keyed_ne _ '}' t (by decide)
  rw [hm, foldlM_map_option]
  have := foldlM_assign
    (fun kv => ((Caps.none.set 1 kv.1).set 2 (escape_json kv.2)).str 1)
    (fun kv => unescape_json (((Caps.none.set 1 kv.1).set 2 (escape_json kv.2)).str 2))
    m [] (fun kv _ => by simp [Caps.str, Caps.set, unescape_escape]) (by simpa using hsorted)
  simpa using this

/-! ## Round trip of a reference -/

theorem backlink_to_json_fields (r : BacklinkReference io) :
    r.to_json = '{' :: field "noteId".toList (quoted_text r.noteId)
      (',' :: field "context".toList (quoted_text r.context)
      (',' :: field "timestamp".toList (quoted_text r.timestamp)
      (',' :: field "relevance".toList (io.fmt r.relevance)
      (',' :: field "accepted".toList (if r.accepted then "true" else "false").toList
      (',' :: field "rejected".toList (if r.rejected then "true" else "false").toList
        ['}']))))) := by
  simp [BacklinkReference.to_json, field, quoted_text]

theorem plain_text_quotes (s : Str) (h : plain_text s) :
    quoted_text s = quotes s ∧ ∀ c ∈ s, notQuote c = true := by
  refine ⟨by rw [quoted_text, escape_json_id s h]; rfl, fun c hc => ?_⟩
  simpa [notQuote] using (h c hc).1

theorem backlink_sep (d : Char) (t : Str) (h : d ≠ '"') :
    Rx.allMatches backlink_pattern (d :: t) = Rx.allMatches backlink_pattern t :=
  allMatches_fail _ d t (matchAt_keyed_ne _ d t h)

/-- The six matches in the encoding of a reference. -/
theorem backlink_matches (r : BacklinkReference io) (h : r.plain) :
    Rx.allMatches backlink_pattern r.to_json
      = [(Caps.none.set 1 "noteId".toList).set 2 r.noteId,
         (Caps.none.set 1 "context".toList).set 2 r.context,
         (Caps.none.set 1 "timestamp".toList).set 2 r.timestamp,
         (Caps.none.set 1 "relevance".toList).set 3 (io.fmt r.relevance),
         (Caps.none.set 1 "accepted".toList).set 3 (if r.accepted then "true" else "false").toList,
         (Caps.none.set 1 "rejected".toList).set 3
           (if r.rejected then "true" else "false").toList] := by
  obtain ⟨h1, h2, h3, h4, _⟩ := h
  obtain ⟨e1, q1⟩ := plain_text_quotes _ h1
  obtain ⟨e2, q2⟩ := plain_text_quotes _ h2
  obtain ⟨e3, q3⟩ := plain_text_quotes _ h3
  rw [backlink_to_json_fields, e1, e2, e3, backlink_sep '{' _ (by decide),
    allMatches_field _ _ _ _ _
      (backlink_match_string "noteId".toList r.noteId _ (by decide) (by decide) q1),
    backlink_sep ',' _ (by decide),
    allMatches_field _ _ _ _ _
      (backlink_match_string "context".toList r.context _ (by decide) (by decide) q2),
    backlink_sep ',' _ (by decide),
    allMatches_field _ _ _ _ _
      (backlink_match_string "timestamp".toList r.timestamp _ (by decide) (by decide) q3),
    backlink_sep ',' _ (by decide),
    allMatches_field _ _ _ _ _
      (backlink_match_number "relevance".toList (io.fmt r.relevance) _ (by decide)
        (by decide) h4 (by simp [isDigit])),
    backlink_sep ',' _ (by decide),
    allMatches_field _ _ _ _ _
      (backlink_match_bool "accepted".toList _ r.accepted (by decide) (by decide)),
    backlink_sep ',' _ (by decide),
    allMatches_field _ _ _ _ _
      (backlink_match_bool "rejected".toList _ r.rejected (by decide) (by decide)),
    backlink_sep '}' _ (by decide), allMatches_nil]

/-- A reference is read back from its encoding, whatever the indeterminate
members of the declared object hold. -/
theorem backlink_round_trip (uu : Indeterminate io) (r : BacklinkReference io)
    (h : r.plain) : BacklinkReference.from_json uu r.to_json = some r := by
  unfold BacklinkReference.from_json
  rw [backlink_matches r h]
  obtain ⟨_, _, _, _, h5⟩ := h
  obtain ⟨a1, a2, a3, a4, a5, a6⟩ := r
  simp only at h5
  cases a5 <;> cases a6 <;>
    simp [List.foldlM, BacklinkReference.from_json_step, Caps.str, Caps.set, Caps.value,
      Caps.none, BacklinkReference.declared, h5]

theorem backlink_to_json_body (r : BacklinkReference io) :
    r.to_json = '{' :: (r.body ++ ['}']) := by
  rw [backlink_to_json_fields]
  simp [BacklinkReference.body, field]

theorem mem_field (x : Char) (key value rest : Str) :
    x ∈ field key value rest ↔ x = '"' ∨ x ∈ key ∨ x = ':' ∨ x ∈ value ∨ x ∈ rest := by
  simp only [field, List.mem_append, List.mem_cons, List.mem_nil_iff, or_false]
  tauto

theorem mem_quoted_text_plain (x : Char) (s : Str) (h : plain_text s)
    (hx : x ∈ quoted_text s) : x = '"' ∨ x ∈ s := by
  rw [(plain_text_quotes s h).1] at hx
  simp only [quotes, List.mem_append, List.mem_cons, List.mem_nil_iff, or_false] at hx
  tauto

theorem bool_word_literals (b : Bool) :
    ∀ x ∈ (if b then "true" else "false").toList, x ∈ backlink_literals := by
  cases b <;> decide

/-- The characters of the encoding of a reference: literals of the format, or
characters of its three texts or of its printed relevance. -/
theorem backlink_body_chars (r : BacklinkReference io) (h : r.plain) (x : Char)
    (hx : x ∈ r.body) :
    x ∈ backlink_literals ∨ x ∈ r.noteId ∨ x ∈ r.context ∨ x ∈ r.timestamp
      ∨ x ∈ io.fmt r.relevance := by
  obtain ⟨h1, h2, h3, _, _⟩ := h
  have hq : '"' ∈ backlink_literals := by decide
  have hc : ':' ∈ backlink_literals := by decide
  have hm : ',' ∈ backlink_literals := by decide
  have hk : ∀ k ∈ ["noteId".toList, "context".toList, "timestamp".toList,
      "relevance".toList, "accepted".toList, "rejected".toList],
      ∀ y ∈ k, y ∈ backlink_literals := by decide
  unfold BacklinkReference.body at hx
  simp only [mem_field, List.mem_cons, List.mem_nil_iff, or_false] at hx
  rcases hx with rfl | hx | rfl | hx | rfl | rfl | hx | rfl | hx | rfl | rfl | hx | rfl | hx
    | rfl | rfl | hx | rfl | hx | rfl | rfl | hx | rfl | hx | rfl | rfl | hx | rfl | hx
  · exact Or.inl hq
  · exact Or.inl (hk _ (by simp) x hx)
  · exact Or.inl hc
  · rcases mem_quoted_text_plain x _ h1 hx with rfl | hx
    · exact Or.inl hq
    · exact Or.inr (Or.inl hx)
  · exact Or.inl hm
  · exact Or.inl hq
  · exact Or.inl (hk _ (by simp) x hx)
  · exact Or.inl hc
  · rcases mem_quoted_text_plain x _ h2 hx with rfl | hx
    · exact Or.inl hq
    · exact Or.inr (Or.inr (Or.inl hx))
  · exact Or.inl hm
  · exact Or.inl hq
  · exact Or.inl (hk _ (by simp) x hx)
  · exact Or.inl hc
  · rcases mem_quoted_text_plain x _ h3 hx with rfl | hx
    · exact Or.inl hq
    · exact Or.inr (Or.inr (Or.inr (Or.inl hx)))
  · exact Or.inl hm
  · exact Or.inl hq
  · exact Or.inl (hk _ (by simp) x hx)
  · exact Or.inl hc
  · exact Or.inr (Or.inr (Or.inr (Or.inr hx)))
  · exact Or.inl hm
  · exact Or.inl hq
  · exact Or.inl (hk _ (by simp) x hx)
  · exact Or.inl hc
  · exact Or.inl (bool_word_literals _ x hx)
  · exact Or.inl hm
  · exact Or.inl hq
  · exact Or.inl (hk _ (by simp) x hx)
  · exact Or.inl hc
  · exact Or.inl (bool_word_literals _ x hx)

theorem numeral_chars (num : Str) (h : numeral num) :
    ∀ x ∈ num, isDigit x = true ∨ x = '.' := by
  obtain ⟨ds, fs, _, hds, hfs, hshape⟩ := h
  intro x hx
  rcases hshape with rfl | rfl
  · exact Or.inl (hds x hx)
  · simp only [List.mem_append, List.mem_cons] at hx
    rcases hx with hx | rfl | hx
    · exact Or.inl (hds x hx)
    · exact Or.inr rfl
    · exact Or.inl (hfs x hx)

theorem isDigit_anyChar (x : Char) (h : isDigit x = true) : anyChar x = true := by
  have h1 := isDigit_ne x '\n' h (by decide)
  have h2 := isDigit_ne x '\r' h (by decide)
  simp [anyChar, h1, h2]

theorem plain_anyChar (s : Str) (h : plain_text s) : ∀ x ∈ s, anyChar x = true := by
  intro x hx
  obtain ⟨_, _, h3⟩ := h x hx
  have h1 : x ≠ '\n' := fun e => by rw [e] at h3; revert h3; decide
  have h2 : x ≠ '\r' := fun e => by rw [e] at h3; revert h3; decide
  simp [anyChar, h1, h2]

/-- The encoding of a reference holds no line terminator, and holds a
character `q` foreign to the format only if one of its three texts does. -/
theorem backlink_body_clean (r : BacklinkReference io) (h : r.plain) (q : Char)
    (hq : q ∉ backlink_literals) (hq2 : isDigit q = false) (hq3 : q ≠ '.')
    (hs : ∀ s ∈ [r.noteId, r.context, r.timestamp], ∀ c ∈ s, c ≠ q) :
    ∀ x ∈ r.body, anyChar x = true ∧ x ≠ q := by
  intro x hx
  have hlit : ∀ y ∈ backlink_literals, anyChar y = true := by decide
  rcases backlink_body_chars r h x hx with hx | hx | hx | hx | hx
  · exact ⟨hlit x hx, fun e => hq (e ▸ hx)⟩
  · exact ⟨plain_anyChar _ h.1 x hx, hs r.noteId (by simp) x hx⟩
  · exact ⟨plain_anyChar _ h.2.1 x hx, hs r.context (by simp) x hx⟩
  · exact ⟨plain_anyChar _ h.2.2.1 x hx, hs r.timestamp (by simp) x hx⟩
  · rcases numeral_chars _ h.2.2.2.1 x hx with hd | rfl
    · exact ⟨isDigit_anyChar x hd, isDigit_ne x q hd hq2⟩
    · exact ⟨by decide, fun e => hq3 e.symm⟩

theorem backlink_body_ne (r : BacklinkReference io) : r.body ≠ [] := by
  simp [BacklinkReference.body, field]

/-- Decoding an encoded array of references appends the references to
`backlinks` or to `suggested_links`, when each is read back from its own
encoding and none of its texts holds a `}`. -/
theorem parse_refs_array (u : Nat → Indeterminate io) (key : Str) (bs : List (BacklinkReference io))
    (hbs : ∀ r ∈ bs, r.plain ∧ ∀ s ∈ [r.noteId, r.context, r.timestamp], ∀ c ∈ s, c ≠ '}') :
    ∀ note : Note io, parse_refs u key note (backlinks_to_json bs)
      = some (if key = "backlinks".toList then { note with backlinks := note.backlinks ++ bs }
              else { note with suggested_links := note.suggested_links ++ bs }) := by
  have hm : Rx.allMatches ref_pattern (backlinks_to_json bs)
      = bs.map (fun r => Caps.none.set 1 r.body) := by
    rw [backlinks_to_json_eq]
    unfold json_array
    apply allMatches_joined ref_pattern '[' ']' BacklinkReference.to_json
    · intro r hr
      obtain ⟨hp, hfree⟩ := hbs r hr
      refine ⟨by rw [backlink_to_json_body]; simp, fun rest => ?_⟩
      have e : r.to_json ++ rest = '{' :: (r.body ++ '}' :: rest) := by
        rw [backlink_to_json_body]; simp
      rw [e]
      apply ref_match r.body rest (backlink_body_ne r)
      intro c hc
      have := (backlink_body_clean r hp '}' (by decide) (by decide) (by decide) hfree c hc).2
      simpa [notBrace] using this
    · intro t; exact matchAt_ref_ne '[' t (by decide)
    · intro t; exact matchAt_ref_ne ',' t (by decide)
    · intro t; exact matchAt_ref_ne ']' t (by decide)
  intro note
  unfold parse_refs
  rw [hm, foldlM_map_option]
  clear hm
  induction bs generalizing note with
  | nil => split_ifs <;> simp
  | cons r bs ih =>
    have hr := (hbs r (List.mem_cons_self _ _)).1
    have hj : (['{'] ++ (Caps.none.set 1 r.body).str 1 ++ ['}']) = r.to_json := by
      rw [backlink_to_json_body]; simp [Caps.str, Caps.set]
    rw [List.foldlM_cons, hj, backlink_round_trip _ r hr]
    simp only [Option.map_some', Option.bind_eq_bind, Option.some_bind]
    rw [ih (fun x hx => hbs x (List.mem_cons_of_mem _ hx))]
    split_ifs <;> simp

/-! ## The values of an encoded note hold no closing bracket of their own -/

theorem mem_intercalate (x : Char) (l : List Str) (hx : x ∈ [','].intercalate l) :
    x = ',' ∨ ∃ s ∈ l, x ∈ s := by
  cases l with
  | nil => simp [List.intercalate] at hx
  | cons a l =>
    rw [intercalate_cons_eq, List.mem_append, List.mem_flatMap] at hx
    rcases hx with hx | ⟨s, hs, hx⟩
    · exact Or.inr ⟨a, List.mem_cons_self _ _, hx⟩
    · rcases List.mem_cons.mp hx with rfl | hx
      · exact Or.inl rfl
      · exact Or.inr ⟨s, List.mem_cons_of_mem _ hs, hx⟩

theorem quoted_text_clean (q : Char) (hq : q ∉ "\\bfnrtu0123456789abcdef".toList)
    (hq2 : q ≠ '"') (s : Str) (hs : ∀ c ∈ s, c ≠ q) :
    ∀ x ∈ quoted_text s, anyChar x = true ∧ x ≠ q := by
  intro x hx
  simp only [quoted_text, List.mem_append, List.mem_cons, List.mem_nil_iff, or_false] at hx
  rcases hx with (rfl | hx) | rfl
  · exact ⟨by decide, fun e => hq2 e.symm⟩
  · exact ⟨escape_json_anyChar s x hx, escape_json_avoids q hq s hs x hx⟩
  · exact ⟨by decide, fun e => hq2 e.symm⟩

theorem vector_body_clean (vec : List Str) (hvec : ∀ s ∈ vec, ∀ c ∈ s, c ≠ ']') :
    ∀ x ∈ [','].intercalate (vec.map quoted_text), anyChar x = true ∧ x ≠ ']' := by
  intro x hx
  rcases mem_intercalate x _ hx with rfl | ⟨t, ht, hxt⟩
  · exact ⟨by decide, by decide⟩
  · obtain ⟨s, hs, rfl⟩ := List.mem_map.mp ht
    exact quoted_text_clean ']' (by decide) (by decide) s (hvec s hs) x hxt

theorem map_body_clean (m : StrMap)
    (hm : ∀ kv ∈ m, (∀ c ∈ kv.1, c ≠ '}') ∧ ∀ c ∈ kv.2, c ≠ '}') :
    ∀ x ∈ [','].intercalate ((m.map (fun kv => (escape_json kv.1, quoted_text kv.2))).map
        (fun kv => ['"'] ++ kv.1 ++ ['"', ':'] ++ kv.2)),
      anyChar x = true ∧ x ≠ '}' := by
  intro x hx
  rcases mem_intercalate x _ hx with rfl | ⟨t, ht, hxt⟩
  · exact ⟨by decide, by decide⟩
  · rw [List.map_map] at ht
    obtain ⟨kv, hkv, rfl⟩ := List.mem_map.mp ht
    obtain ⟨h1, h2⟩ := hm kv hkv
    simp only [Function.comp, List.mem_append, List.mem_cons, List.mem_nil_iff, or_false]
      at hxt
    rcases hxt with ((rfl | hxt) | rfl | rfl) | hxt
    · exact ⟨by decide, by decide⟩
    · exact ⟨escape_json_anyChar _ x hxt, escape_json_avoids '}' (by decide) _ h1 x hxt⟩
    · exact ⟨by decide, by decide⟩
    · exact ⟨by decide, by decide⟩
    · exact quoted_text_clean '}' (by decide) (by decide) _ h2 x hxt

theorem backlinks_body_clean (bs : List (BacklinkReference io))
    (hbs : ∀ r ∈ bs, r.plain ∧ ∀ s ∈ [r.noteId, r.context, r.timestamp], ∀ c ∈ s, c ≠ ']') :
    ∀ x ∈ [','].intercalate (bs.map BacklinkReference.to_json),
      anyChar x = true ∧ x ≠ ']' := by
  intro x hx
  rcases mem_intercalate x _ hx with rfl | ⟨t, ht, hxt⟩
  · exact ⟨by decide, by decide⟩
  · obtain ⟨r, hr, rfl⟩ := List.mem_map.mp ht
    obtain ⟨hp, hfree⟩ := hbs r hr
    rw [backlink_to_json_body] at hxt
    simp only [List.mem_append, List.mem_cons, List.mem_nil_iff, or_false] at hxt
    rcases hxt with rfl | hxt | rfl
    · exact ⟨by decide, by decide⟩
    · exact backlink_body_clean r hp ']' (by decide) (by decide) (by decide) hfree x hxt
    · exact ⟨by decide, by decide⟩

/-! ## Round trip of a note -/

theorem note_to_json_fields (n : Note io) :
    n.to_json = '{' :: field "id".toList (quoted_text n.id)
      (',' :: field "content".toList (quoted_text n.content)
      (',' :: field "created_at".toList (quoted_text n.created_at)
      (',' :: field "last_modified".toList (quoted_text n.last_modified)
      (',' :: field "tags".toList (vector_to_json n.tags)
      (',' :: field "code_outputs".toList (map_to_json n.code_outputs)
      (',' :: field "backlinks".toList (backlinks_to_json n.backlinks)
      (',' :: field "references".toList (vector_to_json n.references)
      (',' :: field "suggested_links".toList (backlinks_to_json n.suggested_links)
        ['}'])))))))) := by
  simp [Note.to_json, field, quoted_text]

theorem note_sep (d : Char) (t : Str) (h : d ≠ '"') :
    Rx.allMatches note_pattern (d :: t) = Rx.allMatches note_pattern t :=
  allMatches_fail _ d t (matchAt_keyed_ne _ d t h)

theorem note_scalar (key s rest : Str) (hne : key ≠ [])
    (hkey : ∀ c ∈ key, notQuote c = true) (hs : ∀ c ∈ s, c ≠ '"') :
    Rx.allMatches note_pattern (field key (quoted_text s) rest)
      = (Caps.none.set 1 key).set 2 (escape_json s) :: Rx.allMatches note_pattern rest := by
  apply allMatches_field
  have hq : ∀ c ∈ escape_json s, notQuote c = true := fun c hc => by
    simpa [notQuote] using escape_json_avoids '"' (by decide) s hs c hc
  exact note_match_string key (escape_json s) rest hne hkey hq

theorem note_vector (key : Str) (vec : List Str) (rest : Str) (hne : key ≠ [])
    (hkey : ∀ c ∈ key, notQuote c = true) (hvec : ∀ s ∈ vec, ∀ c ∈ s, c ≠ ']') :
    Rx.allMatches note_pattern (field key (vector_to_json vec) rest)
      = (Caps.none.set 1 key).set 3 (vector_to_json vec)
          :: Rx.allMatches note_pattern rest := by
  apply allMatches_field
  have e : vector_to_json vec = '[' :: [','].intercalate (vec.map quoted_text) ++ [']'] := by
    rw [vector_to_json_eq]; simp [json_array]
  rw [e]
  exact note_match_array key _ rest hne hkey (vector_body_clean vec hvec)

theorem note_map (key : Str) (m : StrMap) (rest : Str) (hne : key ≠ [])
    (hkey : ∀ c ∈ key, notQuote c = true)
    (hm : ∀ kv ∈ m, (∀ c ∈ kv.1, c ≠ '}') ∧ ∀ c ∈ kv.2, c ≠ '}') :
    Rx.allMatches note_pattern (field key (map_to_json m) rest)
      = (Caps.none.set 1 key).set 3 (map_to_json m) :: Rx.allMatches note_pattern rest := by
  apply allMatches_field
  have e : map_to_json m = '{' :: [','].intercalate
      ((m.map (fun kv => (escape_json kv.1, quoted_text kv.2))).map
        (fun kv => ['"'] ++ kv.1 ++ ['"', ':'] ++ kv.2)) ++ ['}'] := by
    rw [map_to_json_eq]; simp [json_object]
  rw [e]
  exact note_match_object key _ rest hne hkey (map_body_clean m hm)

theorem note_links (key : Str) (bs : List (BacklinkReference io)) (rest : Str)
    (hne : key ≠ []) (hkey : ∀ c ∈ key, notQuote c = true)
    (hbs : ∀ r ∈ bs, r.plain ∧ ∀ s ∈ [r.noteId, r.context, r.timestamp], ∀ c ∈ s, c ≠ ']') :
    Rx.allMatches note_pattern (field key (backlinks_to_json bs) rest)
      = (Caps.none.set 1 key).set 3 (backlinks_to_json bs)
          :: Rx.allMatches note_pattern rest := by
  apply allMatches_field
  have e : backlinks_to_json bs
      = '[' :: [','].intercalate (bs.map BacklinkReference.to_json) ++ [']'] := by
    rw [backlinks_to_json_eq]; simp [json_array]
  rw [e]
  exact note_match_array key _ rest hne hkey (backlinks_body_clean bs hbs)

/-- The nine matches in the encoding of a note. -/
theorem note_matches (n : Note io) (h : n.plain) :
    Rx.allMatches note_pattern n.to_json
      = [(Caps.none.set 1 "id".toList).set 2 (escape_json n.id),
         (Caps.none.set 1 "content".toList).set 2 (escape_json n.content),
         (Caps.none.set 1 "created_at".toList).set 2 (escape_json n.created_at),
         (Caps.none.set 1 "last_modified".toList).set 2 (escape_json n.last_modified),
         (Caps.none.set 1 "tags".toList).set 3 (vector_to_json n.tags),
         (Caps.none.set 1 "code_outputs".toList).set 3 (map_to_json n.code_outputs),
         (Caps.none.set 1 "backlinks".toList).set 3 (backlinks_to_json n.backlinks),
         (Caps.none.set 1 "references".toList).set 3 (vector_to_json n.references),
         (Caps.none.set 1 "suggested_links".toList).set 3
           (backlinks_to_json n.suggested_links)] := by
  obtain ⟨h1, h2, h3, h4, h5, h6, _, h8, h9⟩ := h
  rw [note_to_json_fields, note_sep '{' _ (by decide),
    note_scalar _ n.id _ (by decide) (by decide) h1, note_sep ',' _ (by decide),
    note_scalar _ n.content _ (by decide) (by decide) h2, note_sep ',' _ (by decide),
    note_scalar _ n.created_at _ (by decide) (by decide) h3, note_sep ',' _ (by decide),
    note_scalar _ n.last_modified _ (by decide) (by decide) h4, note_sep ',' _ (by decide),
    note_vector _ n.tags _ (by decide) (by decide) (fun s hs c hc => (h5 s hs c hc).2),
    note_sep ',' _ (by decide),
    note_map _ n.code_outputs _ (by decide) (by decide)
      (fun kv hkv => ⟨(h8 kv hkv).2.2.1, fun c hc => ((h8 kv hkv).2.2.2 c hc).2⟩),
    note_sep ',' _ (by decide),
    note_links _ n.backlinks _ (by decide) (by decide)
      (fun r hr => ⟨(h9 r (List.mem_append_left _ hr)).1,
        fun s hs c hc => ((h9 r (List.mem_append_left _ hr)).2 s hs c hc).1⟩),
    note_sep ',' _ (by decide),
    note_vector _ n.references _ (by decide) (by decide) (fun s hs c hc => (h6 s hs c hc).2),
    note_sep ',' _ (by decide),
    note_links _ n.suggested_links _ (by decide) (by decide)
      (fun r hr => ⟨(h9 r (List.mem_append_right _ hr)).1,
        fun s hs c hc => ((h9 r (List.mem_append_right _ hr)).2 s hs c hc).1⟩),
    note_sep '}' _ (by decide), allMatches_nil]

theorem firstChar_vector (vec : List Str) : firstChar (vector_to_json vec) = '[' := by
  rw [vector_to_json_eq]; rfl

theorem firstChar_map (m : StrMap) : firstChar (map_to_json m) = '{' := by
  rw [map_to_json_eq]; rfl

theorem firstChar_links (bs : List (BacklinkReference io)) :
    firstChar (backlinks_to_json bs) = '[' := by
  rw [backlinks_to_json_eq]; rfl

theorem step_scalar (u : Nat → Indeterminate io) (note : Note io) (key s : Str) :
    Note.from_json_step u note ((Caps.none.set 1 key).set 2 (escape_json s))
      = if key = "id".toList then some { note with id := s }
        else if key = "content".toList then some { note with content := s }
        else if key = "created_at".toList then some { note with created_at := s }
        else if key = "last_modified".toList then some { note with last_modified := s }
        else Note.from_json_step u note ((Caps.none.set 1 key).set 2 (escape_json s)) := by
  split_ifs with h1 h2 h3 h4
  · simp [Note.from_json_step, Caps.str, Caps.set, Caps.none, unescape_escape, h1]
  · simp [Note.from_json_step, Caps.str, Caps.set, Caps.none, unescape_escape, h2]
  · simp [Note.from_json_step, Caps.str, Caps.set, Caps.none, unescape_escape, h3]
  · simp [Note.from_json_step, Caps.str, Caps.set, Caps.none, unescape_escape, h4]
  · rfl

theorem step_tags (u : Nat → Indeterminate io) (note : Note io) (vec : List Str)
    (hvec : ∀ s ∈ vec, ∀ c ∈ s, c ≠ '"') :
    Note.from_json_step u note ((Caps.none.set 1 "tags".toList).set 3 (vector_to_json vec))
      = some { note with tags := note.tags ++ vec } := by
  simp [Note.from_json_step, Caps.str, Caps.set, Caps.none, firstChar_vector,
    parse_strings_vector _ vec hvec]

theorem step_references (u : Nat → Indeterminate io) (note : Note io) (vec : List Str)
    (hvec : ∀ s ∈ vec, ∀ c ∈ s, c ≠ '"') :
    Note.from_json_step u note
        ((Caps.none.set 1 "references".toList).set 3 (vector_to_json vec))
      = some { note with references := note.references ++ vec } := by
  simp [Note.from_json_step, Caps.str, Caps.set, Caps.none, firstChar_vector,
    parse_strings_vector _ vec hvec]

theorem step_outputs (u : Nat → Indeterminate io) (note : Note io) (m : StrMap)
    (hnil : note.code_outputs = [])
    (hsorted : m.Pairwise (fun a b => strLt a.1 b.1 = true))
    (hkeys : ∀ kv ∈ m, kv.1 ≠ [] ∧ ∀ c ∈ kv.1, c ≠ '"' ∧ c ≠ '\\' ∧ 0x20 ≤ c.toNat)
    (hvals : ∀ kv ∈ m, ∀ c ∈ kv.2, c ≠ '"') :
    Note.from_json_step u note
        ((Caps.none.set 1 "code_outputs".toList).set 3 (map_to_json m))
      = some { note with code_outputs := m } := by
  simp [Note.from_json_step, Caps.str, Caps.set, Caps.none, firstChar_map, hnil,
    parse_outputs_map m hsorted hkeys hvals]

theorem step_backlinks (u : Nat → Indeterminate io) (note : Note io)
    (bs : List (BacklinkReference io))
    (hbs : ∀ r ∈ bs, r.plain ∧ ∀ s ∈ [r.noteId, r.context, r.timestamp], ∀ c ∈ s, c ≠ '}') :
    Note.from_json_step u note
        ((Caps.none.set 1 "backlinks".toList).set 3 (backlinks_to_json bs))
      = some { note with backlinks := note.backlinks ++ bs } := by
  simp [Note.from_json_step, Caps.str, Caps.set, Caps.none, firstChar_links,
    parse_refs_array u _ bs hbs]

theorem step_suggested (u : Nat → Indeterminate io) (note : Note io)
    (bs : List (BacklinkReference io))
    (hbs : ∀ r ∈ bs, r.plain ∧ ∀ s ∈ [r.noteId, r.context, r.timestamp], ∀ c ∈ s, c ≠ '}') :
    Note.from_json_step u note
        ((Caps.none.set 1 "suggested_links".toList).set 3 (backlinks_to_json bs))
      = some { note with suggested_links := note.suggested_links ++ bs } := by
  simp [Note.from_json_step, Caps.str, Caps.set, Caps.none, firstChar_links,
    parse_refs_array u _ bs hbs]

/-- A note that is `plain` is read back from its encoding. -/
theorem plain_round_trip (u : Nat → Indeterminate io) (n : Note io) (h : n.plain) :
    Note.from_json u n.to_json = some n := by
  unfold Note.from_json
  rw [note_matches n h]
  obtain ⟨_, _, _, _, h5, h6, h7, h8, h9⟩ := h
  have hb : ∀ r ∈ n.backlinks,
      r.plain ∧ ∀ s ∈ [r.noteId, r.context, r.timestamp], ∀ c ∈ s, c ≠ '}' :=
    fun r hr => ⟨(h9 r (List.mem_append_left _ hr)).1,
      fun s hs c hc => ((h9 r (List.mem_append_left _ hr)).2 s hs c hc).2⟩
  have hs : ∀ r ∈ n.suggested_links,
      r.plain ∧ ∀ s ∈ [r.noteId, r.context, r.timestamp], ∀ c ∈ s, c ≠ '}' :=
    fun r hr => ⟨(h9 r (List.mem_append_right _ hr)).1,
      fun s hs c hc => ((h9 r (List.mem_append_right _ hr)).2 s hs c hc).2⟩
  have e1 := fun note => step_scalar u note "id".toList n.id
  have e2 := fun note => step_scalar u note "content".toList n.content
  have e3 := fun note => step_scalar u note "created_at".toList n.created_at
  have e4 := fun note => step_scalar u note "last_modified".toList n.last_modified
  simp only [if_true, (by decide : "content".toList ≠ "id".toList),
    (by decide : "created_at".toList ≠ "id".toList),
    (by decide : "created_at".toList ≠ "content".toList),
    (by decide : "last_modified".toList ≠ "id".toList),
    (by decide : "last_modified".toList ≠ "content".toList),
    (by decide : "last_modified".toList ≠ "created_at".toList), if_false] at e1 e2 e3 e4
  simp only [List.foldlM_cons, List.foldlM_nil, e1, e2, e3, e4, Option.bind_eq_bind,
    Option.some_bind, pure]
  rw [step_tags u _ n.tags (fun s hs c hc => (h5 s hs c hc).1)]
  simp only [Option.some_bind]
  rw [step_outputs u _ n.code_outputs rfl h7
    (fun kv hkv => ⟨(h8 kv hkv).1, (h8 kv hkv).2.1⟩)
    (fun kv hkv c hc => ((h8 kv hkv).2.2.2 c hc).1)]
  simp only [Option.some_bind]
  rw [step_backlinks u _ n.backlinks hb]
  simp only [Option.some_bind]
  rw [step_references u _ n.references (fun s hs c hc => (h6 s hs c hc).1)]
  simp only [Option.some_bind]
  rw [step_suggested u _ n.suggested_links hs]
  cases n
  simp [Note.empty]

/-- The round trip on plain notes: `Note::from_json(n.to_json())` equals `n`
field for field for every note `n` in which no text holds a double quote, no tag,
reference or text of a link holds a `]`, no key or value of `code_outputs` and
no text of a link holds a `}`, the keys of `code_outputs` are non-empty and
free of backslashes and control characters, the texts of the links are free
of backslashes and control characters, and the relevance of every link is
printed as a numeral that `std::stod` reads back.  Empty collections,
backslashes, control characters and `#` in the other texts are read back. -/
theorem note_round_trip_restricted (u : Nat → Indeterminate io) (n : Note io) (h : n.plain) :
    Note.from_json u n.to_json = some n :=
  plain_round_trip u n h

theorem linked_note_plain : linked_note.plain := by
  refine ⟨by decide, by decide, by decide, by decide, by decide, by decide, by decide, ?_, ?_⟩
  · intro kv hkv
    simp only [linked_note, List.mem_singleton] at hkv
    subst hkv
    exact ⟨by decide, by unfold plain_text; decide, by decide, by decide⟩
  · intro r hr
    simp only [linked_note, sample_note, Note.empty, List.append_nil,
      List.mem_singleton] at hr
    subst hr
    refine ⟨⟨by unfold plain_text; decide, by unfold plain_text; decide,
      by unfold plain_text; decide, ⟨['5'], [], by decide, by decide, by decide, Or.inl rfl⟩,
      rfl⟩, by decide⟩

theorem note_round_trip_restricted_witness :
    linked_note.plain ∧ Note.from_json zeros linked_note.to_json = some linked_note :=
  ⟨linked_note_plain, note_round_trip_restricted zeros linked_note linked_note_plain⟩

/-- C1: the round trip fails.  The note whose content is `say "hi"` is not
read back from its encoding (the decoded content is `say \`, cut at the
escaped quote). -/
theorem round_trip_fails_on_quote :
    Note.from_json zeros quote_note.to_json ≠ some quote_note
    ∧ (Note.from_json zeros quote_note.to_json).map Note.content = some "say \\".toList := by
  decide

/-! ## Settled behaviour of the escaping, the routing and the pagination -/

/-- C15: `Note::unescape_json(Note::escape_json(s))` equals `s` for every
string `s`, and so `unescape_json` does not fail on an output of
`escape_json`; for example for a NUL character, a quote, a trailing backslash
and the literal text backslash-u-0041. -/
theorem unescape_json_escape_json (s : Str) :
    unescape_json (escape_json s) = some s
    ∧ unescape_json (escape_json ['\x00', '"', '\\']) = some ['\x00', '"', '\\']
    ∧ escape_json "\\u0041".toList = "\\\\u0041".toList
    ∧ unescape_json "\\\\u0041".toList = some "\\u0041".toList := by
  refine ⟨?_, by decide, by decide, by decide⟩
  induction s with
  | nil => rfl
  | cons c s ih => rw [escape_json_cons, unescape_escape_step, ih]; rfl

theorem handle_client_notes_get (rest : Str) :
    handle_client "GET".toList ("/api/notes/".toList ++ rest) = .handle_get_note rest := by
  have hp : starts_with_notes ("/api/notes/".toList ++ rest) = true := by
    simp [starts_with_notes]
  have h1 : "/api/notes/".toList ++ rest ≠ "/api/auth/me".toList := by
    simp [String.toList]
  have h2 : "/api/notes/".toList ++ rest ≠ "/api/auth/login".toList := by
    simp [String.toList]
  have h3 : "/api/notes/".toList ++ rest ≠ "/api/notes".toList := by
    intro h
    have := congrArg List.length h
    simp [String.toList] at this
  have hm : "GET".toList ≠ "OPTIONS".toList := by decide
  unfold handle_client
  rw [if_neg hm, if_neg h1, if_neg h2, if_neg (fun h => h3 h.1), if_neg (fun h => h3 h.1),
    if_pos ⟨hp, rfl⟩]
  simp [String.toList]

/-- C18: `Server::handle_client` sends every GET request whose path begins
with `/api/notes/` to `handle_get_note`, with the rest of the path after the
11 characters of the prefix as note id; `/api/notes/search` goes there with
the id `search`; and no method and path are sent to `handle_search_notes`. -/
theorem handle_client_never_searches :
    (∀ rest : Str,
        handle_client "GET".toList ("/api/notes/".toList ++ rest) = .handle_get_note rest)
    ∧ "/api/notes/".toList.length = 11
    ∧ handle_client "GET".toList "/api/notes/search".toList
        = .handle_get_note "search".toList
    ∧ ∀ method path : Str, handle_client method path ≠ .handle_search_notes := by
  refine ⟨handle_client_notes_get, rfl, by decide, ?_⟩
  intro method path h
  unfold handle_client at h
  split_ifs at h with h1 h2 h3 h4 h5 h6 h7 h8 h9
  apply h6
  refine ⟨?_, h9.2⟩
  rw [h9.1]
  decide

theorem to_int_id (x : Int) (h1 : -(2 ^ 31) ≤ x) (h2 : x < 2 ^ 31) : to_int x = x := by
  unfold to_int
  rw [Int.emod_eq_of_lt (by omega) (by omega)]
  omega

theorem to_size_id (x : Int) (h1 : 0 ≤ x) (h2 : x < 2 ^ 64) : to_size x = x.toNat := by
  unfold to_size
  rw [Int.emod_eq_of_lt h1 h2]

/-- The loop reads the `count` notes from position `i` on, when they are
there. -/
theorem page_loop_eq {α : Type} (notes : List α) (count : Nat) :
    ∀ i : Nat, i + count ≤ notes.length → (notes.length : Int) < 2 ^ 31 →
      page_loop notes count (i : Int) = some ((notes.drop i).take count) := by
  induction count with
  | zero => intro i _ _; simp [page_loop]
  | succ count ih =>
    intro i hi hn
    have hlt : i < notes.length := by omega
    have hread : read_at notes (i : Int) = some notes[i] := by
      unfold read_at
      rw [if_pos (by omega)]
      simp [hlt]
    have hnext : to_int ((i : Int) + 1) = ((i + 1 : Nat) : Int) := by
      rw [to_int_id _ (by omega) (by omega)]
      push_cast; rfl
    rw [page_loop, hread]
    simp only
    rw [hnext, ih (i + 1) (by omega) hn]
    simp only [Option.map_some', Option.some.injEq]
    rw [List.drop_eq_getElem_cons hlt, List.take_succ_cons]

/-- The loop of the handler on the window from `start` to
`min(start + size, n)`. -/
theorem page_loop_window {α : Type} (notes : List α) (start size stop : Nat)
    (h1 : start + size = stop) (hn : (notes.length : Int) < 2 ^ 31) :
    page_loop notes ((min (stop : Int) (notes.length : Int)) - (start : Int)).toNat
      (start : Int) = some ((notes.drop start).take size) := by
  obtain ⟨count, hcount⟩ : ∃ count : Nat,
      count = ((min (stop : Int) (notes.length : Int)) - (start : Int)).toNat := ⟨_, rfl⟩
  rw [← hcount]
  by_cases hlt : start ≤ notes.length
  · have hc : start + count ≤ notes.length := by omega
    rw [page_loop_eq notes count start hc hn]
    congr 1
    by_cases hfull : stop ≤ notes.length
    · have : count = size := by omega
      rw [this]
    · have hcn : count = notes.length - start := by omega
      rw [hcn, List.take_of_length_le (by simp), List.take_of_length_le (by simp; omega)]
  · have hc : count = 0 := by omega
    rw [hc, page_loop, List.drop_of_length_le (by omega)]
    simp

/-- The quotient `(n + s - 1) / s` is the least number of pages of `s` notes
that hold `n` notes. -/
theorem ceil_div_spec (n s : Nat) (hs : 1 ≤ s) :
    n ≤ (n + s - 1) / s * s ∧ (n + s - 1) / s * s < n + s := by
  have h1 := Nat.div_add_mod (n + s - 1) s
  have h2 := Nat.mod_lt (n + s - 1) (by omega : s > 0)
  have h3 := Nat.mul_comm ((n + s - 1) / s) s
  constructor <;> omega

/-- C17: for a page number and a page size of at least 1 (their product and
the number of notes within the range of `int`), the handler answers with the
notes at positions `(page - 1) * page_size` up to, not including,
`min(page * page_size, n)` of the owner's `n` notes, so at most `page_size`
of them and none when the start is at or past the end; `total` is `n`,
`currentPage` is the requested page and `totalPages` is the ceiling of
`n / page_size`. -/
theorem paginate_spec {α : Type} (notes : List α) (page page_size : Int)
    (hp : 1 ≤ page) (hs : 1 ≤ page_size) (hr : page * page_size < 2 ^ 31)
    (hn : (notes.length : Int) < 2 ^ 31) :
    ∃ r, paginate notes page page_size = some r
      ∧ r.notes = (notes.drop ((page - 1) * page_size).toNat).take page_size.toNat
      ∧ r.notes.length ≤ page_size.toNat
      ∧ ((notes.length : Int) ≤ (page - 1) * page_size → r.notes = [])
      ∧ r.total = notes.length ∧ r.currentPage = page
      ∧ notes.length ≤ r.totalPages * page_size.toNat
      ∧ r.totalPages * page_size.toNat < notes.length + page_size.toNat := by
  have hps0 : 0 ≤ (page - 1) * page_size := mul_nonneg (by omega) (by omega)
  have hsum : (page - 1) * page_size + page_size = page * page_size := by ring
  have hpage : page ≤ page * page_size := le_mul_of_one_le_right (by omega) hs
  obtain ⟨start, hstart⟩ : ∃ start : Nat, (page - 1) * page_size = (start : Int) :=
    ⟨_, (Int.toNat_of_nonneg hps0).symm⟩
  obtain ⟨size, hsize⟩ : ∃ size : Nat, page_size = (size : Int) :=
    ⟨_, (Int.toNat_of_nonneg (by omega)).symm⟩
  rw [hstart] at hsum
  clear hps0
  generalize page * page_size = stop at hr hsum hpage
  have e1 : to_int (page - 1) = page - 1 := to_int_id _ (by omega) (by omega)
  subst hsize
  have e2 : to_int (start : Int) = (start : Int) := to_int_id _ (by omega) (by omega)
  have e3 : to_int ((start : Int) + (size : Int)) = ((start + size : Nat) : Int) := by
    rw [to_int_id _ (by omega) (by omega)]; push_cast; rfl
  have e4 : to_int (notes.length : Int) = (notes.length : Int) :=
    to_int_id _ (by omega) hn
  have e5 : to_size (size : Int) = size := by
    rw [to_size_id _ (by omega) (by omega)]; simp
  have e6 : to_size (notes.length : Int) = notes.length := by
    rw [to_size_id _ (by omega) (by omega)]; simp
  have e7 : to_size ((notes.length + size : Nat) : Int) = notes.length + size := by
    rw [to_size_id _ (by omega) (by omega)]; omega
  have e8 : to_size (((notes.length + size : Nat) : Int) - 1)
      = notes.length + size - 1 := by
    rw [to_size_id _ (by omega) (by omega)]; omega
  have hsz : size ≠ 0 := by omega
  have hloop := page_loop_window notes start size (start + size) rfl hn
  have hceil := ceil_div_spec notes.length size (by omega)
  refine ⟨{ notes := (notes.drop start).take size, total := notes.length,
            currentPage := page, totalPages := (notes.length + size - 1) / size }, ?_, ?_, ?_,
    ?_, rfl, rfl, ?_, ?_⟩
  · unfold paginate
    simp only [e1, hstart, e2, e3, e4, e5, e6]
    rw [if_neg hsz]
    have e9 : to_size ((notes.length : Int) + (size : Int)) = notes.length + size := by
      rw [← e7]; push_cast; rfl
    rw [hloop, e9, e8]
    rfl
  · simp [hstart]
  · simp only [Int.toNat_ofNat]
    exact (List.length_take_le _ _)
  · intro h
    have : notes.length ≤ start := by omega
    simp [List.drop_of_length_le this]
  · simpa using hceil.1
  · simpa using hceil.2

theorem paginate_spec_witness :
    ∃ r, paginate [10, 20, 30, 40, 50] 2 2 = some r
      ∧ r.notes = (([10, 20, 30, 40, 50] : List Nat).drop ((2 - 1) * 2 : Int).toNat).take
          (2 : Int).toNat
      ∧ r.notes.length ≤ (2 : Int).toNat
      ∧ ((([10, 20, 30, 40, 50] : List Nat).length : Int) ≤ (2 - 1) * 2 → r.notes = [])
      ∧ r.total = ([10, 20, 30, 40, 50] : List Nat).length ∧ r.currentPage = 2
      ∧ ([10, 20, 30, 40, 50] : List Nat).length ≤ r.totalPages * (2 : Int).toNat
      ∧ r.totalPages * (2 : Int).toNat
          < ([10, 20, 30, 40, 50] : List Nat).length + (2 : Int).toNat :=
  paginate_spec [10, 20, 30, 40, 50] 2 2 (by decide) (by decide) (by decide) (by decide)

/-- The third page of five notes by twos holds the last note alone. -/
theorem paginate_last_page :
    paginate [10, 20, 30, 40, 50] 3 2
      = some { notes := [50], total := 5, currentPage := 3, totalPages := 3 } := by
  rfl

theorem put_time_ne_nil (t : LocalTime) : put_time t ≠ [] := by
  unfold put_time
  simp

/-- C14, counterexample: for the text `{"created_at":"2020"}` the field
`updated_at` is empty after parsing, and the returned notebook keeps the
supplied `created_at` instead of the stamp. -/
theorem notebook_keeps_supplied_field :
    (Notebook.parsed "\x7b\"created_at\":\"2020\"\x7d".toList).updated_at = []
      ∧ Notebook.from_json ⟨2026, 3, 7, 9, 5, 0⟩ "\x7b\"created_at\":\"2020\"\x7d".toList
          = { id := [], name := [], created_at := "2020".toList,
              updated_at := "2026-03-07 09:05:00".toList }
      ∧ (Notebook.from_json ⟨2026, 3, 7, 9, 5, 0⟩
            "\x7b\"created_at\":\"2020\"\x7d".toList).created_at
          ≠ put_time ⟨2026, 3, 7, 9, 5, 0⟩ := by
  decide

/-- C14, amended: for every input text and every current local time `t`, each
of `created_at` and `updated_at` is stamped on its own: the returned field is
`t` formatted as `%Y-%m-%d %H:%M:%S` when the field is empty after parsing, and
is the parsed value when it is not; `id` and `name` are as parsed, and neither
time field of the returned notebook is empty. -/
theorem notebook_from_json_stamps (now : LocalTime) (json_str : Str) :
    (Notebook.from_json now json_str).id = (Notebook.parsed json_str).id
      ∧ (Notebook.from_json now json_str).name = (Notebook.parsed json_str).name
      ∧ (Notebook.from_json now json_str).created_at
          = (if (Notebook.parsed json_str).created_at = [] then put_time now
             else (Notebook.parsed json_str).created_at)
      ∧ (Notebook.from_json now json_str).updated_at
          = (if (Notebook.parsed json_str).updated_at = [] then put_time now
             else (Notebook.parsed json_str).updated_at)
      ∧ (Notebook.from_json now json_str).created_at ≠ []
      ∧ (Notebook.from_json now json_str).updated_at ≠ [] := by
  have hne := put_time_ne_nil now
  unfold Notebook.from_json
  generalize Notebook.parsed json_str = n
  obtain ⟨i, nm, c, u⟩ := n
  cases c <;> cases u <;> simp [hne]

theorem toDigitsCore_digits (fuel : Nat) : ∀ (n : Nat) (ds : List Char),
    (∀ c ∈ ds, isDigit c = true) → ∀ c ∈ Nat.toDigitsCore 10 fuel n ds, isDigit c = true := by
  induction fuel with
  | zero => intro n ds h; simpa [Nat.toDigitsCore] using h
  | succ fuel ih =>
    intro n ds h
    have hd : isDigit (Nat.digitChar (n % 10)) = true := by
      have : ∀ d, d < 10 → isDigit (Nat.digitChar d) = true := by decide
      exact this _ (Nat.mod_lt _ (by decide))
    have hds : ∀ c ∈ Nat.digitChar (n % 10) :: ds, isDigit c = true := by
      intro c hc
      rcases List.mem_cons.1 hc with rfl | hc
      · exact hd
      · exact h c hc
    rw [Nat.toDigitsCore]
    split_ifs
    · exact hds
    · exact ih _ _ hds

theorem toDigitsCore_ne_nil (fuel : Nat) : ∀ (n : Nat) (ds : List Char),
    ds ≠ [] → Nat.toDigitsCore 10 fuel n ds ≠ [] := by
  induction fuel with
  | zero => intro n ds h; simpa [Nat.toDigitsCore] using h
  | succ fuel ih =>
    intro n ds h
    rw [Nat.toDigitsCore]
    split_ifs
    · simp
    · exact ih _ _ (by simp)

/-- The decimal digits of a number are a numeral. -/
theorem numeral_toDigits (k : Nat) : numeral (Nat.toDigits 10 k) := by
  refine ⟨Nat.toDigits 10 k, [], ?_, ?_, by simp, Or.inl rfl⟩
  · unfold Nat.toDigits
    rw [Nat.toDigitsCore]
    split_ifs
    · simp
    · exact toDigitsCore_ne_nil _ _ _ (by simp)
  · exact toDigitsCore_digits _ _ _ (by simp)

theorem whole_relevance_plain (r : BacklinkReference io) (h : whole_relevance r)
    (h1 : plain_text r.noteId) (h2 : plain_text r.context) (h3 : plain_text r.timestamp) :
    r.plain := by
  obtain ⟨k, _, hfmt, hstod⟩ := h
  refine ⟨h1, h2, h3, ?_, ?_⟩
  · rw [hfmt]; exact numeral_toDigits k
  · rw [hfmt]; exact hstod

/-- C13: the round trip of a reference fails.  A reference whose `noteId`
holds a double quote, and one whose `context` holds a newline, are not read
back from their encodings: the context `line`, newline, `break` comes back as
the eleven characters of `line`, backslash, `n`, `break`. -/
theorem backlink_round_trip_fails :
    BacklinkReference.from_json (zeros 0) quote_ref.to_json ≠ some quote_ref
      ∧ BacklinkReference.from_json (zeros 0) newline_ref.to_json ≠ some newline_ref
      ∧ (BacklinkReference.from_json (zeros 0) newline_ref.to_json).map
          BacklinkReference.context = some "line\\nbreak".toList := by
  decide

/-- The round trip of a reference whose texts need no escape: for every
reference `r` whose `noteId`, `context` and `timestamp` hold no double quote, no backslash and no character below 0x20,
with arbitrary `accepted` and `rejected` flags and a relevance that is a whole
number between 0 and 999999 (printed as its decimal digits, which `std::stod`
reads back), `BacklinkReference::from_json(r.to_json())` equals `r` field for
field, whatever the uninitialised members of the declared object hold. -/
theorem backlink_round_trip_restricted (u : Indeterminate io) (r : BacklinkReference io)
    (h1 : plain_text r.noteId) (h2 : plain_text r.context) (h3 : plain_text r.timestamp)
    (hrel : whole_relevance r) :
    BacklinkReference.from_json u r.to_json = some r :=
  backlink_round_trip u r (whole_relevance_plain r hrel h1 h2 h3)

theorem backlink_round_trip_restricted_witness :
    plain_text sample_ref.noteId ∧ plain_text sample_ref.context
      ∧ plain_text sample_ref.timestamp ∧ whole_relevance sample_ref
      ∧ BacklinkReference.from_json (zeros 0) sample_ref.to_json = some sample_ref :=
  have h1 : plain_text sample_ref.noteId := by unfold plain_text; decide
  have h2 : plain_text sample_ref.context := by unfold plain_text; decide
  have h3 : plain_text sample_ref.timestamp := by unfold plain_text; decide
  have h4 : whole_relevance sample_ref := ⟨42, by decide, by decide, by decide⟩
  ⟨h1, h2, h3, h4, backlink_round_trip_restricted (zeros 0) sample_ref h1 h2 h3 h4⟩

/-- A restricted note is `plain`. -/
theorem restricted_plain (n : Note io) (h : n.restricted) : n.plain := by
  obtain ⟨ht, hk, hl, hw, hm⟩ := h
  have hmem : ∀ s, s ∈ n.texts → ∀ c ∈ s, c ≠ '"' ∧ c ≠ ']' ∧ c ≠ '}' := ht
  have hlink : ∀ r ∈ n.backlinks ++ n.suggested_links, ∀ s ∈ r.texts, s ∈ n.texts := by
    intro r hr s hs
    unfold Note.texts
    exact List.mem_append_right _ (List.mem_flatMap.2 ⟨r, hr, hs⟩)
  refine ⟨?_, ?_, ?_, ?_, ?_, ?_, hm, ?_, ?_⟩
  · exact fun c hc => (hmem n.id (by simp [Note.texts]) c hc).1
  · exact fun c hc => (hmem n.content (by simp [Note.texts]) c hc).1
  · exact fun c hc => (hmem n.created_at (by simp [Note.texts]) c hc).1
  · exact fun c hc => (hmem n.last_modified (by simp [Note.texts]) c hc).1
  · intro s hs c hc
    have := hmem s (by simp [Note.texts, hs]) c hc
    exact ⟨this.1, this.2.1⟩
  · intro s hs c hc
    have := hmem s (by simp [Note.texts, hs]) c hc
    exact ⟨this.1, this.2.1⟩
  · intro kv hkv
    have h1 : kv.1 ∈ n.texts := by
      simp only [Note.texts, List.mem_append, List.mem_map]
      exact Or.inl (Or.inl (Or.inr ⟨kv, hkv, rfl⟩))
    have h2 : kv.2 ∈ n.texts := by
      simp only [Note.texts, List.mem_append, List.mem_map]
      exact Or.inl (Or.inr ⟨kv, hkv, rfl⟩)
    refine ⟨(hk kv hkv).1, ?_, ?_, ?_⟩
    · exact fun c hc => ⟨(hmem _ h1 c hc).1, ((hk kv hkv).2 c hc).1, ((hk kv hkv).2 c hc).2⟩
    · exact fun c hc => (hmem _ h1 c hc).2.2
    · exact fun c hc => ⟨(hmem _ h2 c hc).1, (hmem _ h2 c hc).2.2⟩
  · intro r hr
    have hp : ∀ s ∈ r.texts, plain_text s := fun s hs c hc =>
      ⟨(hmem s (hlink r hr s hs) c hc).1, (hl r hr s hs c hc).1, (hl r hr s hs c hc).2⟩
    refine ⟨whole_relevance_plain r (hw r hr) (hp _ (by simp [BacklinkReference.texts]))
      (hp _ (by simp [BacklinkReference.texts])) (hp _ (by simp [BacklinkReference.texts])), ?_⟩
    intro s hs c hc
    have := hmem s (hlink r hr s hs) c hc
    exact ⟨this.2.1, this.2.2⟩

/-- C16: restricted round trip.  For every note `n` in which no text (scalar
fields, tags, references, keys and values of `code_outputs`, `noteId`,
`context` and `timestamp` of the backlinks and suggested links) holds a double
quote, `]` or `}`, every key of `code_outputs` is non-empty and free of
backslashes and characters below 0x20, every text of a link is free of
backslashes and characters below 0x20, and every relevance is a whole number
between 0 and 999999, `Note::from_json(n.to_json())` equals `n`, whatever the
uninitialised members of the declared references hold.  Scalar fields, tags,
references and values of `code_outputs` may hold backslashes, control
characters and `#`. -/
theorem restricted_round_trip (u : Nat → Indeterminate io) (n : Note io)
    (h : n.restricted) : Note.from_json u n.to_json = some n :=
  plain_round_trip u n (restricted_plain n h)

theorem rich_note_restricted : rich_note.restricted := by
  refine ⟨by decide, by decide, by decide, ?_, by decide⟩
  intro r hr
  simp only [rich_note, List.cons_append, List.nil_append, List.mem_cons,
    List.mem_singleton, List.not_mem_nil, or_false] at hr
  rcases hr with rfl | rfl
  · exact ⟨5, by decide, by decide, by decide⟩
  · exact ⟨999999, by decide, by decide, by decide⟩

theorem restricted_round_trip_witness :
    rich_note.restricted ∧ Note.from_json zeros rich_note.to_json = some rich_note :=
  ⟨rich_note_restricted, restricted_round_trip zeros rich_note rich_note_restricted⟩

/-- The example of the claim: the note with content `hello #world` and tags
`a`, `b` is read back from its encoding. -/
theorem sample_note_round_trip :
    Note.from_json zeros sample_note.to_json = some sample_note := by
  decide

theorem escape_step_no_nul (c x : Char) (hx : x ∈ escape_step c) : x ≠ '\x00' := by
  by_cases hc : c = '\x00'
  · subst hc
    revert x
    decide
  · rcases escape_step_chars c x hx with ⟨rfl, _, _⟩ | h | ⟨rfl, _⟩
    · exact hc
    · intro e
      subst e
      revert h
      decide
    · decide

theorem quoted_text_no_nul (s : Str) : ∀ x ∈ quoted_text s, x ≠ '\x00' := by
  intro x hx
  simp only [quoted_text, List.mem_append, List.mem_cons, List.mem_nil_iff, or_false] at hx
  rcases hx with (rfl | hx) | rfl
  · decide
  · obtain ⟨c, _, hc⟩ := escape_json_mem s x hx
    exact escape_step_no_nul c x hc
  · decide

theorem json_array_no_nul (items : List Str) (h : ∀ s ∈ items, ∀ x ∈ s, x ≠ '\x00') :
    ∀ x ∈ json_array items, x ≠ '\x00' := by
  intro x hx
  simp only [json_array, List.mem_append, List.mem_cons, List.mem_nil_iff, or_false] at hx
  rcases hx with (rfl | hx) | rfl
  · decide
  · rcases mem_intercalate x _ hx with rfl | ⟨s, hs, hxs⟩
    · decide
    · exact h s hs x hxs
  · decide

theorem vector_to_json_no_nul (vec : List Str) : ∀ x ∈ vector_to_json vec, x ≠ '\x00' := by
  rw [vector_to_json_eq]
  apply json_array_no_nul
  intro s hs
  obtain ⟨t, _, rfl⟩ := List.mem_map.mp hs
  exact quoted_text_no_nul t

theorem map_to_json_no_nul (m : StrMap) : ∀ x ∈ map_to_json m, x ≠ '\x00' := by
  rw [map_to_json_eq]
  intro x hx
  simp only [json_object, List.mem_append, List.mem_cons, List.mem_nil_iff, or_false] at hx
  rcases hx with (rfl | hx) | rfl
  · decide
  · rcases mem_intercalate x _ hx with rfl | ⟨s, hs, hxs⟩
    · decide
    · rw [List.map_map] at hs
      obtain ⟨kv, _, rfl⟩ := List.mem_map.mp hs
      simp only [Function.comp, List.mem_append, List.mem_cons, List.mem_nil_iff,
        or_false] at hxs
      rcases hxs with ((rfl | hxs) | rfl | rfl) | hxs
      · decide
      · obtain ⟨c, _, hc⟩ := escape_json_mem kv.1 x hxs
        exact escape_step_no_nul c x hc
      · decide
      · decide
      · exact quoted_text_no_nul kv.2 x hxs
  · decide

theorem field_no_nul (key value rest : Str) (hk : ∀ y ∈ key, y ≠ '\x00')
    (hv : ∀ y ∈ value, y ≠ '\x00') (hr : ∀ y ∈ rest, y ≠ '\x00') :
    ∀ x ∈ field key value rest, x ≠ '\x00' := by
  intro x hx
  rcases (mem_field x key value rest).1 hx with rfl | hx | rfl | hx | hx
  · decide
  · exact hk x hx
  · decide
  · exact hv x hx
  · exact hr x hx

theorem cons_no_nul (c : Char) (hc : c ≠ '\x00') (t : Str) (ht : ∀ y ∈ t, y ≠ '\x00') :
    ∀ x ∈ c :: t, x ≠ '\x00' := by
  intro x hx
  rcases List.mem_cons.1 hx with rfl | hx
  · exact hc
  · exact ht x hx

theorem backlink_to_json_no_nul (r : BacklinkReference io)
    (h : ∀ c ∈ io.fmt r.relevance, c ≠ '\x00') : ∀ x ∈ r.to_json, x ≠ '\x00' := by
  rw [backlink_to_json_body]
  have hb : ∀ b : Bool, ∀ y ∈ (if b then "true" else "false").toList, y ≠ '\x00' := by
    intro b; cases b <;> decide
  have hbody : ∀ x ∈ r.body, x ≠ '\x00' :=
    field_no_nul _ _ _ (by decide) (quoted_text_no_nul _) (cons_no_nul _ (by decide) _
    (field_no_nul _ _ _ (by decide) (quoted_text_no_nul _) (cons_no_nul _ (by decide) _
    (field_no_nul _ _ _ (by decide) (quoted_text_no_nul _) (cons_no_nul _ (by decide) _
    (field_no_nul _ _ _ (by decide) h (cons_no_nul _ (by decide) _
    (field_no_nul _ _ _ (by decide) (hb _) (cons_no_nul _ (by decide) _
    (field_no_nul _ _ _ (by decide) (hb _) (by simp)))))))))))
  intro x hx
  simp only [List.mem_cons, List.mem_append, List.mem_nil_iff, or_false] at hx
  rcases hx with rfl | hx | rfl
  · decide
  · exact hbody x hx
  · decide

theorem backlinks_to_json_no_nul (bs : List (BacklinkReference io))
    (h : ∀ r ∈ bs, ∀ c ∈ io.fmt r.relevance, c ≠ '\x00') :
    ∀ x ∈ backlinks_to_json bs, x ≠ '\x00' := by
  rw [backlinks_to_json_eq]
  apply json_array_no_nul
  intro s hs
  obtain ⟨r, hr, rfl⟩ := List.mem_map.mp hs
  exact backlink_to_json_no_nul r (h r hr)

/-- The encoding of a note holds no NUL character when no printed relevance
does: `escape_json` writes a NUL as an escape. -/
theorem to_json_no_nul (n : Note io)
    (h : ∀ r ∈ n.backlinks ++ n.suggested_links, ∀ c ∈ io.fmt r.relevance, c ≠ '\x00') :
    ∀ x ∈ n.to_json, x ≠ '\x00' := by
  rw [note_to_json_fields]
  exact cons_no_nul _ (by decide) _
    (field_no_nul _ _ _ (by decide) (quoted_text_no_nul _) (cons_no_nul _ (by decide) _
    (field_no_nul _ _ _ (by decide) (quoted_text_no_nul _) (cons_no_nul _ (by decide) _
    (field_no_nul _ _ _ (by decide) (quoted_text_no_nul _) (cons_no_nul _ (by decide) _
    (field_no_nul _ _ _ (by decide) (quoted_text_no_nul _) (cons_no_nul _ (by decide) _
    (field_no_nul _ _ _ (by decide) (vector_to_json_no_nul _) (cons_no_nul _ (by decide) _
    (field_no_nul _ _ _ (by decide) (map_to_json_no_nul _) (cons_no_nul _ (by decide) _
    (field_no_nul _ _ _ (by decide)
      (backlinks_to_json_no_nul _ (fun r hr => h r (List.mem_append_left _ hr)))
      (cons_no_nul _ (by decide) _
    (field_no_nul _ _ _ (by decide) (vector_to_json_no_nul _) (cons_no_nul _ (by decide) _
    (field_no_nul _ _ _ (by decide)
      (backlinks_to_json_no_nul _ (fun r hr => h r (List.mem_append_right _ hr)))
      (by decide))))))))))))))))))

/-! ## The order of the rows of `get_all_notes` -/

theorem plain_to_json_no_nul (n : Note io) (h : n.plain) : ∀ x ∈ n.to_json, x ≠ '\x00' := by
  apply to_json_no_nul
  intro r hr c hc
  have hnum := (h.2.2.2.2.2.2.2.2 r hr).1.2.2.2.1
  rcases numeral_chars _ hnum c hc with hd | rfl
  · intro e
    subst e
    revert hd
    decide
  · decide

theorem descendingBy_map {α : Type} (key : α → Str) :
    ∀ l : List α, descendingBy key l ↔ descendingBy id (l.map key)
  | [] => by simp [descendingBy]
  | [_] => by simp [descendingBy]
  | a :: b :: rest => by
    have ih := descendingBy_map key (b :: rest)
    simp only [List.map_cons] at ih
    simp only [List.map_cons, descendingBy, id, ih]

theorem insertDesc_descending (r : Row) (l : List Row)
    (h : descendingBy Row.last_modified l) :
    descendingBy Row.last_modified (insertDesc r l) := by
  induction l with
  | nil => simp [insertDesc, descendingBy]
  | cons x xs ih =>
    unfold insertDesc
    split
    · rename_i hlt
      cases xs with
      | nil =>
        simp only [insertDesc, descendingBy, and_true]
        exact strLt_asymm _ _ hlt
      | cons z zs =>
        have ih := ih h.2
        unfold insertDesc at ih ⊢
        split
        · rename_i hz
          rw [if_pos hz] at ih
          exact ⟨h.1, ih⟩
        · rename_i hz
          rw [if_neg hz] at ih
          exact ⟨strLt_asymm _ _ hlt, ih⟩
    · rename_i hlt
      exact ⟨by simpa using hlt, h⟩

theorem orderByLastModifiedDesc_descending (rows : List Row) :
    descendingBy Row.last_modified (orderByLastModifiedDesc rows) := by
  induction rows with
  | nil => simp [orderByLastModifiedDesc, descendingBy]
  | cons r rows ih => exact insertDesc_descending r _ ih

theorem mapM_decoded (u : Nat → Indeterminate io) (rows : List Row)
    (h : ∀ row ∈ rows, ∃ n : Note io, n.dated ∧ row.tags = n.to_json
      ∧ row.last_modified = n.last_modified) :
    ∃ notes : List (Note io), rows.mapM (note_from_statement u) = Except.ok notes
      ∧ notes.map Note.last_modified = rows.map Row.last_modified := by
  induction rows with
  | nil => exact ⟨[], rfl, rfl⟩
  | cons row rows ih =>
    obtain ⟨notes, hnotes, hmap⟩ := ih (fun r hr => h r (List.mem_cons_of_mem _ hr))
    obtain ⟨n, hn, htags, hlm⟩ := h row (List.mem_cons_self _ _)
    refine ⟨n :: notes, ?_, ?_⟩
    · rw [List.mapM_cons, hnotes, note_from_statement_eq, htags, plain_round_trip u n hn.1]
      rfl
    · simp [hmap, hlm]

/-! ## The storage engine on the statements SQLite accepts and refuses -/

theorem prepare_refused (db : Db) (sql : Statement) (h : sql.well_formed = false) :
    sqlite3_prepare_v2 db sql = Option.none := by
  simp [sqlite3_prepare_v2, h]

theorem prepare_accepted (db : Db) (sql : Statement) (h : sql.well_formed = true) :
    sqlite3_prepare_v2 db sql = db := by
  simp [sqlite3_prepare_v2, h]

theorem get_note_rows (u : Nat → Indeterminate io) (rows : Store) (id user_id : Str) :
    get_note u (some rows) id user_id
      = match rows.find? (fun r => r.id = cstr id ∧ r.user_id = cstr user_id) with
        | Option.none => Except.error DbError.note_not_found
        | some row => note_from_statement u row := rfl

/-- C6: `Database::update_note` does not fail with the error "Note not found"
when no row matches: on every database, with or without the table `notes` and
whatever rows it holds, the call throws "Failed to prepare statement" (the
text of the UPDATE is not well formed) and leaves the database unchanged. -/
theorem update_note_never_prepares (db : Db) (note : Note io) (user_id : Str) :
    update_note db note user_id = (db, Except.error DbError.failed_to_prepare)
      ∧ (update_note db note user_id).2 ≠ Except.error DbError.note_not_found := by
  have h : update_note db note user_id = (db, Except.error DbError.failed_to_prepare) := rfl
  rw [h]
  exact ⟨rfl, by simp⟩

/-- C7: `Database::delete_note` never fails with the error "Note not found".
On a database without the table `notes` it throws "Failed to prepare
statement"; on a database with the table it completes normally, whether a row
matched or not, and when no row has the id and user id given the rows are
left as they were. -/
theorem delete_note_never_not_found :
    (∀ (db : Db) (id user_id : Str),
        (delete_note db id user_id).2 ≠ Except.error DbError.note_not_found)
    ∧ (∀ id user_id : Str,
        delete_note Option.none id user_id
          = (Option.none, Except.error DbError.failed_to_prepare))
    ∧ (∀ (rows : Store) (id user_id : Str),
        (delete_note (some rows) id user_id).2 = Except.ok ())
    ∧ (∀ (rows : Store) (id user_id : Str),
        (∀ r ∈ rows, ¬ (r.id = cstr id ∧ r.user_id = cstr user_id)) →
        delete_note (some rows) id user_id = (some rows, Except.ok ()))
    ∧ delete_note sample_store "n1".toList "U1".toList = (sample_store, Except.ok ()) := by
  refine ⟨?_, fun _ _ => rfl, fun _ _ _ => rfl, ?_, by decide⟩
  · intro db id user_id
    cases db with
    | none => simp [delete_note, sqlite3_prepare_v2]
    | some rows => simp [delete_note, sqlite3_prepare_v2, Statement.well_formed]
  · intro rows id user_id h
    have e : delete_note (some rows) id user_id
        = (some (rows.filter
            (fun r => !(decide (r.id = cstr id ∧ r.user_id = cstr user_id)))),
           Except.ok ()) := rfl
    rw [e, List.filter_eq_self.2]
    intro r hr
    have := h r hr
    simp only [Bool.not_eq_true', decide_eq_false_iff_not]
    exact this

/-- C8: on a database without the table `notes`, which holds no row at all,
`Database::get_note` does not fail with "Note not found": it throws "Failed to
prepare statement".  On a database with the table it fails with "Note not
found" exactly when no row has the id and the user id given (as they are
bound, that is up to their first NUL character), and when there is such a
row the outcome is the note decoded from the stored document of such a row, or
the exception of the decoder. -/
theorem get_note_spec (u : Nat → Indeterminate io) (id user_id : Str) :
    get_note u Option.none id user_id = Except.error DbError.failed_to_prepare
    ∧ ∀ rows : Store,
      (get_note u (some rows) id user_id = Except.error DbError.note_not_found
          ↔ ∀ r ∈ rows, ¬ (r.id = cstr id ∧ r.user_id = cstr user_id))
      ∧ ((∃ r ∈ rows, r.id = cstr id ∧ r.user_id = cstr user_id) →
          ∃ r ∈ rows, (r.id = cstr id ∧ r.user_id = cstr user_id)
            ∧ get_note u (some rows) id user_id
                = match Note.from_json u r.tags with
                  | some decoded => Except.ok decoded
                  | Option.none => Except.error DbError.decode_failed) := by
  refine ⟨rfl, fun rows => ?_⟩
  rw [get_note_rows]
  cases hf : rows.find? (fun r => decide (r.id = cstr id ∧ r.user_id = cstr user_id)) with
  | none =>
    have h := List.find?_eq_none.mp hf
    refine ⟨⟨fun _ r hr => by simpa using h r hr, fun _ => rfl⟩, ?_⟩
    rintro ⟨r, hr, hm⟩
    exact absurd (by simpa using hm) (h r hr)
  | some row =>
    have hmem := List.mem_of_find?_eq_some hf
    have hp : row.id = cstr id ∧ row.user_id = cstr user_id := by
      simpa using List.find?_some hf
    refine ⟨⟨fun h => absurd h (note_from_statement_ne_not_found u row),
      fun h => absurd hp (h row hmem)⟩, ?_⟩
    intro _
    exact ⟨row, hmem, hp, note_from_statement_eq u row⟩

/-- C9: `Database::create_note` returns no note and inserts no row: on every
database, for every note, user id and generated id, the call throws "Failed to
prepare statement" (the text of the INSERT is not well formed) and leaves the
database unchanged; the id of the note given plays no part. -/
theorem create_note_never_prepares (generated freed : Str) (db : Db) (n : Note io)
    (user_id x : Str) :
    create_note generated freed db n user_id
        = (db, Except.error DbError.failed_to_prepare)
      ∧ create_note generated freed db { n with id := x } user_id
        = create_note generated freed db n user_id := by
  exact ⟨rfl, rfl⟩

/-- On a table whose rows hold, in the columns `tags` and `last_modified`, the
encoding and the `last_modified` of a note that is read back from its
encoding, `get_all_notes` returns the notes in descending order of their
`last_modified`. -/
theorem get_all_notes_descending (u : Nat → Indeterminate io) (rows : Store)
    (user_id : Str)
    (h : ∀ row ∈ rows, ∃ n : Note io, n.dated ∧ row.tags = n.to_json
      ∧ row.last_modified = n.last_modified) :
    ∃ notes : List (Note io), get_all_notes u (some rows) user_id = Except.ok notes
      ∧ descending notes := by
  obtain ⟨notes, hnotes, hmap⟩ := mapM_decoded u
    (orderByLastModifiedDesc (rows.filter (fun r => r.user_id = cstr user_id)))
    (fun row hrow => h row
      (List.mem_filter.1 ((mem_orderByLastModifiedDesc row _).1 hrow)).1)
  refine ⟨notes, hnotes, ?_⟩
  have hchain := orderByLastModifiedDesc_descending
    (rows.filter (fun r => r.user_id = cstr user_id))
  unfold descending
  rw [descendingBy_map, hmap, ← descendingBy_map]
  exact hchain

end Wazo
